import Mathlib

/-!
Verification of the openclaw-secure secret lifecycle engine.

This development shallowly embeds the core of the repository: the JSON-like
configuration document model, the dot-path utilities (src/paths.ts), the
secret classifier tables (src/patterns.ts), the discovery engine
(src/discovery.ts), and the lifecycle operations storeKeys, restoreKeys,
scrubKeys, checkKeys and migrateKeys (src/index.ts).

Modelling conventions:
  - JSON documents are trees of type JValue.  JavaScript arrays are modelled
    with an element list plus a property list for non-index string keys
    (JavaScript allows arbitrary expando properties on arrays; the special
    length property and sparse-hole semantics are not modelled, and holes
    created by writing past the end of an array are modelled as null, which
    is what JSON serialisation produces for them).
  - String splitting and joining are implemented over character lists so
    that every definition evaluates by kernel reduction.
  - Backend calls are modelled by an explicit state-passing interface; a
    failing call returns none (the JavaScript code throws).  Document
    persistence (readConfig and writeConfig) is modelled by passing the
    document value in and out: each lifecycle operation receives the on-disk
    document and returns the document that ends up on disk.
-/

namespace OpenclawSecure

/-- JSON-like value as handled by the TypeScript code.  Objects and arrays
keep insertion order.  Arrays carry an extra association list for non-index
string properties, mirroring JavaScript property assignment on arrays. -/
inductive JValue where
  | jnull : JValue
  | jbool : Bool → JValue
  | jnum : Int → JValue
  | jstr : String → JValue
  | jobj : List (String × JValue) → JValue
  | jarr : List JValue → List (String × JValue) → JValue

/-- Containers are the values JavaScript typeof reports as object, except
null: plain objects and arrays. -/
def isContainer : JValue → Bool
  | JValue.jobj _ => true
  | JValue.jarr _ _ => true
  | _ => false

/-- First-match lookup in an association list, as JavaScript property read. -/
def lookupKey : List (String × JValue) → String → Option JValue
  | [], _ => none
  | (k, v) :: rest, key => if k = key then some v else lookupKey rest key

/-- Property write: replaces the first binding of the key in place, or
appends a new binding, matching JavaScript property assignment order. -/
def setKey : List (String × JValue) → String → JValue → List (String × JValue)
  | [], key, v => [(key, v)]
  | (k, w) :: rest, key, v =>
      if k = key then (k, v) :: rest else (k, w) :: setKey rest key v

/-- Digits of a decimal numeral folded to a natural number. -/
def digitsToNat (cs : List Char) : Nat :=
  cs.foldl (fun n c => n * 10 + (c.toNat - 48)) 0

/-- Decides whether a string is a canonical array index in the JavaScript
sense: the canonical decimal representation of a natural number below
2^32 - 1.  Such property keys address array elements; all other keys on an
array address ordinary properties. -/
def canonIndex (s : String) : Option Nat :=
  if s.toList ≠ [] ∧ s.toList.all Char.isDigit then
    if Nat.repr (digitsToNat s.toList) = s ∧ digitsToNat s.toList < 4294967295 then
      some (digitsToNat s.toList)
    else none
  else none

/-- Element write into an array at a canonical index; writing past the end
pads with null (the JSON serialisation of the holes JavaScript creates). -/
def setIdx (elems : List JValue) (i : Nat) (v : JValue) : List JValue :=
  if i < elems.length then elems.set i v
  else elems ++ List.replicate (i - elems.length) JValue.jnull ++ [v]

/-- Child read of one path segment from a value, as the indexing operation
current[segment] in src/paths.ts. -/
def childGet : JValue → String → Option JValue
  | JValue.jobj fields, seg => lookupKey fields seg
  | JValue.jarr elems props, seg =>
      match canonIndex seg with
      | some i => elems.get? i
      | none => lookupKey props seg
  | _, _ => none

/-- Child write of one path segment into a container value; on
non-containers this is the identity (the code only assigns into values it
has just checked or repaired to be containers). -/
def assignSeg : JValue → String → JValue → JValue
  | JValue.jobj fields, seg, v => JValue.jobj (setKey fields seg v)
  | JValue.jarr elems props, seg, v =>
      match canonIndex seg with
      | some i => JValue.jarr (setIdx elems i v) props
      | none => JValue.jarr elems (setKey props seg v)
  | other, _, _ => other

/-- Splits a character list on a separator character; mirrors
String.prototype.split, in particular splitting the empty string yields one
empty piece. -/
def splitChars (sep : Char) : List Char → List (List Char)
  | [] => [[]]
  | c :: rest =>
      let r := splitChars sep rest
      if c = sep then [] :: r
      else
        match r with
        | h :: t => (c :: h) :: t
        | [] => [[c]]

/-- Dot-path segments of a path string, as path.split in src/paths.ts. -/
def pathSegs (p : String) : List String :=
  (splitChars '.' p.toList).map (fun cs => String.mk cs)

/-- Joins strings with a separator, as Array.prototype.join. -/
def joinSep (sep : String) : List String → String
  | [] => ""
  | [s] => s
  | s :: rest => s ++ sep ++ joinSep sep rest

/-- Traversal of getByPath (src/paths.ts) over already-split segments:
returns none the instant the current node is null, missing, or not a
container. -/
def getSegs : JValue → List String → Option JValue
  | v, [] => some v
  | v, seg :: rest =>
      match childGet v seg with
      | some c => getSegs c rest
      | none => none

/-- Intermediate node the setByPath descent continues into at one segment:
the current child when it is a container, and a fresh empty object when the
child is missing, null, or not a container (the destructive-looking repair
of src/paths.ts). -/
def subFor (cur : JValue) (seg : String) : JValue :=
  match childGet cur seg with
  | some c => if isContainer c then c else JValue.jobj []
  | none => JValue.jobj []

/-- Traversal of setByPath (src/paths.ts) over already-split segments: for
every intermediate segment whose current value is missing, null, or not a
container, a fresh empty object is substituted before continuing; the final
segment is assigned the new value. -/
def setSegs : JValue → List String → JValue → JValue
  | cur, [], _ => cur
  | cur, [last], v => assignSeg cur last v
  | cur, seg :: s2 :: rest, v =>
      assignSeg cur seg (setSegs (subFor cur seg) (s2 :: rest) v)

/-- Tail value assigned over one segment by the setByPath descent. -/
def setTail (d : JValue) (s : String) (t : List String) (v : JValue) : JValue :=
  match t with
  | [] => v
  | _ :: _ => setSegs (subFor d s) t v

/-- Divergence of two segment lists: a common stem followed by different
segments. -/
def Div (p q : List String) : Prop :=
  ∃ r a b p1 q1, a ≠ b ∧ p = r ++ a :: p1 ∧ q = r ++ b :: q1

/-- getByPath from src/paths.ts. -/
def getByPath (obj : JValue) (path : String) : Option JValue :=
  getSegs obj (pathSegs path)

/-- setByPath from src/paths.ts; the structuredClone the source performs
first makes the operation pure, which the heap model below verifies. -/
def setByPath (obj : JValue) (path : String) (value : JValue) : JValue :=
  setSegs obj (pathSegs path) value

/-- hasPath from src/paths.ts. -/
def hasPath (obj : JValue) (path : String) : Bool :=
  (getByPath obj path).isSome

/-- KEYCHAIN_PLACEHOLDER from src/constants.ts. -/
def KEYCHAIN_PLACEHOLDER : String := "[STORED_IN_KEYCHAIN]"

/-! Secret classifier tables, from src/patterns.ts. -/

/-- SECRET_KEY_SUFFIXES from src/patterns.ts. -/
def SECRET_KEY_SUFFIXES : List String :=
  ["token", "apikey", "secret", "password", "credential"]

/-- SECRET_KEY_EXACT from src/patterns.ts. -/
def SECRET_KEY_EXACT : List String :=
  ["apiKey", "token", "password", "secret", "botToken", "appToken",
   "userToken", "webhookSecret", "signingSecret"]

/-- SECRET_KEY_EXCLUDE from src/patterns.ts. -/
def SECRET_KEY_EXCLUDE : List String :=
  ["tokenFile", "mode", "tlsFingerprint", "sessionPrefix"]

/-- MIN_SECRET_LENGTH from src/patterns.ts. -/
def MIN_SECRET_LENGTH : Nat := 16

/-- KNOWN_SECRET_PATHS from src/patterns.ts. -/
def KNOWN_SECRET_PATHS : List String :=
  ["gateway.auth.token", "gateway.auth.password", "gateway.remote.token",
   "gateway.remote.password", "tts.elevenlabs.apiKey", "tts.openai.apiKey",
   "tools.web.search.apiKey", "tools.web.search.perplexity.apiKey",
   "tools.web.search.grok.apiKey", "tools.web.fetch.firecrawl.apiKey",
   "tools.memorySearch.remote.apiKey"]

/-- Lowercases a string character-wise (ASCII case mapping, matching the
identifiers the classifier actually meets). -/
def strLower (s : String) : String := String.mk (s.toList.map Char.toLower)

/-- Decides whether a string is wholly decimal digits and nonempty, as the
regular expression checking one-or-more digits. -/
def isDigitsStr (s : String) : Bool := s.toList ≠ [] && s.toList.all Char.isDigit

/-- Decides whether one string ends with another, over characters. -/
def strEndsWith (s tail : String) : Bool :=
  tail.toList.reverse.isPrefixOf s.toList.reverse

/-- Decides whether one string starts with another, over characters. -/
def strStartsWith (s start : String) : Bool := start.toList.isPrefixOf s.toList

/-- Tail test of the skills config path pattern from src/patterns.ts: at
least one character followed by one of the secret suffixes,
case-insensitively. -/
def configSecretTail (tail : String) : Bool :=
  SECRET_KEY_SUFFIXES.any fun suf =>
    strEndsWith (strLower tail) suf && suf.length < tail.length

/-- Channel credential field names appearing in the channel path patterns
of src/patterns.ts. -/
def channelKeyNames : List String :=
  ["botToken", "appToken", "userToken", "token", "webhookSecret", "signingSecret"]

/-- KNOWN_SECRET_PATH_PATTERNS from src/patterns.ts, translated pattern by
pattern over the dot-split segments; a bracketed non-dot-plus piece of a
pattern corresponds to one nonempty segment.  The skills config pattern
carries a case-insensitive flag in the source and is therefore checked on
the lowercased path. -/
def knownSecretPathPatterns (path : String) : Bool :=
  let segs := pathSegs path
  (match segs with
   | ["channels", x, k] => x ≠ "" && channelKeyNames.contains k
   | _ => false) ||
  (match segs with
   | ["channels", x, "accounts", y, k] =>
       x ≠ "" && y ≠ "" && channelKeyNames.contains k
   | _ => false) ||
  (match segs with
   | ["skills", "entries", x, "apiKey"] => x ≠ ""
   | _ => false) ||
  (match segs with
   | ["skills", "entries", x, "env", y] => x ≠ "" && y ≠ ""
   | _ => false) ||
  (match pathSegs (strLower path) with
   | "skills" :: "entries" :: x :: "config" :: rest =>
       x ≠ "" && rest ≠ [] && configSecretTail (joinSep "." rest)
   | _ => false) ||
  (match segs with
   | ["tools", "media", x, "models", d, "apiKey"] => x ≠ "" && isDigitsStr d
   | _ => false) ||
  (match segs with
   | ["tools", "media", "models", d, "apiKey"] => isDigitsStr d
   | _ => false) ||
  (match segs with
   | ["models", "providers", x, "apiKey"] => x ≠ ""
   | _ => false) ||
  (segs = ["tools", "memorySearch", "remote", "apiKey"])

/-- isKnownSecretPath from src/patterns.ts. -/
def isKnownSecretPath (path : String) : Bool :=
  KNOWN_SECRET_PATHS.contains path || knownSecretPathPatterns path

/-- isSecretKeyName from src/patterns.ts: exclusion wins, then exact names,
then case-insensitive suffix match. -/
def isSecretKeyName (key : String) : Bool :=
  if SECRET_KEY_EXCLUDE.contains key then false
  else if SECRET_KEY_EXACT.contains key then true
  else SECRET_KEY_SUFFIXES.any fun suf => strEndsWith (strLower key) suf

/-- Character class of letters, digits, hyphen and underscore used by
several credential shapes. -/
def isWordDash (c : Char) : Bool := c.isAlphanum || c = '-' || c = '_'

/-- SECRET_VALUE_PATTERNS from src/patterns.ts, translated shape by shape.
Each conjunct renders one anchored regular expression. -/
def secretValueShapes (s : String) : Bool :=
  let cs := s.toList
  (strStartsWith s "sk-" && 20 ≤ (cs.drop 3).length && (cs.drop 3).all isWordDash) ||
  (strStartsWith s "sk-proj-" && 20 ≤ (cs.drop 8).length && (cs.drop 8).all isWordDash) ||
  (match cs with
   | 'x' :: 'o' :: 'x' :: c :: '-' :: rest =>
       ['b', 'a', 'p', 'r', 's'].contains c && rest ≠ [] &&
         rest.all fun ch => ch.isAlphanum || ch = '-'
   | _ => false) ||
  (match splitChars ':' cs with
   | [a, b] =>
       a ≠ [] && a.all Char.isDigit && 30 ≤ b.length && b.all isWordDash
   | _ => false) ||
  (strStartsWith s "ghp_" && 20 ≤ (cs.drop 4).length && (cs.drop 4).all Char.isAlphanum) ||
  (strStartsWith s "gho_" && 20 ≤ (cs.drop 4).length && (cs.drop 4).all Char.isAlphanum) ||
  (strStartsWith s "glpat-" && 20 ≤ (cs.drop 6).length && (cs.drop 6).all isWordDash) ||
  (strStartsWith s "AKIA" && cs.length = 20 &&
    (cs.drop 4).all fun c => c.isUpper || c.isDigit) ||
  (strStartsWith s "AIza" && (cs.drop 4).length = 35 && (cs.drop 4).all isWordDash) ||
  (32 ≤ cs.length && cs.length ≤ 64 &&
    cs.all fun c => c.isDigit || ('a' ≤ c && c ≤ 'f'))

/-- matchesSecretValuePattern from src/patterns.ts. -/
def matchesSecretValuePattern (value : String) : Bool :=
  if value.length < MIN_SECRET_LENGTH then false else secretValueShapes value

/-! Discovery engine, from src/discovery.ts. -/

/-- MatchType from src/discovery.ts. -/
inductive MatchType where
  | knownPath : MatchType
  | keyPattern : MatchType
  | valuePattern : MatchType
deriving DecidableEq, Repr

/-- DiscoveredSecret from src/discovery.ts. -/
structure DiscoveredSecret where
  configPath : String
  keychainName : String
  matchType : MatchType
  value : String
deriving DecidableEq, Repr

/-- DiscoveryOptions from src/discovery.ts, with the defaults the source
applies already filled in. -/
structure DiscoveryOptions where
  includeUnknownPatterns : Bool := false
  additionalPaths : List String := []
  excludePaths : List String := []

/-- Structural-noise segments skipped by pathToKeychainName. -/
def structuralNoise : List String :=
  ["channels", "skills", "tools", "accounts", "entries", "web", "media"]

/-- Camel-case to kebab-case conversion of one segment: a hyphen is
inserted at each lowercase-to-uppercase boundary and everything is
lowercased, as the regular-expression replacement in pathToKeychainName. -/
def kebabChars : List Char → List Char
  | [] => []
  | [c] => [c.toLower]
  | a :: b :: rest =>
      if a.isLower && b.isUpper then a.toLower :: '-' :: kebabChars (b :: rest)
      else a.toLower :: kebabChars (b :: rest)

/-- Kebab-case form of one path segment. -/
def toKebab (s : String) : String := String.mk (kebabChars s.toList)

/-- pathToKeychainName from src/discovery.ts: drop structural-noise
segments and wholly-numeric segments, kebab-case the rest, join with
hyphens. -/
def pathToKeychainName (configPath : String) : String :=
  let parts := pathSegs configPath
  let kept := parts.filter fun part =>
    !(structuralNoise.contains part) && !(isDigitsStr part)
  joinSep "-" (kept.map toKebab)

/-- Wildcard matching of the regular expression a pattern containing a star
is compiled to in matchesExcludePattern: anchored at both ends, a star
matches any character sequence, every other character matches itself.
Regular-expression metacharacters other than the escaped dot are not given
their meta meaning in this model. -/
def globChars : List Char → List Char → Bool
  | [], s => s.isEmpty
  | '*' :: ps, s =>
      globChars ps s ||
        match s with
        | [] => false
        | _ :: s1 => globChars ('*' :: ps) s1
  | _ :: _, [] => false
  | p :: ps, c :: s1 => p = c && globChars ps s1

/-- Decides whether a string contains a given character. -/
def strHasChar (s : String) (c : Char) : Bool := s.toList.contains c

/-- matchesExcludePattern from src/discovery.ts: a pattern with a star is
wildcard-matched; otherwise it suppresses the exact path and everything
below it. -/
def matchesExcludePattern (path : String) (patterns : List String) : Bool :=
  patterns.any fun pat =>
    if strHasChar pat '*' then globChars pat.toList path.toList
    else path = pat || strStartsWith path (pat ++ ".")

/-- Classification of one string leaf by the walk inside discoverSecrets:
the checks run in source order (seen, excluded path, excluded key,
placeholder, length floor, additional paths, known paths, key name,
value shape) and a report appends the path to the seen set and the secret
to the output. -/
def pushLeaf (path : List String) (s : String) (mt : MatchType)
    (st : List String × List DiscoveredSecret) :
    List String × List DiscoveredSecret :=
  (st.1 ++ [joinSep "." path],
   st.2 ++ [⟨joinSep "." path, pathToKeychainName (joinSep "." path), mt, s⟩])

def classifyLeaf (opts : DiscoveryOptions) (path : List String) (s : String)
    (st : List String × List DiscoveredSecret) :
    List String × List DiscoveredSecret :=
  if st.1.contains (joinSep "." path) then st
  else if matchesExcludePattern (joinSep "." path) opts.excludePaths then st
  else if SECRET_KEY_EXCLUDE.contains (path.getLastD "") then st
  else if s = KEYCHAIN_PLACEHOLDER then st
  else if s.length < MIN_SECRET_LENGTH then st
  else if opts.additionalPaths.contains (joinSep "." path) then
    pushLeaf path s MatchType.knownPath st
  else if isKnownSecretPath (joinSep "." path) then
    pushLeaf path s MatchType.knownPath st
  else if isSecretKeyName (path.getLastD "") then
    pushLeaf path s MatchType.keyPattern st
  else if opts.includeUnknownPatterns && matchesSecretValuePattern s then
    pushLeaf path s MatchType.valuePattern st
  else st

mutual

/-- Depth-first walk of discoverSecrets over one value.  The state is the
pair of the seen-path set and the secrets accumulated so far, both in
insertion order. -/
def walkVal (opts : DiscoveryOptions) (v : JValue) (path : List String)
    (st : List String × List DiscoveredSecret) :
    List String × List DiscoveredSecret :=
  match v with
  | JValue.jnull => st
  | JValue.jbool _ => st
  | JValue.jnum _ => st
  | JValue.jstr s => classifyLeaf opts path s st
  | JValue.jobj fields => walkFields opts fields path st
  | JValue.jarr elems _ => walkElems opts elems 0 path st

/-- Walk of the entries of an object, in order. -/
def walkFields (opts : DiscoveryOptions) (fields : List (String × JValue))
    (path : List String) (st : List String × List DiscoveredSecret) :
    List String × List DiscoveredSecret :=
  match fields with
  | [] => st
  | (k, v) :: rest => walkFields opts rest path (walkVal opts v (path ++ [k]) st)

/-- Walk of the elements of an array with synthetic decimal index
segments; array expando properties are not visited, as forEach does not
visit them. -/
def walkElems (opts : DiscoveryOptions) (elems : List JValue) (i : Nat)
    (path : List String) (st : List String × List DiscoveredSecret) :
    List String × List DiscoveredSecret :=
  match elems with
  | [] => st
  | v :: rest => walkElems opts rest (i + 1) path (walkVal opts v (path ++ [Nat.repr i]) st)

end

/-- Comparator used to model the final localeCompare sort of
discoverSecrets; any total order gives the same set of reports, and the
codepoint order stands in for the locale order here. -/
def secretLE (a b : DiscoveredSecret) : Prop := a.configPath ≤ b.configPath

instance : DecidableRel secretLE := fun a b => by
  unfold secretLE; infer_instance

/-- discoverSecrets from src/discovery.ts: walk the whole document from the
empty path, then sort the reports by path. -/
def discoverSecrets (config : JValue) (opts : DiscoveryOptions) :
    List DiscoveredSecret :=
  List.insertionSort secretLE (walkVal opts config [] ([], [])).2

/-- SecretEntry from src/types.ts. -/
structure SecretEntry where
  configPath : String
  keychainName : String
deriving DecidableEq, Repr

/-- discoveredToSecretMap from src/discovery.ts. -/
def discoveredToSecretMap (discovered : List DiscoveredSecret) : List SecretEntry :=
  discovered.map fun d => ⟨d.configPath, d.keychainName⟩

/-! Lifecycle engine, from src/index.ts. -/

/-- StoreResult from src/types.ts. -/
structure StoreResult where
  keychainName : String
  configPath : String
  stored : Bool
  skipped : Bool
  reason : Option String
deriving DecidableEq, Repr

/-- Backend capability interface (src/backends/types.ts) as a state
machine.  The set and delete operations return none when the vendor call
throws; the absent case of get is its none result, and a thrown get is not
modelled (no claim depends on it). -/
structure BackendOps (σ : Type) where
  get : σ → String → Option String
  set : σ → String → String → Option σ
  del : σ → String → Option σ

/-- State of the in-memory reference backend: an association list of key
and value, unique keys. -/
abbrev BState := List (String × String)

/-- Lookup in the in-memory backend. -/
def bGet : BState → String → Option String
  | [], _ => none
  | (k, v) :: rest, key => if k = key then some v else bGet rest key

/-- Create-or-overwrite write in the in-memory backend. -/
def bSet : BState → String → String → BState
  | [], key, v => [(key, v)]
  | (k, w) :: rest, key, v =>
      if k = key then (k, v) :: rest else (k, w) :: bSet rest key v

/-- Deletion in the in-memory backend; a no-op when the key is absent. -/
def bDel (s : BState) (key : String) : BState :=
  s.filter fun kv => kv.1 ≠ key

/-- The honest in-memory backend (the mock backend of the repository's
tests); its operations never fail. -/
def memOps : BackendOps BState :=
  ⟨fun s k => bGet s k, fun s k v => some (bSet s k v), fun s k => some (bDel s k)⟩

/-- Per-entry loop of storeKeys, threading the in-memory document and the
backend state.  The third component is none when a backend set call threw,
in which case the document and state components are the in-memory values at
the moment of the failure. -/
def storeLoop (ops : BackendOps σ) :
    JValue → σ → List SecretEntry → JValue × σ × Option (List StoreResult)
  | c, s, [] => (c, s, some [])
  | c, s, e :: rest =>
      match getByPath c e.configPath with
      | none =>
          let (c2, s2, r) := storeLoop ops c s rest
          (c2, s2, r.map fun rs =>
            ⟨e.keychainName, e.configPath, false, true, some "Value not found in config"⟩ :: rs)
      | some JValue.jnull =>
          let (c2, s2, r) := storeLoop ops c s rest
          (c2, s2, r.map fun rs =>
            ⟨e.keychainName, e.configPath, false, true, some "Value not found in config"⟩ :: rs)
      | some (JValue.jstr v) =>
          if v = KEYCHAIN_PLACEHOLDER then
            let (c2, s2, r) := storeLoop ops c s rest
            (c2, s2, r.map fun rs =>
              ⟨e.keychainName, e.configPath, false, true, some "Already stored in backend"⟩ :: rs)
          else
            match ops.set s e.keychainName v with
            | none => (c, s, none)
            | some s1 =>
                let c1 := setByPath c e.configPath (JValue.jstr KEYCHAIN_PLACEHOLDER)
                let (c2, s2, r) := storeLoop ops c1 s1 rest
                (c2, s2, r.map fun rs =>
                  ⟨e.keychainName, e.configPath, true, false, none⟩ :: rs)
      | some _ =>
          let (c2, s2, r) := storeLoop ops c s rest
          (c2, s2, r.map fun rs =>
            ⟨e.keychainName, e.configPath, false, true, some "Value is not a string"⟩ :: rs)

/-- storeKeys from src/index.ts.  The first component is the document that
is on disk after the call: the loop result when the whole batch succeeded
(the single writeConfig at the end of the function), and the unchanged
input document when a backend set threw mid-batch, because the write never
runs in that case. -/
def storeKeys (ops : BackendOps σ) (disk : JValue) (s : σ)
    (secretMap : List SecretEntry) : JValue × σ × Option (List StoreResult) :=
  match storeLoop ops disk s secretMap with
  | (c, s1, some rs) => (c, s1, some rs)
  | (_, s1, none) => (disk, s1, none)

/-- Per-entry loop of restoreKeys: a key the backend resolves is written
into the document, an absent key leaves the document untouched. -/
def restoreLoop (ops : BackendOps σ) (s : σ) :
    JValue → List SecretEntry → JValue
  | c, [] => c
  | c, e :: rest =>
      match ops.get s e.keychainName with
      | some v => restoreLoop ops s (setByPath c e.configPath (JValue.jstr v)) rest
      | none => restoreLoop ops s c rest

/-- restoreKeys from src/index.ts, document in, persisted document out. -/
def restoreKeys (ops : BackendOps σ) (disk : JValue) (s : σ)
    (secretMap : List SecretEntry) : JValue :=
  restoreLoop ops s disk secretMap

/-- Per-entry loop of scrubKeys: a present value different from the
placeholder is replaced by the placeholder. -/
def scrubLoop : JValue → List SecretEntry → JValue
  | c, [] => c
  | c, e :: rest =>
      match getByPath c e.configPath with
      | none => scrubLoop c rest
      | some (JValue.jstr v) =>
          if v = KEYCHAIN_PLACEHOLDER then scrubLoop c rest
          else scrubLoop (setByPath c e.configPath (JValue.jstr KEYCHAIN_PLACEHOLDER)) rest
      | some _ =>
          scrubLoop (setByPath c e.configPath (JValue.jstr KEYCHAIN_PLACEHOLDER)) rest

/-- scrubKeys from src/index.ts, document in, persisted document out. -/
def scrubKeys (disk : JValue) (secretMap : List SecretEntry) : JValue :=
  scrubLoop disk secretMap

/-- KeyCheckResult from src/types.ts. -/
structure KeyCheckResult where
  keychainName : String
  configPath : String
  exists2 : Bool
deriving DecidableEq, Repr

/-- checkKeys from src/index.ts. -/
def checkKeys (ops : BackendOps σ) (s : σ) (secretMap : List SecretEntry) :
    List KeyCheckResult :=
  secretMap.map fun e => ⟨e.keychainName, e.configPath, (ops.get s e.keychainName).isSome⟩

/-- MigrateResult from src/index.ts. -/
structure MigrateResult where
  configPath : String
  oldName : String
  newName : String
  migrated : Bool
  reason : Option String
deriving DecidableEq, Repr

/-- Modelled from the spec: the LEGACY_KEY_NAMES constant lives in
src/constants.ts, which is not among the provided sources; its entries are
reconstructed from the specification (scenario 5 and the LegacyNameMap
description) and pinned by the repository's migrate tests. -/
def LEGACY_KEY_NAMES : List (String × String) :=
  [("skills.entries.openai-whisper-api.apiKey", "whisper-api-key"),
   ("tools.web.search.apiKey", "brave-search-api-key")]

/-- Per-entry loop of migrateKeys over an arbitrary legacy map, faithful to
the source; a backend failure propagates as none. -/
def migrateLoop (ops : BackendOps σ) :
    σ → List (String × String) → Option (σ × List MigrateResult)
  | s, [] => some (s, [])
  | s, (configPath, oldName) :: rest =>
      let newName := pathToKeychainName configPath
      if oldName = newName then
        (migrateLoop ops s rest).map fun r =>
          (r.1, ⟨configPath, oldName, newName, false, some "Names are identical"⟩ :: r.2)
      else
        match ops.get s oldName with
        | none =>
            (migrateLoop ops s rest).map fun r =>
              (r.1, ⟨configPath, oldName, newName, false, some "No value found at old name"⟩ :: r.2)
        | some value =>
            match ops.get s newName with
            | some _ =>
                match ops.del s oldName with
                | none => none
                | some s1 =>
                    (migrateLoop ops s1 rest).map fun r =>
                      (r.1, ⟨configPath, oldName, newName, true,
                             some "Deleted old (new already existed)"⟩ :: r.2)
            | none =>
                match ops.set s newName value with
                | none => none
                | some s1 =>
                    match ops.del s1 oldName with
                    | none => none
                    | some s2 =>
                        (migrateLoop ops s2 rest).map fun r =>
                          (r.1, ⟨configPath, oldName, newName, true, none⟩ :: r.2)

/-- migrateKeys from src/index.ts. -/
def migrateKeys (ops : BackendOps σ) (s : σ) : Option (σ × List MigrateResult) :=
  migrateLoop ops s LEGACY_KEY_NAMES

/-!
Heap model of setByPath.

The pure setByPath above models the value computed by the source function.
The source, however, works by mutation: it structured-clones the input and
then destructively updates the clone.  To verify the frame contract, that
the object graph of the original document is never mutated, the function is
re-modelled here over an explicit heap.  JavaScript primitives are
immediate values and objects and arrays are references into the heap.
-/

/-- Heap value: a JavaScript primitive or a reference to a heap cell. -/
inductive HVal where
  | hnull : HVal
  | hbool : Bool → HVal
  | hnum : Int → HVal
  | hstr : String → HVal
  | href : Nat → HVal
deriving DecidableEq, Repr

/-- Heap cell: a plain object or an array with elements and expando
properties. -/
inductive HNode where
  | nodeObj : List (String × HVal) → HNode
  | nodeArr : List HVal → List (String × HVal) → HNode
deriving DecidableEq, Repr

/-- Heap: cells addressed by position. -/
abbrev Heap := List HNode

/-- First-match lookup in a property list of heap values. -/
def hLookupKey : List (String × HVal) → String → Option HVal
  | [], _ => none
  | (k, v) :: rest, key => if k = key then some v else hLookupKey rest key

/-- Property write in a property list of heap values. -/
def hSetKey : List (String × HVal) → String → HVal → List (String × HVal)
  | [], key, v => [(key, v)]
  | (k, w) :: rest, key, v =>
      if k = key then (k, v) :: rest else (k, w) :: hSetKey rest key v

/-- Element write into a heap array, padding holes with null. -/
def hSetIdx (elems : List HVal) (i : Nat) (v : HVal) : List HVal :=
  if i < elems.length then elems.set i v
  else elems ++ List.replicate (i - elems.length) HVal.hnull ++ [v]

/-- Indexing current[segment] on the node stored at an address. -/
def hChildGet (h : Heap) (a : Nat) (seg : String) : Option HVal :=
  match h.get? a with
  | some (HNode.nodeObj fields) => hLookupKey fields seg
  | some (HNode.nodeArr elems props) =>
      match canonIndex seg with
      | some i => elems.get? i
      | none => hLookupKey props seg
  | none => none

/-- Assignment current[segment] = v on the node stored at an address. -/
def hAssign (h : Heap) (a : Nat) (seg : String) (v : HVal) : Heap :=
  match h.get? a with
  | some (HNode.nodeObj fields) => h.set a (HNode.nodeObj (hSetKey fields seg v))
  | some (HNode.nodeArr elems props) =>
      match canonIndex seg with
      | some i => h.set a (HNode.nodeArr (hSetIdx elems i v) props)
      | none => h.set a (HNode.nodeArr elems (hSetKey props seg v))
  | none => h

mutual

/-- Fuel-bounded structured clone of a heap value: primitives are copied,
references are deep-copied into freshly allocated cells.  The fuel only
bounds the depth; every caller passes enough for the acyclic documents the
tool handles, and the frame theorem holds for any fuel. -/
def hCloneV : Nat → Heap → HVal → Heap × HVal
  | 0, h, _ => (h, HVal.hnull)
  | Nat.succ fuel, h, v =>
      match v with
      | HVal.href a =>
          match h.get? a with
          | some (HNode.nodeObj fields) =>
              let (h1, fields1) := hCloneFields fuel h fields
              (h1 ++ [HNode.nodeObj fields1], HVal.href h1.length)
          | some (HNode.nodeArr elems props) =>
              let (h1, elems1) := hCloneElems fuel h elems
              let (h2, props1) := hCloneFields fuel h1 props
              (h2 ++ [HNode.nodeArr elems1 props1], HVal.href h2.length)
          | none => (h, HVal.hnull)
      | prim => (h, prim)

/-- Clone of a property list, left to right. -/
def hCloneFields : Nat → Heap → List (String × HVal) → Heap × List (String × HVal)
  | _, h, [] => (h, [])
  | fuel, h, (k, v) :: rest =>
      let (h1, v1) := hCloneV fuel h v
      let (h2, rest1) := hCloneFields fuel h1 rest
      (h2, (k, v1) :: rest1)

/-- Clone of an element list, left to right. -/
def hCloneElems : Nat → Heap → List HVal → Heap × List HVal
  | _, h, [] => (h, [])
  | fuel, h, v :: rest =>
      let (h1, v1) := hCloneV fuel h v
      let (h2, rest1) := hCloneElems fuel h1 rest
      (h2, v1 :: rest1)

end

/-- Iterative descent of setByPath after the clone: on each intermediate
segment, descend when current[segment] is a non-null object (a reference),
otherwise allocate a fresh empty object, assign it over the segment, and
descend into it; the last segment is assigned the value. -/
def hSetLoop : Heap → Nat → List String → HVal → Heap
  | h, _, [], _ => h
  | h, cur, [last], v => hAssign h cur last v
  | h, cur, seg :: s2 :: rest, v =>
      match hChildGet h cur seg with
      | some (HVal.href c) => hSetLoop h c (s2 :: rest) v
      | _ =>
          let fresh := h.length
          let h1 := h ++ [HNode.nodeObj []]
          let h2 := hAssign h1 cur seg (HVal.href fresh)
          hSetLoop h2 fresh (s2 :: rest) v

/-- setByPath over the heap model: structured-clone the root, then run the
destructive descent on the clone.  The fuel passed to the clone suffices
for every acyclic heap, and no theorem below depends on its exact value. -/
def setByPathHeap (h : Heap) (root : HVal) (path : String) (v : HVal) : Heap × HVal :=
  let (h1, r) := hCloneV (h.length + 1) h root
  match r with
  | HVal.href a => (hSetLoop h1 a (pathSegs path) v, r)
  | _ => (h1, r)

/-- References appearing directly in a heap node. -/
def nodeRefs : HNode → List Nat
  | HNode.nodeObj fields => fields.filterMap fun kv =>
      match kv.2 with
      | HVal.href a => some a
      | _ => none
  | HNode.nodeArr elems props =>
      (elems.filterMap fun v =>
        match v with
        | HVal.href a => some a
        | _ => none) ++
      (props.filterMap fun kv =>
        match kv.2 with
        | HVal.href a => some a
        | _ => none)

/-- All cells at addresses at least n hold references only to addresses at
least n.  The clone phase of setByPath establishes this for the freshly
appended cells, and the destructive descent preserves it; the property
confines every write above the watermark n. -/
def HighCells (n : Nat) (h : Heap) : Prop :=
  ∀ a, n ≤ a → ∀ node, h.get? a = some node → ∀ r ∈ nodeRefs node, n ≤ r

/-! Specification auxiliaries: predicates used only to state and prove the
properties below; they are not part of the embedded source. -/

/-- Conditions every secret pushed by the discovery walk satisfies: the
length floor, the placeholder exclusion, and the exclude-pattern filter. -/
def SoundSecret (opts : DiscoveryOptions) (s : DiscoveredSecret) : Prop :=
  MIN_SECRET_LENGTH ≤ s.value.length ∧
  s.value ≠ KEYCHAIN_PLACEHOLDER ∧
  matchesExcludePattern s.configPath opts.excludePaths = false

mutual

/-- Every string leaf of the document equals the placeholder. -/
def allStrPH : JValue → Bool
  | JValue.jnull => true
  | JValue.jbool _ => true
  | JValue.jnum _ => true
  | JValue.jstr s => s == KEYCHAIN_PLACEHOLDER
  | JValue.jobj fields => allStrPHFields fields
  | JValue.jarr elems props => allStrPHElems elems && allStrPHFields props

/-- Every string leaf under the fields equals the placeholder. -/
def allStrPHFields : List (String × JValue) → Bool
  | [] => true
  | (_, v) :: rest => allStrPH v && allStrPHFields rest

/-- Every string leaf under the elements equals the placeholder. -/
def allStrPHElems : List JValue → Bool
  | [] => true
  | v :: rest => allStrPH v && allStrPHElems rest

end

/-- Tree-leaf lookup along segments, following object keys in first-match
order and array elements by canonical index.  It agrees with getSegs except
that it does not read array expando properties, which the discovery walk
never visits. -/
def pathAt : JValue → List String → Option JValue
  | v, [] => some v
  | JValue.jobj fields, seg :: rest =>
      match lookupKey fields seg with
      | some c => pathAt c rest
      | none => none
  | JValue.jarr elems _, seg :: rest =>
      match canonIndex seg with
      | some i =>
          match elems.get? i with
          | some c => pathAt c rest
          | none => none
      | none => none
  | _, _ :: _ => none

/-- Invariant of the discovery walk state: every seen path that is listed
in additionalPaths has already been reported with the known-path match
type. -/
def InvAdd (opts : DiscoveryOptions) (st : List String × List DiscoveredSecret) : Prop :=
  ∀ P ∈ st.1, P ∈ opts.additionalPaths →
    ∃ v, DiscoveredSecret.mk P (pathToKeychainName P) MatchType.knownPath v ∈ st.2

/-- In-memory document evolution of the storeKeys loop: exactly the
placeholder substitutions the loop performs, independent of the backend
(the in-memory backend never fails). -/
def storeDocFold : JValue → List SecretEntry → JValue
  | c, [] => c
  | c, e :: rest =>
      match getByPath c e.configPath with
      | some (JValue.jstr v) =>
          if v = KEYCHAIN_PLACEHOLDER then storeDocFold c rest
          else storeDocFold (setByPath c e.configPath (JValue.jstr KEYCHAIN_PLACEHOLDER)) rest
      | _ => storeDocFold c rest

/-- Entries the storeKeys loop stores, with the values it captures, in
processing order. -/
def storeTrace : JValue → List SecretEntry → List (SecretEntry × String)
  | _, [] => []
  | c, e :: rest =>
      match getByPath c e.configPath with
      | some (JValue.jstr v) =>
          if v = KEYCHAIN_PLACEHOLDER then storeTrace c rest
          else (e, v) :: storeTrace (setByPath c e.configPath (JValue.jstr KEYCHAIN_PLACEHOLDER)) rest
      | _ => storeTrace c rest

/-- Backend content after a list of writes. -/
def applyWrites (s : BState) : List (SecretEntry × String) → BState
  | [] => s
  | (e, v) :: rest => applyWrites (bSet s e.keychainName v) rest

/-- Backend whose every call throws; used to exercise the mid-batch
failure path of storeKeys. -/
def failOps : BackendOps Unit :=
  ⟨fun _ _ => none, fun _ _ _ => none, fun _ _ => none⟩

/-- The condition under which the store loop leaves the document and the
backend untouched for an entry: the value at the path is absent, null, not
a string, or already the placeholder. -/
def storeSkip : Option JValue → Prop
  | none => True
  | some JValue.jnull => True
  | some (JValue.jstr v) => v = KEYCHAIN_PLACEHOLDER
  | some _ => True

/-! Lemmas about association lists and array element lists. -/

theorem lookupKey_setKey_same (fs : List (String × JValue)) (k : String) (v : JValue) :
    lookupKey (setKey fs k v) k = some v := by
  induction fs with
  | nil => simp [setKey, lookupKey]
  | cons kv rest ih =>
      obtain ⟨k1, w⟩ := kv
      by_cases h : k1 = k
      · simp [setKey, h, lookupKey]
      · simp [setKey, h, lookupKey, ih]

theorem lookupKey_setKey_ne (fs : List (String × JValue)) {k k' : String} (v : JValue)
    (h : k' ≠ k) : lookupKey (setKey fs k v) k' = lookupKey fs k' := by
  have h1 : k ≠ k' := Ne.symm h
  induction fs with
  | nil => simp [setKey, lookupKey, h1]
  | cons kv rest ih =>
      obtain ⟨k1, w⟩ := kv
      by_cases h2 : k1 = k
      · subst h2
        simp [setKey, lookupKey, h1]
      · by_cases h3 : k1 = k'
        · subst h3
          simp [setKey, lookupKey, h, h2]
        · simp [setKey, h2, lookupKey, h3, ih]

theorem setKey_setKey_same (fs : List (String × JValue)) (k : String) (a b : JValue) :
    setKey (setKey fs k a) k b = setKey fs k b := by
  induction fs with
  | nil => simp [setKey]
  | cons kv rest ih =>
      obtain ⟨k1, w⟩ := kv
      by_cases h : k1 = k
      · simp [setKey, h]
      · simp [setKey, h, ih]

theorem setKey_comm (fs : List (String × JValue)) {k k' : String} {w w' : JValue}
    (a b : JValue) (h : k ≠ k') (hk : lookupKey fs k = some w)
    (hk' : lookupKey fs k' = some w') :
    setKey (setKey fs k a) k' b = setKey (setKey fs k' b) k a := by
  induction fs with
  | nil => simp [lookupKey] at hk
  | cons kv rest ih =>
      obtain ⟨k1, x⟩ := kv
      by_cases h1 : k1 = k
      · subst h1
        have h2 : ¬ k1 = k' := h
        simp [setKey, h2]
      · by_cases h2 : k1 = k'
        · subst h2
          simp [setKey, h1, fun hh : k1 = k => h1 hh]
        · simp [lookupKey, h1] at hk
          simp [lookupKey, h2] at hk'
          simp [setKey, h1, h2, ih hk hk']

theorem setKey_id (fs : List (String × JValue)) {k : String} {v : JValue}
    (h : lookupKey fs k = some v) : setKey fs k v = fs := by
  induction fs with
  | nil => simp [lookupKey] at h
  | cons kv rest ih =>
      obtain ⟨k1, w⟩ := kv
      by_cases h1 : k1 = k
      · simp [lookupKey, h1] at h
        simp [setKey, h1, h]
      · simp [lookupKey, h1] at h
        simp [setKey, h1, ih h]

theorem list_set_id : ∀ {l : List JValue} {i : Nat} {v : JValue},
    l.get? i = some v → l.set i v = l
  | [], i, v, h => by simp [List.get?] at h
  | x :: rest, 0, v, h => by
      have h1 : x = v := by simpa [List.get?] using h
      simp [List.set, h1]
  | x :: rest, Nat.succ j, v, h => by
      have h1 : rest.get? j = some v := h
      simp [List.set, list_set_id h1]

theorem canonIndex_repr {s : String} {n : Nat} (h : canonIndex s = some n) :
    s = Nat.repr n := by
  unfold canonIndex at h
  split at h
  · split at h
    · rename_i hrep
      have h2 : digitsToNat s.toList = n := by simpa using h
      exact h2 ▸ hrep.1.symm
    · simp at h
  · simp at h

theorem get?_setIdx_same (l : List JValue) (i : Nat) (v : JValue) :
    (setIdx l i v).get? i = some v := by
  unfold setIdx
  by_cases h : i < l.length
  · simp [h, List.get?_set_eq_of_lt]
  · simp only [h, if_false]
    rw [List.get?_append_right (by simp; omega)]
    have h2 : i - (l ++ List.replicate (i - l.length) JValue.jnull).length = 0 := by
      simp; omega
    rw [h2]
    rfl

theorem get?_some_lt {l : List JValue} {n : Nat} {a : JValue}
    (h : l.get? n = some a) : n < l.length := by
  by_contra hc
  rw [List.get?_eq_none.mpr (Nat.le_of_not_lt hc)] at h
  exact Option.noConfusion h

theorem lget_set_same : ∀ (l : List JValue) (i : Nat) (v : JValue),
    i < l.length → (l.set i v).get? i = some v
  | [], i, _, h => absurd h (by simp)
  | _ :: _, 0, _, _ => rfl
  | _ :: rest, Nat.succ i, v, h => lget_set_same rest i v (Nat.lt_of_succ_lt_succ h)

theorem lget_set_ne : ∀ (l : List JValue) (i j : Nat) (v : JValue),
    j ≠ i → (l.set i v).get? j = l.get? j
  | [], _, _, _, _ => rfl
  | _ :: _, 0, 0, _, h => absurd rfl h
  | _ :: _, 0, Nat.succ _, _, _ => rfl
  | _ :: _, Nat.succ _, 0, _, _ => rfl
  | _ :: rest, Nat.succ i, Nat.succ j, v, h =>
      lget_set_ne rest i j v fun hh => h (by rw [hh])

theorem get?_setIdx_ne {l : List JValue} {i : Nat} {w : JValue}
    (hp : l.get? i = some w) {j : Nat} (h : j ≠ i) (v : JValue) :
    (setIdx l i v).get? j = l.get? j := by
  unfold setIdx
  rw [if_pos (get?_some_lt hp)]
  exact lget_set_ne l i j v h

/-! Lemmas about one-segment reads and writes on container values. -/

theorem canonIndex_inj {s t : String} {n : Nat} (hs : canonIndex s = some n)
    (ht : canonIndex t = some n) : s = t :=
  (canonIndex_repr hs).trans (canonIndex_repr ht).symm

theorem childGet_arr (elems : List JValue) (props : List (String × JValue)) (seg : String) :
    childGet (JValue.jarr elems props) seg =
      match canonIndex seg with
      | some i => elems.get? i
      | none => lookupKey props seg := rfl

theorem assignSeg_arr (elems : List JValue) (props : List (String × JValue))
    (seg : String) (v : JValue) :
    assignSeg (JValue.jarr elems props) seg v =
      match canonIndex seg with
      | some i => JValue.jarr (setIdx elems i v) props
      | none => JValue.jarr elems (setKey props seg v) := rfl

theorem childGet_assignSeg_same {c : JValue} (hc : isContainer c = true)
    (seg : String) (v : JValue) : childGet (assignSeg c seg v) seg = some v := by
  cases c
  case jobj fields => exact lookupKey_setKey_same fields seg v
  case jarr elems props =>
      cases h : canonIndex seg with
      | some i =>
          rw [assignSeg_arr]
          simp only [h, childGet_arr]
          exact get?_setIdx_same elems i v
      | none =>
          rw [assignSeg_arr]
          simp only [h, childGet_arr]
          exact lookupKey_setKey_same props seg v
  all_goals simp [isContainer] at hc

theorem childGet_assignSeg_ne {c : JValue} {seg : String} {w : JValue}
    (hp : childGet c seg = some w) {seg' : String} (h : seg' ≠ seg) (v : JValue) :
    childGet (assignSeg c seg v) seg' = childGet c seg' := by
  cases c
  case jobj fields => exact lookupKey_setKey_ne fields v h
  case jarr elems props =>
      rw [childGet_arr] at hp
      cases hs : canonIndex seg with
      | some i =>
          simp only [hs] at hp
          rw [assignSeg_arr]
          simp only [hs, childGet_arr]
          cases hs' : canonIndex seg' with
          | some j =>
              have hij : j ≠ i := fun hji => h (canonIndex_inj hs' (hji ▸ hs))
              exact get?_setIdx_ne hp hij v
          | none => rfl
      | none =>
          simp only [hs] at hp
          rw [assignSeg_arr]
          simp only [hs, childGet_arr]
          cases hs' : canonIndex seg' with
          | some j => rfl
          | none => exact lookupKey_setKey_ne props v h
  all_goals simp [childGet] at hp

theorem isContainer_assignSeg {c : JValue} (hc : isContainer c = true)
    (seg : String) (v : JValue) : isContainer (assignSeg c seg v) = true := by
  cases c
  case jobj fields => rfl
  case jarr elems props =>
      rw [assignSeg_arr]
      cases canonIndex seg <;> rfl
  all_goals simp [isContainer] at hc

theorem assignSeg_id {c : JValue} {seg : String} {v : JValue}
    (hp : childGet c seg = some v) : assignSeg c seg v = c := by
  cases c
  case jobj fields =>
      show JValue.jobj (setKey fields seg v) = JValue.jobj fields
      rw [setKey_id fields hp]
  case jarr elems props =>
      rw [childGet_arr] at hp
      cases hs : canonIndex seg with
      | some i =>
          simp only [hs] at hp
          rw [assignSeg_arr]
          simp only [hs]
          have e1 : setIdx elems i v = elems.set i v := by
            simp [setIdx, get?_some_lt hp]
          rw [e1, list_set_id hp]
      | none =>
          simp only [hs] at hp
          rw [assignSeg_arr]
          simp only [hs]
          rw [setKey_id props hp]
  all_goals simp [childGet] at hp

theorem assignSeg_assignSeg_same {c : JValue} {seg : String} {w : JValue}
    (hp : childGet c seg = some w) (a b : JValue) :
    assignSeg (assignSeg c seg a) seg b = assignSeg c seg b := by
  cases c
  case jobj fields =>
      show JValue.jobj (setKey (setKey fields seg a) seg b) = JValue.jobj (setKey fields seg b)
      rw [setKey_setKey_same]
  case jarr elems props =>
      rw [childGet_arr] at hp
      cases hs : canonIndex seg with
      | some i =>
          simp only [hs] at hp
          have hlt : i < elems.length := get?_some_lt hp
          rw [assignSeg_arr]
          simp only [hs]
          rw [assignSeg_arr]
          simp only [hs]
          rw [assignSeg_arr]
          simp only [hs]
          have e1 : setIdx elems i a = elems.set i a := by simp [setIdx, hlt]
          have e2 : setIdx elems i b = elems.set i b := by simp [setIdx, hlt]
          have e3 : setIdx (elems.set i a) i b = (elems.set i a).set i b := by
            simp [setIdx, hlt]
          rw [e1, e3, e2, List.set_set]
      | none =>
          simp only [hs] at hp
          rw [assignSeg_arr]
          simp only [hs]
          rw [assignSeg_arr]
          simp only [hs]
          rw [assignSeg_arr]
          simp only [hs]
          rw [setKey_setKey_same]
  all_goals simp [childGet] at hp

theorem assignSeg_comm {c : JValue} {s1 s2 : String} {w1 w2 : JValue}
    (hp1 : childGet c s1 = some w1) (hp2 : childGet c s2 = some w2)
    (h : s1 ≠ s2) (a b : JValue) :
    assignSeg (assignSeg c s1 a) s2 b = assignSeg (assignSeg c s2 b) s1 a := by
  cases c
  case jobj fields =>
      show JValue.jobj (setKey (setKey fields s1 a) s2 b) =
           JValue.jobj (setKey (setKey fields s2 b) s1 a)
      rw [setKey_comm fields a b h hp1 hp2]
  case jarr elems props =>
      rw [childGet_arr] at hp1 hp2
      cases hs1 : canonIndex s1 with
      | some i =>
          simp only [hs1] at hp1
          have hi : i < elems.length := get?_some_lt hp1
          cases hs2 : canonIndex s2 with
          | some j =>
              simp only [hs2] at hp2
              have hj : j < elems.length := get?_some_lt hp2
              have hij : i ≠ j := fun hh => h (canonIndex_inj hs1 (hh ▸ hs2))
              rw [assignSeg_arr]
              simp only [hs1]
              rw [assignSeg_arr]
              simp only [hs2]
              rw [assignSeg_arr]
              simp only [hs2]
              rw [assignSeg_arr]
              simp only [hs1]
              have e1 : setIdx elems i a = elems.set i a := by simp [setIdx, hi]
              have e2 : setIdx elems j b = elems.set j b := by simp [setIdx, hj]
              have e3 : setIdx (elems.set i a) j b = (elems.set i a).set j b := by
                simp [setIdx]; omega
              have e4 : setIdx (elems.set j b) i a = (elems.set j b).set i a := by
                simp [setIdx]; omega
              rw [e1, e3, e2, e4, List.set_comm a b elems hij]
          | none =>
              rw [assignSeg_arr]
              simp only [hs1]
              rw [assignSeg_arr]
              simp only [hs2]
              rw [assignSeg_arr]
              simp only [hs2]
              rw [assignSeg_arr]
              simp only [hs1]
      | none =>
          cases hs2 : canonIndex s2 with
          | some j =>
              rw [assignSeg_arr]
              simp only [hs1]
              rw [assignSeg_arr]
              simp only [hs2]
              rw [assignSeg_arr]
              simp only [hs2]
              rw [assignSeg_arr]
              simp only [hs1]
          | none =>
              simp only [hs1] at hp1
              simp only [hs2] at hp2
              rw [assignSeg_arr]
              simp only [hs1]
              rw [assignSeg_arr]
              simp only [hs2]
              rw [assignSeg_arr]
              simp only [hs2]
              rw [assignSeg_arr]
              simp only [hs1]
              rw [setKey_comm props a b h hp1 hp2]
  all_goals simp [childGet] at hp1

/-! Lemmas about multi-segment reads and writes. -/

theorem getSegs_cons (d : JValue) (s : String) (t : List String) :
    getSegs d (s :: t) =
      match childGet d s with
      | some c => getSegs c t
      | none => none := rfl

theorem getSegs_cons_some {d : JValue} {s : String} {t : List String} {w : JValue}
    (h : getSegs d (s :: t) = some w) :
    ∃ c, childGet d s = some c ∧ getSegs c t = some w := by
  rw [getSegs_cons] at h
  cases hc : childGet d s with
  | some c =>
      rw [hc] at h
      exact ⟨c, rfl, h⟩
  | none =>
      rw [hc] at h
      exact absurd h (by simp)

theorem childGet_some_container {d : JValue} {s : String} {c : JValue}
    (h : childGet d s = some c) : isContainer d = true := by
  cases d <;> first | rfl | simp [childGet] at h

theorem getSegs_cons_container {c : JValue} {s : String} {t : List String} {w : JValue}
    (h : getSegs c (s :: t) = some w) : isContainer c = true := by
  obtain ⟨x, hx, _⟩ := getSegs_cons_some h
  exact childGet_some_container hx

theorem getSegs_jstr (x : String) (s : String) (t : List String) :
    getSegs (JValue.jstr x) (s :: t) = none := rfl

theorem getSegs_append (d : JValue) (p q : List String) :
    getSegs d (p ++ q) = (getSegs d p).bind fun w => getSegs w q := by
  induction p generalizing d with
  | nil => simp [getSegs]
  | cons s rest ih =>
      show getSegs d (s :: (rest ++ q)) = _
      rw [getSegs_cons, getSegs_cons]
      cases h : childGet d s with
      | some c => simp [ih]
      | none => simp

theorem subFor_eq {d : JValue} {s : String} {c : JValue} (h : childGet d s = some c)
    (hc : isContainer c = true) : subFor d s = c := by
  simp [subFor, h, hc]

theorem isContainer_subFor (d : JValue) (s : String) :
    isContainer (subFor d s) = true := by
  unfold subFor
  cases childGet d s with
  | some c =>
      show isContainer (if isContainer c = true then c else JValue.jobj []) = true
      by_cases hc : isContainer c = true
      · rw [if_pos hc]; exact hc
      · rw [if_neg hc]; rfl
  | none => rfl

theorem setSegs_cons_eq (d : JValue) (s : String) (t : List String) (v : JValue) :
    setSegs d (s :: t) v = assignSeg d s (setTail d s t v) := by
  cases t <;> rfl

theorem setTail_congr {d d' : JValue} {s : String} (h : subFor d s = subFor d' s)
    (t : List String) (v : JValue) : setTail d s t v = setTail d' s t v := by
  cases t <;> simp [setTail, h]

theorem subFor_assignSeg_ne {d : JValue} {x : String} {w : JValue}
    (hp : childGet d x = some w) {y : String} (h : y ≠ x) (A : JValue) :
    subFor (assignSeg d x A) y = subFor d y := by
  unfold subFor
  rw [childGet_assignSeg_ne hp h A]

theorem isContainer_setSegs {d : JValue} (hd : isContainer d = true)
    (p : List String) (v : JValue) : isContainer (setSegs d p v) = true := by
  cases p with
  | nil => exact hd
  | cons s t =>
      rw [setSegs_cons_eq]
      exact isContainer_assignSeg hd s _

theorem getSegs_setSegs_self : ∀ (p : List String) {d : JValue},
    isContainer d = true → ∀ (v : JValue), p ≠ [] →
    getSegs (setSegs d p v) p = some v
  | [], _, _, _, hp => absurd rfl hp
  | [last], d, hd, v, _ => by
      show getSegs (assignSeg d last v) [last] = some v
      rw [getSegs_cons, childGet_assignSeg_same hd last v]
      rfl
  | s :: s2 :: rest, d, hd, v, _ => by
      rw [setSegs_cons_eq]
      rw [getSegs_cons, childGet_assignSeg_same hd s _]
      show getSegs (setTail d s (s2 :: rest) v) (s2 :: rest) = some v
      show getSegs (setSegs (subFor d s) (s2 :: rest) v) (s2 :: rest) = some v
      exact getSegs_setSegs_self (s2 :: rest) (isContainer_subFor d s) v (by simp)

theorem getSegs_setSegs_self_of_present {d w : JValue} {p : List String}
    (hp : getSegs d p = some w) (hne : p ≠ []) (v : JValue) :
    getSegs (setSegs d p v) p = some v := by
  cases p with
  | nil => exact absurd rfl hne
  | cons s t =>
      obtain ⟨c, hc, _⟩ := getSegs_cons_some hp
      exact getSegs_setSegs_self (s :: t) (childGet_some_container hc) v (by simp)

theorem div_symm {p q : List String} (h : Div p q) : Div q p := by
  obtain ⟨r, a, b, p1, q1, hab, hp, hq⟩ := h
  exact ⟨r, b, a, q1, p1, Ne.symm hab, hq, hp⟩

theorem path_trichotomy : ∀ (p q : List String),
    p = q ∨ (∃ r, r ≠ [] ∧ q = p ++ r) ∨ (∃ r, r ≠ [] ∧ p = q ++ r) ∨ Div p q
  | [], [] => Or.inl rfl
  | [], y :: q1 => Or.inr (Or.inl ⟨y :: q1, by simp, rfl⟩)
  | x :: p1, [] => Or.inr (Or.inr (Or.inl ⟨x :: p1, by simp, rfl⟩))
  | x :: p1, y :: q1 => by
      by_cases hxy : x = y
      · subst hxy
        rcases path_trichotomy p1 q1 with h | ⟨r, hr, hq⟩ | ⟨r, hr, hp⟩ | h
        · exact Or.inl (by rw [h])
        · exact Or.inr (Or.inl ⟨r, hr, by simp [hq]⟩)
        · exact Or.inr (Or.inr (Or.inl ⟨r, hr, by simp [hp]⟩))
        · obtain ⟨r, a, b, pp, qq, hab, hp, hq⟩ := h
          exact Or.inr (Or.inr (Or.inr ⟨x :: r, a, b, pp, qq, hab, by simp [hp], by simp [hq]⟩))
      · exact Or.inr (Or.inr (Or.inr ⟨[], x, y, p1, q1, hxy, rfl, rfl⟩))

theorem getSegs_setSegs_div : ∀ (r : List String) {a b : String}
    (p1 q1 : List String) {d w : JValue}, a ≠ b →
    getSegs d (r ++ a :: p1) = some w → ∀ v,
    getSegs (setSegs d (r ++ a :: p1) v) (r ++ b :: q1) = getSegs d (r ++ b :: q1)
  | [], a, b, p1, q1, d, w, hab, hp, v => by
      obtain ⟨c, hc, _⟩ := getSegs_cons_some hp
      rw [List.nil_append, List.nil_append] at *
      rw [setSegs_cons_eq]
      rw [getSegs_cons, getSegs_cons,
          childGet_assignSeg_ne hc (Ne.symm hab) _]
  | s :: r1, a, b, p1, q1, d, w, hab, hp, v => by
      rw [List.cons_append] at hp
      obtain ⟨c, hc, hrest⟩ := getSegs_cons_some hp
      have hcont : isContainer c = true := by
        cases hcc : r1 ++ a :: p1 with
        | nil => exact absurd hcc (by simp)
        | cons z t => rw [hcc] at hrest; exact getSegs_cons_container hrest
      have hsub : subFor d s = c := subFor_eq hc hcont
      rw [List.cons_append, List.cons_append, setSegs_cons_eq]
      have hX : setTail d s (r1 ++ a :: p1) (v) = setSegs c (r1 ++ a :: p1) v := by
        cases hcc : r1 ++ a :: p1 with
        | nil => exact absurd hcc (by simp)
        | cons z t => rw [← hcc]; simp [setTail, hcc, hsub]
      rw [hX]
      rw [getSegs_cons, getSegs_cons,
          childGet_assignSeg_same (childGet_some_container hc) s _, hc]
      exact getSegs_setSegs_div r1 p1 q1 hab hrest v

theorem setSegs_setSegs_same : ∀ (p : List String) {d w : JValue},
    getSegs d p = some w → ∀ a b,
    setSegs (setSegs d p a) p b = setSegs d p b
  | [], _, _, _, _, _ => rfl
  | [last], d, w, h, a, b => by
      obtain ⟨c, hc, _⟩ := getSegs_cons_some h
      show assignSeg (assignSeg d last a) last b = assignSeg d last b
      exact assignSeg_assignSeg_same hc a b
  | s :: s2 :: rest, d, w, h, a, b => by
      obtain ⟨c, hc, hrest⟩ := getSegs_cons_some h
      have hcont : isContainer c = true := getSegs_cons_container hrest
      have hd : isContainer d = true := childGet_some_container hc
      have hsub : subFor d s = c := subFor_eq hc hcont
      rw [setSegs_cons_eq d s (s2 :: rest) a]
      have hA : setTail d s (s2 :: rest) a = setSegs c (s2 :: rest) a := by
        simp [setTail, hsub]
      rw [hA]
      have hXc : isContainer (setSegs c (s2 :: rest) a) = true :=
        isContainer_setSegs hcont _ _
      have h1 : childGet (assignSeg d s (setSegs c (s2 :: rest) a)) s =
          some (setSegs c (s2 :: rest) a) :=
        childGet_assignSeg_same hd s _
      rw [setSegs_cons_eq (assignSeg d s (setSegs c (s2 :: rest) a)) s (s2 :: rest) b]
      have hB : setTail (assignSeg d s (setSegs c (s2 :: rest) a)) s (s2 :: rest) b =
          setSegs (setSegs c (s2 :: rest) a) (s2 :: rest) b := by
        simp [setTail, subFor_eq h1 hXc]
      rw [hB, setSegs_setSegs_same (s2 :: rest) hrest a b]
      rw [setSegs_cons_eq d s (s2 :: rest) b]
      have hC : setTail d s (s2 :: rest) b = setSegs c (s2 :: rest) b := by
        simp [setTail, hsub]
      rw [hC]
      exact assignSeg_assignSeg_same hc _ _

theorem setSegs_id : ∀ (p : List String) {d w : JValue},
    getSegs d p = some w → setSegs d p w = d
  | [], _, _, _ => rfl
  | [last], d, w, h => by
      obtain ⟨c, hc, hcw⟩ := getSegs_cons_some h
      have : c = w := by
        have h2 : some c = some w := hcw
        exact Option.some.inj h2
      show assignSeg d last w = d
      exact assignSeg_id (this ▸ hc)
  | s :: s2 :: rest, d, w, h => by
      obtain ⟨c, hc, hrest⟩ := getSegs_cons_some h
      have hcont : isContainer c = true := getSegs_cons_container hrest
      have hsub : subFor d s = c := subFor_eq hc hcont
      rw [setSegs_cons_eq d s (s2 :: rest) w]
      have hA : setTail d s (s2 :: rest) w = setSegs c (s2 :: rest) w := by
        simp [setTail, hsub]
      rw [hA, setSegs_id (s2 :: rest) hrest]
      exact assignSeg_id hc

theorem setSegs_comm : ∀ (r : List String) {x y : String} (p1 q1 : List String)
    {d wx wy : JValue}, x ≠ y →
    getSegs d (r ++ x :: p1) = some wx → getSegs d (r ++ y :: q1) = some wy →
    ∀ a b, setSegs (setSegs d (r ++ x :: p1) a) (r ++ y :: q1) b
         = setSegs (setSegs d (r ++ y :: q1) b) (r ++ x :: p1) a
  | [], x, y, p1, q1, d, wx, wy, hxy, hpx, hpy, a, b => by
      simp only [List.nil_append] at hpx hpy ⊢
      obtain ⟨cx, hcx, _⟩ := getSegs_cons_some hpx
      obtain ⟨cy, hcy, _⟩ := getSegs_cons_some hpy
      rw [setSegs_cons_eq d x p1 a,
          setSegs_cons_eq (assignSeg d x (setTail d x p1 a)) y q1 b,
          setTail_congr (subFor_assignSeg_ne hcx (Ne.symm hxy) _) q1 b,
          setSegs_cons_eq d y q1 b,
          setSegs_cons_eq (assignSeg d y (setTail d y q1 b)) x p1 a,
          setTail_congr (subFor_assignSeg_ne hcy hxy _) p1 a]
      exact assignSeg_comm hcx hcy hxy _ _
  | s :: r1, x, y, p1, q1, d, wx, wy, hxy, hpx, hpy, a, b => by
      rw [List.cons_append] at hpx hpy
      obtain ⟨c, hc, hrx⟩ := getSegs_cons_some hpx
      obtain ⟨c2, hc2, hry⟩ := getSegs_cons_some hpy
      have hcc : c2 = c := by
        have := hc2.symm.trans hc
        exact Option.some.inj this
      subst hcc
      have hcont : isContainer c2 = true := by
        cases hzz : r1 ++ x :: p1 with
        | nil => exact absurd hzz (by simp)
        | cons z t => rw [hzz] at hrx; exact getSegs_cons_container hrx
      have hd : isContainer d = true := childGet_some_container hc
      have hsub : subFor d s = c2 := subFor_eq hc hcont
      rw [List.cons_append, List.cons_append]
      rw [setSegs_cons_eq d s (r1 ++ x :: p1) a]
      have hA : setTail d s (r1 ++ x :: p1) a = setSegs c2 (r1 ++ x :: p1) a := by
        cases hzz : r1 ++ x :: p1 with
        | nil => exact absurd hzz (by simp)
        | cons z t => rw [← hzz]; simp [setTail, hzz, hsub]
      rw [hA]
      have hXc : isContainer (setSegs c2 (r1 ++ x :: p1) a) = true :=
        isContainer_setSegs hcont _ _
      have h1 : childGet (assignSeg d s (setSegs c2 (r1 ++ x :: p1) a)) s =
          some (setSegs c2 (r1 ++ x :: p1) a) := childGet_assignSeg_same hd s _
      rw [setSegs_cons_eq (assignSeg d s (setSegs c2 (r1 ++ x :: p1) a)) s (r1 ++ y :: q1) b]
      have hB : setTail (assignSeg d s (setSegs c2 (r1 ++ x :: p1) a)) s (r1 ++ y :: q1) b =
          setSegs (setSegs c2 (r1 ++ x :: p1) a) (r1 ++ y :: q1) b := by
        cases hzz : r1 ++ y :: q1 with
        | nil => exact absurd hzz (by simp)
        | cons z t => rw [← hzz]; simp [setTail, hzz, subFor_eq h1 hXc]
      rw [hB, setSegs_comm r1 p1 q1 hxy hrx hry a b]
      rw [setSegs_cons_eq d s (r1 ++ y :: q1) b]
      have hC : setTail d s (r1 ++ y :: q1) b = setSegs c2 (r1 ++ y :: q1) b := by
        cases hzz : r1 ++ y :: q1 with
        | nil => exact absurd hzz (by simp)
        | cons z t => rw [← hzz]; simp [setTail, hzz, hsub]
      rw [hC]
      have hYc : isContainer (setSegs c2 (r1 ++ y :: q1) b) = true :=
        isContainer_setSegs hcont _ _
      have h2 : childGet (assignSeg d s (setSegs c2 (r1 ++ y :: q1) b)) s =
          some (setSegs c2 (r1 ++ y :: q1) b) := childGet_assignSeg_same hd s _
      rw [setSegs_cons_eq (assignSeg d s (setSegs c2 (r1 ++ y :: q1) b)) s (r1 ++ x :: p1) a]
      have hD : setTail (assignSeg d s (setSegs c2 (r1 ++ y :: q1) b)) s (r1 ++ x :: p1) a =
          setSegs (setSegs c2 (r1 ++ y :: q1) b) (r1 ++ x :: p1) a := by
        cases hzz : r1 ++ x :: p1 with
        | nil => exact absurd hzz (by simp)
        | cons z t => rw [← hzz]; simp [setTail, hzz, subFor_eq h2 hYc]
      rw [hD]
      rw [assignSeg_assignSeg_same hc, assignSeg_assignSeg_same hc]

theorem getSegs_setSegs_div' {p q : List String} {d w : JValue} (hdiv : Div p q)
    (hp : getSegs d p = some w) (v : JValue) :
    getSegs (setSegs d p v) q = getSegs d q := by
  obtain ⟨r, a, b, p1, q1, hab, hpe, hqe⟩ := hdiv
  subst hpe
  subst hqe
  exact getSegs_setSegs_div r p1 q1 hab hp v

theorem getSegs_none_setSegs {d : JValue} {p : List String} {w : JValue}
    (hp : getSegs d p = some w) (hpne : p ≠ []) {q : List String}
    (hq : getSegs d q = none) (x : String) :
    getSegs (setSegs d p (JValue.jstr x)) q = none := by
  rcases path_trichotomy p q with h | ⟨r, hr, hqe⟩ | ⟨r, hr, hpe⟩ | h
  · rw [← h] at hq
    rw [hq] at hp
    exact Option.noConfusion hp
  · subst hqe
    rw [getSegs_append, getSegs_setSegs_self_of_present hp hpne (JValue.jstr x)]
    cases r with
    | nil => exact absurd rfl hr
    | cons z t => simp [getSegs_jstr]
  · subst hpe
    rw [getSegs_append, hq] at hp
    exact Option.noConfusion hp
  · rw [getSegs_setSegs_div' h hp (JValue.jstr x), hq]

theorem getSegs_setSegs_ext {d : JValue} {p : List String} {w : JValue}
    (hp : getSegs d p = some w) (hpne : p ≠ []) (x : String)
    {r : List String} (hr : r ≠ []) :
    getSegs (setSegs d p (JValue.jstr x)) (p ++ r) = none := by
  rw [getSegs_append, getSegs_setSegs_self_of_present hp hpne (JValue.jstr x)]
  cases r with
  | nil => exact absurd rfl hr
  | cons z t => simp [getSegs_jstr]

theorem splitChars_ne_nil (sep : Char) (cs : List Char) : splitChars sep cs ≠ [] := by
  cases cs with
  | nil => simp [splitChars]
  | cons c rest =>
      unfold splitChars
      by_cases h : c = sep
      · simp [h]
      · simp only [h, if_false]
        cases hr : splitChars sep rest with
        | nil => simp
        | cons hh tt => simp

theorem pathSegs_ne_nil (p : String) : pathSegs p ≠ [] := by
  unfold pathSegs
  intro h
  exact splitChars_ne_nil '.' p.toList (List.map_eq_nil.mp h)

/-! Claim C6: totality and non-emptiness of pathToKeychainName. -/

theorem kebabChars_ne_nil : ∀ {cs : List Char}, cs ≠ [] → kebabChars cs ≠ []
  | [], h, _ => h rfl
  | [c], _, h2 => by simp [kebabChars] at h2
  | a :: b :: rest, _, h2 => by
      unfold kebabChars at h2
      by_cases hb : a.isLower && b.isUpper
      · simp [hb] at h2
      · simp [hb] at h2

theorem toKebab_ne_empty {s : String} (h : s ≠ "") : toKebab s ≠ "" := by
  unfold toKebab
  intro h2
  have h3 : kebabChars s.toList = [] := by
    have := congrArg String.toList h2
    simpa using this
  have h4 : s.toList ≠ [] := by
    intro h5
    exact h (by cases s with | mk l => simpa using congrArg String.mk h5)
  exact kebabChars_ne_nil h4 h3

theorem joinSep_dash_ne_empty : ∀ (l : List String) (s : String),
    s ∈ l → s ≠ "" → joinSep "-" l ≠ ""
  | [], s, hmem, _ => absurd hmem (by simp)
  | [a], s, hmem, hne => by
      have : s = a := by simpa using hmem
      subst this
      exact hne
  | a :: b :: t, s, _, _ => by
      show a ++ "-" ++ joinSep "-" (b :: t) ≠ ""
      intro h
      have := congrArg String.length h
      simp [String.length_append] at this
      exact absurd this.1.2 (by decide)

/-- C6 as amended: for every path containing at least one nonempty segment
that is neither wholly decimal digits nor structural noise, the derived key
name is nonempty.  Totality holds by construction: pathToKeychainName is a
total function of its input. -/
theorem keyname_nonempty {p seg : String}
    (hmem : seg ∈ pathSegs p)
    (hnoise : structuralNoise.contains seg = false)
    (hdig : isDigitsStr seg = false)
    (hne : seg ≠ "") :
    pathToKeychainName p ≠ "" := by
  unfold pathToKeychainName
  have hnm : seg ∉ structuralNoise := by simpa using hnoise
  have hkept : seg ∈ (pathSegs p).filter fun part =>
      !(structuralNoise.contains part) && !(isDigitsStr part) := by
    rw [List.mem_filter]
    exact ⟨hmem, by simp [hnm, hdig]⟩
  have hmap : toKebab seg ∈ ((pathSegs p).filter fun part =>
      !(structuralNoise.contains part) && !(isDigitsStr part)).map toKebab :=
    List.mem_map_of_mem toKebab hkept
  exact joinSep_dash_ne_empty _ (toKebab seg) hmap (toKebab_ne_empty hne)

/-- C6 counterexample to the claim as stated: the path consisting of a
digits segment and an empty segment is nonempty and contains a segment that
is neither wholly decimal digits nor structural noise (the empty segment),
yet its derived key name is the empty string. -/
theorem keyname_empty_counterexample :
    "0." ≠ "" ∧ "" ∈ pathSegs "0." ∧ structuralNoise.contains "" = false ∧
      isDigitsStr "" = false ∧ pathToKeychainName "0." = "" := by
  refine ⟨by decide, ?_, by decide, by decide, by decide⟩
  show "" ∈ pathSegs "0."
  have : pathSegs "0." = ["0", ""] := by decide
  rw [this]
  simp

/-- C6 witness. -/
theorem keyname_nonempty_witness :
    pathToKeychainName "gateway.auth.token" ≠ "" := by
  apply @keyname_nonempty "gateway.auth.token" "gateway"
  · have : pathSegs "gateway.auth.token" = ["gateway", "auth", "token"] := by decide
    rw [this]; simp
  · decide
  · decide
  · decide

/-! Claim C4: idempotence of scrub. -/

theorem scrubLoop_cons (X : JValue) (g : SecretEntry) (rest : List SecretEntry) :
    scrubLoop X (g :: rest) =
      match getByPath X g.configPath with
      | none => scrubLoop X rest
      | some (JValue.jstr v) =>
          if v = KEYCHAIN_PLACEHOLDER then scrubLoop X rest
          else scrubLoop (setByPath X g.configPath (JValue.jstr KEYCHAIN_PLACEHOLDER)) rest
      | some _ => scrubLoop (setByPath X g.configPath (JValue.jstr KEYCHAIN_PLACEHOLDER)) rest := rfl

theorem scrubLoop_preserves (p : List String) : ∀ (M : List SecretEntry) (X : JValue),
    (getSegs X p = none ∨ getSegs X p = some (JValue.jstr KEYCHAIN_PLACEHOLDER)) →
    getSegs (scrubLoop X M) p = none ∨
      getSegs (scrubLoop X M) p = some (JValue.jstr KEYCHAIN_PLACEHOLDER)
  | [], X, h => h
  | g :: rest, X, h => by
      have hstep : ∀ (w : JValue), getByPath X g.configPath = some w →
          (getSegs (setByPath X g.configPath (JValue.jstr KEYCHAIN_PLACEHOLDER)) p = none ∨
           getSegs (setByPath X g.configPath (JValue.jstr KEYCHAIN_PLACEHOLDER)) p =
             some (JValue.jstr KEYCHAIN_PLACEHOLDER)) := by
        intro w hw
        have hgp : getSegs X (pathSegs g.configPath) = some w := hw
        have hgne : pathSegs g.configPath ≠ [] := pathSegs_ne_nil _
        rcases h with hnone | hph
        · exact Or.inl (getSegs_none_setSegs hgp hgne hnone _)
        · rcases path_trichotomy (pathSegs g.configPath) p with he | ⟨r, hr, hqe⟩ | ⟨r, hr, hpe⟩ | hdv
          · rw [show setByPath X g.configPath (JValue.jstr KEYCHAIN_PLACEHOLDER) =
                setSegs X (pathSegs g.configPath) (JValue.jstr KEYCHAIN_PLACEHOLDER) from rfl,
                ← he]
            exact Or.inr (getSegs_setSegs_self_of_present hgp hgne _)
          · subst hqe
            exact Or.inl (getSegs_setSegs_ext hgp hgne _ hr)
          · rw [hpe, getSegs_append, hph] at hgp
            have h9 : getSegs (JValue.jstr KEYCHAIN_PLACEHOLDER) r = some w := by
              simpa using hgp
            cases r with
            | nil => exact absurd rfl hr
            | cons z t =>
                rw [getSegs_jstr] at h9
                exact absurd h9 (by simp)
          · rw [show setByPath X g.configPath (JValue.jstr KEYCHAIN_PLACEHOLDER) =
                setSegs X (pathSegs g.configPath) (JValue.jstr KEYCHAIN_PLACEHOLDER) from rfl,
                getSegs_setSegs_div' hdv hgp _]
            exact Or.inr hph
      rw [scrubLoop_cons]
      cases hw : getByPath X g.configPath with
      | none => exact scrubLoop_preserves p rest X h
      | some w =>
          cases w with
          | jstr v =>
              show (getSegs (if v = KEYCHAIN_PLACEHOLDER then scrubLoop X rest
                  else scrubLoop (setByPath X g.configPath (JValue.jstr KEYCHAIN_PLACEHOLDER)) rest) p = none) ∨
                (getSegs (if v = KEYCHAIN_PLACEHOLDER then scrubLoop X rest
                  else scrubLoop (setByPath X g.configPath (JValue.jstr KEYCHAIN_PLACEHOLDER)) rest) p =
                  some (JValue.jstr KEYCHAIN_PLACEHOLDER))
              by_cases hv : v = KEYCHAIN_PLACEHOLDER
              · rw [if_pos hv]
                exact scrubLoop_preserves p rest X h
              · rw [if_neg hv]
                exact scrubLoop_preserves p rest _ (hstep _ hw)
          | jnull => exact scrubLoop_preserves p rest _ (hstep _ hw)
          | jbool bb => exact scrubLoop_preserves p rest _ (hstep _ hw)
          | jnum nn => exact scrubLoop_preserves p rest _ (hstep _ hw)
          | jobj ff => exact scrubLoop_preserves p rest _ (hstep _ hw)
          | jarr ee pp => exact scrubLoop_preserves p rest _ (hstep _ hw)

theorem scrubLoop_shape : ∀ (M : List SecretEntry) (X : JValue) (e : SecretEntry),
    e ∈ M →
    getSegs (scrubLoop X M) (pathSegs e.configPath) = none ∨
      getSegs (scrubLoop X M) (pathSegs e.configPath) =
        some (JValue.jstr KEYCHAIN_PLACEHOLDER)
  | [], _, _, hmem => absurd hmem (by simp)
  | g :: rest, X, e, hmem => by
      rw [scrubLoop_cons]
      rcases List.mem_cons.mp hmem with he | he
      · subst he
        cases hw : getByPath X e.configPath with
        | none =>
            exact scrubLoop_preserves _ rest X (Or.inl hw)
        | some w =>
            cases w with
            | jstr v =>
                show (getSegs (if v = KEYCHAIN_PLACEHOLDER then scrubLoop X rest
                    else scrubLoop (setByPath X e.configPath (JValue.jstr KEYCHAIN_PLACEHOLDER)) rest)
                    (pathSegs e.configPath) = none) ∨
                  (getSegs (if v = KEYCHAIN_PLACEHOLDER then scrubLoop X rest
                    else scrubLoop (setByPath X e.configPath (JValue.jstr KEYCHAIN_PLACEHOLDER)) rest)
                    (pathSegs e.configPath) = some (JValue.jstr KEYCHAIN_PLACEHOLDER))
                by_cases hv : v = KEYCHAIN_PLACEHOLDER
                · rw [if_pos hv]
                  subst hv
                  exact scrubLoop_preserves _ rest X (Or.inr hw)
                · rw [if_neg hv]
                  refine scrubLoop_preserves _ rest _ (Or.inr ?_)
                  exact getSegs_setSegs_self_of_present hw (pathSegs_ne_nil _) _
            | jnull =>
                exact scrubLoop_preserves _ rest _
                  (Or.inr (getSegs_setSegs_self_of_present hw (pathSegs_ne_nil _) _))
            | jbool bb =>
                exact scrubLoop_preserves _ rest _
                  (Or.inr (getSegs_setSegs_self_of_present hw (pathSegs_ne_nil _) _))
            | jnum nn =>
                exact scrubLoop_preserves _ rest _
                  (Or.inr (getSegs_setSegs_self_of_present hw (pathSegs_ne_nil _) _))
            | jobj ff =>
                exact scrubLoop_preserves _ rest _
                  (Or.inr (getSegs_setSegs_self_of_present hw (pathSegs_ne_nil _) _))
            | jarr ee pp =>
                exact scrubLoop_preserves _ rest _
                  (Or.inr (getSegs_setSegs_self_of_present hw (pathSegs_ne_nil _) _))
      · cases hw : getByPath X g.configPath with
        | none => exact scrubLoop_shape rest X e he
        | some w =>
            cases w with
            | jstr v =>
                show (getSegs (if v = KEYCHAIN_PLACEHOLDER then scrubLoop X rest
                    else scrubLoop (setByPath X g.configPath (JValue.jstr KEYCHAIN_PLACEHOLDER)) rest)
                    (pathSegs e.configPath) = none) ∨
                  (getSegs (if v = KEYCHAIN_PLACEHOLDER then scrubLoop X rest
                    else scrubLoop (setByPath X g.configPath (JValue.jstr KEYCHAIN_PLACEHOLDER)) rest)
                    (pathSegs e.configPath) = some (JValue.jstr KEYCHAIN_PLACEHOLDER))
                by_cases hv : v = KEYCHAIN_PLACEHOLDER
                · rw [if_pos hv]
                  exact scrubLoop_shape rest X e he
                · rw [if_neg hv]
                  exact scrubLoop_shape rest _ e he
            | jnull => exact scrubLoop_shape rest _ e he
            | jbool bb => exact scrubLoop_shape rest _ e he
            | jnum nn => exact scrubLoop_shape rest _ e he
            | jobj ff => exact scrubLoop_shape rest _ e he
            | jarr ee pp => exact scrubLoop_shape rest _ e he

theorem scrubLoop_nochange : ∀ (M : List SecretEntry) (Y : JValue),
    (∀ e ∈ M, getSegs Y (pathSegs e.configPath) = none ∨
      getSegs Y (pathSegs e.configPath) = some (JValue.jstr KEYCHAIN_PLACEHOLDER)) →
    scrubLoop Y M = Y
  | [], _, _ => rfl
  | g :: rest, Y, h => by
      rw [scrubLoop_cons]
      rcases h g (by simp) with hg | hg
      · rw [show getByPath Y g.configPath = none from hg]
        exact scrubLoop_nochange rest Y fun e he => h e (by simp [he])
      · rw [show getByPath Y g.configPath =
            some (JValue.jstr KEYCHAIN_PLACEHOLDER) from hg]
        show (if KEYCHAIN_PLACEHOLDER = KEYCHAIN_PLACEHOLDER then scrubLoop Y rest
          else scrubLoop (setByPath Y g.configPath (JValue.jstr KEYCHAIN_PLACEHOLDER)) rest) = Y
        rw [if_pos rfl]
        exact scrubLoop_nochange rest Y fun e he => h e (by simp [he])

/-- C4: scrub is idempotent; scrubbing a document twice with the same
secret map yields the same document as scrubbing it once. -/
theorem scrub_idempotent (disk : JValue) (secretMap : List SecretEntry) :
    scrubKeys (scrubKeys disk secretMap) secretMap = scrubKeys disk secretMap :=
  scrubLoop_nochange secretMap _ fun e he => scrubLoop_shape secretMap disk e he

/-! Soundness of the discovery walk: every report satisfies the skip
checks that the walk runs before reporting. -/

theorem classifyLeaf_sound (opts : DiscoveryOptions) (path : List String)
    (s : String) (st : List String × List DiscoveredSecret)
    (h : ∀ x ∈ st.2, SoundSecret opts x) :
    ∀ x ∈ (classifyLeaf opts path s st).2, SoundSecret opts x := by
  unfold classifyLeaf pushLeaf
  split_ifs with h1 h2 h3 h4 h5 h6 h7 h8 h9 <;>
    (try exact h) <;>
    · intro x hx
      rcases List.mem_append.mp hx with hm | hm
      · exact h x hm
      · have hx2 := List.mem_singleton.mp hm
        subst hx2
        exact ⟨Nat.le_of_not_lt h5, h4, by simpa using h2⟩

mutual

theorem walkVal_sound (opts : DiscoveryOptions) (v : JValue) (path : List String)
    (st : List String × List DiscoveredSecret)
    (h : ∀ x ∈ st.2, SoundSecret opts x) :
    ∀ x ∈ (walkVal opts v path st).2, SoundSecret opts x :=
  match v with
  | JValue.jnull => h
  | JValue.jbool _ => h
  | JValue.jnum _ => h
  | JValue.jstr s => classifyLeaf_sound opts path s st h
  | JValue.jobj fields => walkFields_sound opts fields path st h
  | JValue.jarr elems props => walkElems_sound opts elems 0 path st h

theorem walkFields_sound (opts : DiscoveryOptions) (fields : List (String × JValue))
    (path : List String) (st : List String × List DiscoveredSecret)
    (h : ∀ x ∈ st.2, SoundSecret opts x) :
    ∀ x ∈ (walkFields opts fields path st).2, SoundSecret opts x :=
  match fields with
  | [] => h
  | (k, v) :: rest =>
      walkFields_sound opts rest path (walkVal opts v (path ++ [k]) st)
        (walkVal_sound opts v (path ++ [k]) st h)

theorem walkElems_sound (opts : DiscoveryOptions) (elems : List JValue) (i : Nat)
    (path : List String) (st : List String × List DiscoveredSecret)
    (h : ∀ x ∈ st.2, SoundSecret opts x) :
    ∀ x ∈ (walkElems opts elems i path st).2, SoundSecret opts x :=
  match elems with
  | [] => h
  | v :: rest =>
      walkElems_sound opts rest (i + 1) path (walkVal opts v (path ++ [Nat.repr i]) st)
        (walkVal_sound opts v (path ++ [Nat.repr i]) st h)

end

theorem discoverSecrets_sound (config : JValue) (opts : DiscoveryOptions) :
    ∀ x ∈ discoverSecrets config opts, SoundSecret opts x := by
  intro x hx
  unfold discoverSecrets at hx
  have hperm := List.perm_insertionSort secretLE (walkVal opts config [] ([], [])).2
  have hx2 : x ∈ (walkVal opts config [] ([], [])).2 := hperm.mem_iff.mp hx
  exact walkVal_sound opts config [] ([], []) (by simp) x hx2

/-- C9: every secret reported by discoverSecrets has a value of length at
least MIN_SECRET_LENGTH, that is at least 16 characters. -/
theorem discovery_length_floor (config : JValue) (opts : DiscoveryOptions) :
    ∀ x ∈ discoverSecrets config opts, MIN_SECRET_LENGTH ≤ x.value.length :=
  fun x hx => (discoverSecrets_sound config opts x hx).1

/-- C9 witness. -/
theorem discovery_length_floor_witness :
    ∃ x ∈ discoverSecrets
      (JValue.jobj [("gateway", JValue.jobj [("auth",
        JValue.jobj [("token", JValue.jstr "0123456789abcdef")])])])
      ({} : DiscoveryOptions),
      MIN_SECRET_LENGTH ≤ x.value.length := by
  have hmem : (⟨"gateway.auth.token", "gateway-auth-token", MatchType.knownPath,
      "0123456789abcdef"⟩ : DiscoveredSecret) ∈ discoverSecrets
      (JValue.jobj [("gateway", JValue.jobj [("auth",
        JValue.jobj [("token", JValue.jstr "0123456789abcdef")])])])
      ({} : DiscoveryOptions) := by decide
  exact ⟨_, hmem, discovery_length_floor _ {} _ hmem⟩

/-! Claim C3: placeholders are never discovered. -/

theorem classifyLeaf_ph (opts : DiscoveryOptions) (path : List String)
    (st : List String × List DiscoveredSecret) :
    classifyLeaf opts path KEYCHAIN_PLACEHOLDER st = st := by
  unfold classifyLeaf
  split_ifs with h1 h2 h3 h4 h5 h6 h7 h8 h9 <;> first
    | rfl
    | exact absurd rfl h4

mutual

theorem walkVal_ph (opts : DiscoveryOptions) (v : JValue) (path : List String)
    (st : List String × List DiscoveredSecret) (h : allStrPH v = true) :
    walkVal opts v path st = st :=
  match v with
  | JValue.jnull => rfl
  | JValue.jbool _ => rfl
  | JValue.jnum _ => rfl
  | JValue.jstr s => by
      have hs : s = KEYCHAIN_PLACEHOLDER := by
        have h2 : (s == KEYCHAIN_PLACEHOLDER) = true := h
        simpa using h2
      subst hs
      exact classifyLeaf_ph opts path st
  | JValue.jobj fields => by
      have h2 : allStrPHFields fields = true := h
      exact walkFields_ph opts fields path st h2
  | JValue.jarr elems props => by
      have h2 : allStrPHElems elems = true := by
        have h3 : (allStrPHElems elems && allStrPHFields props) = true := h
        exact (Bool.and_eq_true_iff.mp h3).1
      exact walkElems_ph opts elems 0 path st h2

theorem walkFields_ph (opts : DiscoveryOptions) (fields : List (String × JValue))
    (path : List String) (st : List String × List DiscoveredSecret)
    (h : allStrPHFields fields = true) :
    walkFields opts fields path st = st :=
  match fields with
  | [] => rfl
  | (k, v) :: rest => by
      have h2 : (allStrPH v && allStrPHFields rest) = true := h
      have hv := (Bool.and_eq_true_iff.mp h2).1
      have hr := (Bool.and_eq_true_iff.mp h2).2
      show walkFields opts rest path (walkVal opts v (path ++ [k]) st) = st
      rw [walkVal_ph opts v (path ++ [k]) st hv]
      exact walkFields_ph opts rest path st hr

theorem walkElems_ph (opts : DiscoveryOptions) (elems : List JValue) (i : Nat)
    (path : List String) (st : List String × List DiscoveredSecret)
    (h : allStrPHElems elems = true) :
    walkElems opts elems i path st = st :=
  match elems with
  | [] => rfl
  | v :: rest => by
      have h2 : (allStrPH v && allStrPHElems rest) = true := h
      have hv := (Bool.and_eq_true_iff.mp h2).1
      have hr := (Bool.and_eq_true_iff.mp h2).2
      show walkElems opts rest (i + 1) path (walkVal opts v (path ++ [Nat.repr i]) st) = st
      rw [walkVal_ph opts v (path ++ [Nat.repr i]) st hv]
      exact walkElems_ph opts rest (i + 1) path st hr

end

/-- C3: a string leaf equal to the placeholder is never reported by
discoverSecrets, and a document in which every string leaf equals the
placeholder discovers nothing at all. -/
theorem discovery_excludes_placeholder (config : JValue) (opts : DiscoveryOptions) :
    (∀ x ∈ discoverSecrets config opts, x.value ≠ KEYCHAIN_PLACEHOLDER) ∧
    (allStrPH config = true → discoverSecrets config opts = []) := by
  constructor
  · exact fun x hx => (discoverSecrets_sound config opts x hx).2.1
  · intro h
    unfold discoverSecrets
    rw [walkVal_ph opts config [] ([], []) h]
    rfl

/-- C3 witness. -/
theorem discovery_excludes_placeholder_witness :
    discoverSecrets
      (JValue.jobj [("gateway", JValue.jobj [("auth",
        JValue.jobj [("token", JValue.jstr KEYCHAIN_PLACEHOLDER)])])]) {} = [] :=
  (discovery_excludes_placeholder _ {}).2 (by decide)

/-! Claim C10: a non-wildcard excludePaths entry suppresses its whole
subtree. -/

/-- C10: an excludePaths entry without a star suppresses the leaf at
exactly that path and every leaf strictly below it, in every document and
under every options value. -/
theorem exclude_entry_suppresses_subtree (config : JValue) (opts : DiscoveryOptions)
    (pat : String) (hmem : pat ∈ opts.excludePaths)
    (hstar : strHasChar pat '*' = false) :
    ∀ x ∈ discoverSecrets config opts,
      x.configPath ≠ pat ∧ strStartsWith x.configPath (pat ++ ".") = false := by
  intro x hx
  have hsound := (discoverSecrets_sound config opts x hx).2.2
  unfold matchesExcludePattern at hsound
  rw [List.any_eq_false] at hsound
  have hthis := hsound pat hmem
  rw [if_neg (by simp [hstar])] at hthis
  rw [Bool.not_eq_true] at hthis
  have h2 := Bool.or_eq_false_iff.mp hthis
  refine ⟨?_, h2.2⟩
  intro he
  rw [he] at h2
  simp at h2

/-! Claim C7: additionalPaths entries and the discovery walk. -/

theorem classifyLeaf_seen_mono (opts : DiscoveryOptions) (path : List String)
    (s : String) (st : List String × List DiscoveredSecret) {P : String}
    (h : P ∈ st.1) : P ∈ (classifyLeaf opts path s st).1 := by
  unfold classifyLeaf pushLeaf
  split_ifs <;> first
    | exact h
    | exact List.mem_append_left _ h

mutual

theorem walkVal_seen_mono (opts : DiscoveryOptions) (v : JValue) (path : List String)
    (st : List String × List DiscoveredSecret) {P : String} (h : P ∈ st.1) :
    P ∈ (walkVal opts v path st).1 :=
  match v with
  | JValue.jnull => h
  | JValue.jbool _ => h
  | JValue.jnum _ => h
  | JValue.jstr s => classifyLeaf_seen_mono opts path s st h
  | JValue.jobj fields => walkFields_seen_mono opts fields path st h
  | JValue.jarr elems props => walkElems_seen_mono opts elems 0 path st h

theorem walkFields_seen_mono (opts : DiscoveryOptions)
    (fields : List (String × JValue)) (path : List String)
    (st : List String × List DiscoveredSecret) {P : String} (h : P ∈ st.1) :
    P ∈ (walkFields opts fields path st).1 :=
  match fields with
  | [] => h
  | (k, v) :: rest =>
      walkFields_seen_mono opts rest path (walkVal opts v (path ++ [k]) st)
        (walkVal_seen_mono opts v (path ++ [k]) st h)

theorem walkElems_seen_mono (opts : DiscoveryOptions) (elems : List JValue)
    (i : Nat) (path : List String) (st : List String × List DiscoveredSecret)
    {P : String} (h : P ∈ st.1) : P ∈ (walkElems opts elems i path st).1 :=
  match elems with
  | [] => h
  | v :: rest =>
      walkElems_seen_mono opts rest (i + 1) path (walkVal opts v (path ++ [Nat.repr i]) st)
        (walkVal_seen_mono opts v (path ++ [Nat.repr i]) st h)

end

theorem classifyLeaf_inv (opts : DiscoveryOptions) (path : List String)
    (s : String) (st : List String × List DiscoveredSecret)
    (h : InvAdd opts st) : InvAdd opts (classifyLeaf opts path s st) := by
  unfold classifyLeaf pushLeaf
  split_ifs with h1 h2 h3 h4 h5 h6 h7 h8 h9
  any_goals exact h
  · intro P hP hadd
    rcases List.mem_append.mp hP with hm | hm
    · obtain ⟨v, hv⟩ := h P hm hadd
      exact ⟨v, List.mem_append_left _ hv⟩
    · have hPe : P = joinSep "." path := List.mem_singleton.mp hm
      subst hPe
      exact ⟨s, List.mem_append_right _ (by simp)⟩
  · intro P hP hadd
    rcases List.mem_append.mp hP with hm | hm
    · obtain ⟨v, hv⟩ := h P hm hadd
      exact ⟨v, List.mem_append_left _ hv⟩
    · have hPe : P = joinSep "." path := List.mem_singleton.mp hm
      subst hPe
      exact absurd hadd (by simpa using h6)
  · intro P hP hadd
    rcases List.mem_append.mp hP with hm | hm
    · obtain ⟨v, hv⟩ := h P hm hadd
      exact ⟨v, List.mem_append_left _ hv⟩
    · have hPe : P = joinSep "." path := List.mem_singleton.mp hm
      subst hPe
      exact absurd hadd (by simpa using h6)
  · intro P hP hadd
    rcases List.mem_append.mp hP with hm | hm
    · obtain ⟨v, hv⟩ := h P hm hadd
      exact ⟨v, List.mem_append_left _ hv⟩
    · have hPe : P = joinSep "." path := List.mem_singleton.mp hm
      subst hPe
      exact absurd hadd (by simpa using h6)

mutual

theorem walkVal_inv (opts : DiscoveryOptions) (v : JValue) (path : List String)
    (st : List String × List DiscoveredSecret) (h : InvAdd opts st) :
    InvAdd opts (walkVal opts v path st) :=
  match v with
  | JValue.jnull => h
  | JValue.jbool _ => h
  | JValue.jnum _ => h
  | JValue.jstr s => classifyLeaf_inv opts path s st h
  | JValue.jobj fields => walkFields_inv opts fields path st h
  | JValue.jarr elems props => walkElems_inv opts elems 0 path st h

theorem walkFields_inv (opts : DiscoveryOptions) (fields : List (String × JValue))
    (path : List String) (st : List String × List DiscoveredSecret)
    (h : InvAdd opts st) : InvAdd opts (walkFields opts fields path st) :=
  match fields with
  | [] => h
  | (k, v) :: rest =>
      walkFields_inv opts rest path (walkVal opts v (path ++ [k]) st)
        (walkVal_inv opts v (path ++ [k]) st h)

theorem walkElems_inv (opts : DiscoveryOptions) (elems : List JValue) (i : Nat)
    (path : List String) (st : List String × List DiscoveredSecret)
    (h : InvAdd opts st) : InvAdd opts (walkElems opts elems i path st) :=
  match elems with
  | [] => h
  | v :: rest =>
      walkElems_inv opts rest (i + 1) path (walkVal opts v (path ++ [Nat.repr i]) st)
        (walkVal_inv opts v (path ++ [Nat.repr i]) st h)

end

mutual

theorem walkVal_complete (opts : DiscoveryOptions) (v : JValue) (path : List String)
    (st : List String × List DiscoveredSecret) (segs : List String) (val : String)
    (hleaf : pathAt v segs = some (JValue.jstr val))
    (hexcl : matchesExcludePattern (joinSep "." (path ++ segs)) opts.excludePaths = false)
    (hkey : SECRET_KEY_EXCLUDE.contains ((path ++ segs).getLastD "") = false)
    (hph : val ≠ KEYCHAIN_PLACEHOLDER)
    (hlen : ¬ val.length < MIN_SECRET_LENGTH)
    (hadd : joinSep "." (path ++ segs) ∈ opts.additionalPaths) :
    joinSep "." (path ++ segs) ∈ (walkVal opts v path st).1 :=
  match v, segs with
  | JValue.jnull, segs => by cases segs <;> simp [pathAt] at hleaf
  | JValue.jbool b, segs => by cases segs <;> simp [pathAt] at hleaf
  | JValue.jnum n, segs => by cases segs <;> simp [pathAt] at hleaf
  | JValue.jstr s, _ :: _ => by simp [pathAt] at hleaf
  | JValue.jobj fields, [] => by simp [pathAt] at hleaf
  | JValue.jarr elems props, [] => by simp [pathAt] at hleaf
  | JValue.jstr s, [] => by
      have hv : s = val := by
        have h2 : some (JValue.jstr s) = some (JValue.jstr val) := hleaf
        cases Option.some.inj h2
        rfl
      subst hv
      rw [List.append_nil] at hexcl hkey hadd ⊢
      show joinSep "." path ∈ (classifyLeaf opts path s st).1
      unfold classifyLeaf
      by_cases h1 : st.1.contains (joinSep "." path) = true
      · rw [if_pos h1]
        simpa using h1
      · rw [if_neg h1, if_neg (ne_true_of_eq_false hexcl),
            if_neg (ne_true_of_eq_false hkey), if_neg hph, if_neg hlen,
            if_pos (show opts.additionalPaths.contains (joinSep "." path) = true by
              simpa using hadd)]
        unfold pushLeaf
        exact List.mem_append_right _ (by simp)
  | JValue.jobj fields, s :: rest => by
      have hsome : ∃ c, lookupKey fields s = some c ∧ pathAt c rest = some (JValue.jstr val) := by
        have h2 := hleaf
        unfold pathAt at h2
        cases hc : lookupKey fields s with
        | some c =>
            rw [hc] at h2
            exact ⟨c, rfl, h2⟩
        | none =>
            rw [hc] at h2
            exact absurd h2 (by simp)
      obtain ⟨c, hc, hrest⟩ := hsome
      have hpa : path ++ s :: rest = (path ++ [s]) ++ rest := by simp
      rw [hpa] at hexcl hkey hadd ⊢
      exact walkFields_complete opts fields path st s c rest val hc hrest
        hexcl hkey hph hlen hadd
  | JValue.jarr elems props, s :: rest => by
      have hsome : ∃ i c, canonIndex s = some i ∧ elems.get? i = some c ∧
          pathAt c rest = some (JValue.jstr val) := by
        have h2 := hleaf
        unfold pathAt at h2
        cases hci : canonIndex s with
        | some i =>
            rw [hci] at h2
            have h3 : (match elems.get? i with
                | some c => pathAt c rest
                | none => none) = some (JValue.jstr val) := h2
            cases hg : elems.get? i with
            | some c =>
                rw [hg] at h3
                have h4 : pathAt c rest = some (JValue.jstr val) := h3
                exact ⟨i, c, rfl, hg, h4⟩
            | none =>
                rw [hg] at h3
                have h4 : (none : Option JValue) = some (JValue.jstr val) := h3
                exact absurd h4 (by simp)
        | none =>
            rw [hci] at h2
            have h3 : (none : Option JValue) = some (JValue.jstr val) := h2
            exact absurd h3 (by simp)
      obtain ⟨i, c, hci, hg, hrest⟩ := hsome
      have hrep : s = Nat.repr i := canonIndex_repr hci
      have hzero : i = 0 + i := (Nat.zero_add i).symm
      have hpa : path ++ s :: rest = (path ++ [Nat.repr (0 + i)]) ++ rest := by
        rw [← hzero, ← hrep]
        simp
      rw [hpa] at hexcl hkey hadd ⊢
      exact walkElems_complete opts elems 0 path st i c rest val hg hrest
        hexcl hkey hph hlen hadd

theorem walkFields_complete (opts : DiscoveryOptions)
    (fields : List (String × JValue)) (path : List String)
    (st : List String × List DiscoveredSecret) (s : String) (c : JValue)
    (rest : List String) (val : String)
    (hc : lookupKey fields s = some c)
    (hrest : pathAt c rest = some (JValue.jstr val))
    (hexcl : matchesExcludePattern (joinSep "." ((path ++ [s]) ++ rest)) opts.excludePaths = false)
    (hkey : SECRET_KEY_EXCLUDE.contains (((path ++ [s]) ++ rest).getLastD "") = false)
    (hph : val ≠ KEYCHAIN_PLACEHOLDER)
    (hlen : ¬ val.length < MIN_SECRET_LENGTH)
    (hadd : joinSep "." ((path ++ [s]) ++ rest) ∈ opts.additionalPaths) :
    joinSep "." ((path ++ [s]) ++ rest) ∈ (walkFields opts fields path st).1 :=
  match fields with
  | [] => by simp [lookupKey] at hc
  | (k, v0) :: rest' => by
      show joinSep "." ((path ++ [s]) ++ rest) ∈
        (walkFields opts rest' path (walkVal opts v0 (path ++ [k]) st)).1
      by_cases hk : k = s
      · subst hk
        have hcv : v0 = c := by
          have h2 : some v0 = some c := by simpa [lookupKey] using hc
          exact Option.some.inj h2
        subst hcv
        exact walkFields_seen_mono opts rest' path _
          (walkVal_complete opts v0 (path ++ [k]) st rest val hrest hexcl hkey hph hlen hadd)
      · have hc2 : lookupKey rest' s = some c := by
          simpa [lookupKey, hk] using hc
        exact walkFields_complete opts rest' path _ s c rest val hc2 hrest
          hexcl hkey hph hlen hadd

theorem walkElems_complete (opts : DiscoveryOptions) (elems : List JValue)
    (i : Nat) (path : List String) (st : List String × List DiscoveredSecret)
    (j : Nat) (c : JValue) (rest : List String) (val : String)
    (hg : elems.get? j = some c)
    (hrest : pathAt c rest = some (JValue.jstr val))
    (hexcl : matchesExcludePattern (joinSep "." ((path ++ [Nat.repr (i + j)]) ++ rest)) opts.excludePaths = false)
    (hkey : SECRET_KEY_EXCLUDE.contains (((path ++ [Nat.repr (i + j)]) ++ rest).getLastD "") = false)
    (hph : val ≠ KEYCHAIN_PLACEHOLDER)
    (hlen : ¬ val.length < MIN_SECRET_LENGTH)
    (hadd : joinSep "." ((path ++ [Nat.repr (i + j)]) ++ rest) ∈ opts.additionalPaths) :
    joinSep "." ((path ++ [Nat.repr (i + j)]) ++ rest) ∈ (walkElems opts elems i path st).1 :=
  match elems, j with
  | [], _ => by simp [List.get?] at hg
  | v0 :: rest', 0 => by
      have hcv : v0 = c := by
        have h2 : some v0 = some c := hg
        exact Option.some.inj h2
      subst hcv
      show joinSep "." ((path ++ [Nat.repr (i + 0)]) ++ rest) ∈
        (walkElems opts rest' (i + 1) path (walkVal opts v0 (path ++ [Nat.repr i]) st)).1
      rw [Nat.add_zero] at hexcl hkey hadd ⊢
      exact walkElems_seen_mono opts rest' (i + 1) path _
        (walkVal_complete opts v0 (path ++ [Nat.repr i]) st rest val hrest hexcl hkey hph hlen hadd)
  | v0 :: rest', Nat.succ j' => by
      have hg2 : rest'.get? j' = some c := hg
      show joinSep "." ((path ++ [Nat.repr (i + (j' + 1))]) ++ rest) ∈
        (walkElems opts rest' (i + 1) path (walkVal opts v0 (path ++ [Nat.repr i]) st)).1
      have harith : i + (j' + 1) = (i + 1) + j' := by omega
      rw [harith] at hexcl hkey hadd ⊢
      exact walkElems_complete opts rest' (i + 1) path _ j' c rest val hg2 hrest
        hexcl hkey hph hlen hadd

end

/-- C7 as amended: a caller-supplied additionalPaths entry at which the
document holds a string leaf is reported with the known-path match type,
bypassing the three classifier predicates, provided the leaf passes the
walk's skip checks: the path matches no exclude pattern, its last segment
is not in the hard key-exclusion set, and the value is neither the
placeholder nor shorter than MIN_SECRET_LENGTH. -/
theorem additional_path_reported (config : JValue) (opts : DiscoveryOptions)
    (segs : List String) (val : String)
    (hleaf : pathAt config segs = some (JValue.jstr val))
    (hadd : joinSep "." segs ∈ opts.additionalPaths)
    (hexcl : matchesExcludePattern (joinSep "." segs) opts.excludePaths = false)
    (hkey : SECRET_KEY_EXCLUDE.contains (segs.getLastD "") = false)
    (hph : val ≠ KEYCHAIN_PLACEHOLDER)
    (hlen : MIN_SECRET_LENGTH ≤ val.length) :
    ∃ v, DiscoveredSecret.mk (joinSep "." segs)
      (pathToKeychainName (joinSep "." segs)) MatchType.knownPath v
        ∈ discoverSecrets config opts := by
  have hseen : joinSep "." segs ∈ (walkVal opts config [] ([], [])).1 := by
    have h0 : ([] : List String) ++ segs = segs := by simp
    have := walkVal_complete opts config [] ([], []) segs val hleaf
      (by rw [h0]; exact hexcl) (by rw [h0]; exact hkey) hph
      (Nat.not_lt.mpr hlen) (by rw [h0]; exact hadd)
    rw [h0] at this
    exact this
  have hinv : InvAdd opts (walkVal opts config [] ([], [])) :=
    walkVal_inv opts config [] ([], []) (by intro P hP; simp at hP)
  obtain ⟨v, hv⟩ := hinv _ hseen hadd
  refine ⟨v, ?_⟩
  unfold discoverSecrets
  exact (List.perm_insertionSort secretLE _).mem_iff.mpr hv

/-- C7 witness. -/
theorem additional_path_reported_witness :
    ∃ v, DiscoveredSecret.mk (joinSep "." ["custom", "value"])
      (pathToKeychainName (joinSep "." ["custom", "value"])) MatchType.knownPath v
        ∈ discoverSecrets
          (JValue.jobj [("custom", JValue.jobj [("value", JValue.jstr "0123456789abcdef")])])
          { additionalPaths := ["custom.value"] } :=
  additional_path_reported _ _ ["custom", "value"] "0123456789abcdef"
    rfl (by decide) (by decide) (by decide) (by decide) (by decide)

/-- C7 counterexample to the claim as stated: a string leaf at an
additionalPaths entry that is shorter than MIN_SECRET_LENGTH is not
reported, so additionalPaths entries do not bypass the length floor. -/
theorem additional_path_not_reported_counterexample :
    getByPath (JValue.jobj [("a", JValue.jstr "x")]) "a" = some (JValue.jstr "x") ∧
    "a" ∈ ({ additionalPaths := ["a"] } : DiscoveryOptions).additionalPaths ∧
    discoverSecrets (JValue.jobj [("a", JValue.jstr "x")])
      { additionalPaths := ["a"] } = [] := by
  refine ⟨rfl, by simp, by decide⟩

/-! Claim C2: atomicity of storeKeys under a mid-batch backend failure. -/

theorem storeLoop_cons (ops : BackendOps σ) (c : JValue) (s : σ)
    (e : SecretEntry) (rest : List SecretEntry) :
    storeLoop ops c s (e :: rest) =
      match getByPath c e.configPath with
      | none =>
          ((storeLoop ops c s rest).1, (storeLoop ops c s rest).2.1,
           ((storeLoop ops c s rest).2.2).map fun rs =>
             ⟨e.keychainName, e.configPath, false, true, some "Value not found in config"⟩ :: rs)
      | some JValue.jnull =>
          ((storeLoop ops c s rest).1, (storeLoop ops c s rest).2.1,
           ((storeLoop ops c s rest).2.2).map fun rs =>
             ⟨e.keychainName, e.configPath, false, true, some "Value not found in config"⟩ :: rs)
      | some (JValue.jstr v) =>
          if v = KEYCHAIN_PLACEHOLDER then
            ((storeLoop ops c s rest).1, (storeLoop ops c s rest).2.1,
             ((storeLoop ops c s rest).2.2).map fun rs =>
               ⟨e.keychainName, e.configPath, false, true, some "Already stored in backend"⟩ :: rs)
          else
            match ops.set s e.keychainName v with
            | none => (c, s, none)
            | some s1 =>
                ((storeLoop ops (setByPath c e.configPath (JValue.jstr KEYCHAIN_PLACEHOLDER)) s1 rest).1,
                 (storeLoop ops (setByPath c e.configPath (JValue.jstr KEYCHAIN_PLACEHOLDER)) s1 rest).2.1,
                 ((storeLoop ops (setByPath c e.configPath (JValue.jstr KEYCHAIN_PLACEHOLDER)) s1 rest).2.2).map
                   fun rs => ⟨e.keychainName, e.configPath, true, false, none⟩ :: rs)
      | some _ =>
          ((storeLoop ops c s rest).1, (storeLoop ops c s rest).2.1,
           ((storeLoop ops c s rest).2.2).map fun rs =>
             ⟨e.keychainName, e.configPath, false, true, some "Value is not a string"⟩ :: rs) := by
  simp only [storeLoop]

theorem storeLoop_lift (ops : BackendOps σ) {c c1' : JValue} {s : σ} {s1' : σ}
    {rest : List SecretEntry} {e : SecretEntry} {R : StoreResult}
    (hstep : ∀ tail, storeLoop ops c s (e :: tail) =
      ((storeLoop ops c1' s1' tail).1, (storeLoop ops c1' s1' tail).2.1,
       ((storeLoop ops c1' s1' tail).2.2).map fun rs => R :: rs))
    (hdec : ∃ M1 e1 M2 c1 rs1 v, rest = M1 ++ e1 :: M2 ∧
      storeLoop ops c1' s1' M1 = (c1, (storeLoop ops c1' s1' rest).2.1, some rs1) ∧
      getByPath c1 e1.configPath = some (JValue.jstr v) ∧ v ≠ KEYCHAIN_PLACEHOLDER ∧
      ops.set (storeLoop ops c1' s1' rest).2.1 e1.keychainName v = none) :
    ∃ M1 e1 M2 c1 rs1 v, (e :: rest) = M1 ++ e1 :: M2 ∧
      storeLoop ops c s M1 = (c1, (storeLoop ops c s (e :: rest)).2.1, some rs1) ∧
      getByPath c1 e1.configPath = some (JValue.jstr v) ∧ v ≠ KEYCHAIN_PLACEHOLDER ∧
      ops.set (storeLoop ops c s (e :: rest)).2.1 e1.keychainName v = none := by
  obtain ⟨M1, e1, M2, c1, rs1, v, hM, hpre, hget, hph, hset⟩ := hdec
  have h21 : (storeLoop ops c s (e :: rest)).2.1 = (storeLoop ops c1' s1' rest).2.1 := by
    rw [hstep rest]
  refine ⟨e :: M1, e1, M2, c1, R :: rs1, v, by simp [hM], ?_, hget, hph,
    by rw [h21]; exact hset⟩
  rw [h21, hstep M1, hpre]
  rfl

theorem storeLoop_fail_decomp (ops : BackendOps σ) :
    ∀ (M : List SecretEntry) (c : JValue) (s : σ),
    (storeLoop ops c s M).2.2 = none →
    ∃ M1 e M2 c1 rs1 v,
      M = M1 ++ e :: M2 ∧
      storeLoop ops c s M1 = (c1, (storeLoop ops c s M).2.1, some rs1) ∧
      getByPath c1 e.configPath = some (JValue.jstr v) ∧
      v ≠ KEYCHAIN_PLACEHOLDER ∧
      ops.set (storeLoop ops c s M).2.1 e.keychainName v = none
  | [], c, s, hfail => absurd hfail (by simp [storeLoop])
  | e :: rest, c, s, hfail => by
      cases hw : getByPath c e.configPath with
      | none =>
          rw [storeLoop_cons, hw] at hfail
          exact storeLoop_lift ops (fun tail => by rw [storeLoop_cons, hw])
            (storeLoop_fail_decomp ops rest c s (Option.map_eq_none'.mp hfail))
      | some w =>
          cases w with
          | jnull =>
              rw [storeLoop_cons, hw] at hfail
              exact storeLoop_lift ops (fun tail => by rw [storeLoop_cons, hw])
                (storeLoop_fail_decomp ops rest c s (Option.map_eq_none'.mp hfail))
          | jbool b0 =>
              rw [storeLoop_cons, hw] at hfail
              exact storeLoop_lift ops (fun tail => by rw [storeLoop_cons, hw])
                (storeLoop_fail_decomp ops rest c s (Option.map_eq_none'.mp hfail))
          | jnum n0 =>
              rw [storeLoop_cons, hw] at hfail
              exact storeLoop_lift ops (fun tail => by rw [storeLoop_cons, hw])
                (storeLoop_fail_decomp ops rest c s (Option.map_eq_none'.mp hfail))
          | jobj f0 =>
              rw [storeLoop_cons, hw] at hfail
              exact storeLoop_lift ops (fun tail => by rw [storeLoop_cons, hw])
                (storeLoop_fail_decomp ops rest c s (Option.map_eq_none'.mp hfail))
          | jarr el0 pr0 =>
              rw [storeLoop_cons, hw] at hfail
              exact storeLoop_lift ops (fun tail => by rw [storeLoop_cons, hw])
                (storeLoop_fail_decomp ops rest c s (Option.map_eq_none'.mp hfail))
          | jstr v0 =>
              rw [storeLoop_cons, hw] at hfail
              have hfail2 : ((if v0 = KEYCHAIN_PLACEHOLDER then
                  ((storeLoop ops c s rest).1, (storeLoop ops c s rest).2.1,
                   ((storeLoop ops c s rest).2.2).map fun rs =>
                     (⟨e.keychainName, e.configPath, false, true,
                       some "Already stored in backend"⟩ : StoreResult) :: rs)
                else
                  match ops.set s e.keychainName v0 with
                  | none => (c, s, none)
                  | some s1 =>
                      ((storeLoop ops (setByPath c e.configPath
                          (JValue.jstr KEYCHAIN_PLACEHOLDER)) s1 rest).1,
                       (storeLoop ops (setByPath c e.configPath
                          (JValue.jstr KEYCHAIN_PLACEHOLDER)) s1 rest).2.1,
                       ((storeLoop ops (setByPath c e.configPath
                          (JValue.jstr KEYCHAIN_PLACEHOLDER)) s1 rest).2.2).map fun rs =>
                         (⟨e.keychainName, e.configPath, true, false, none⟩ : StoreResult) :: rs)) :
                  JValue × σ × Option (List StoreResult)).2.2 = none := hfail
              by_cases hv : v0 = KEYCHAIN_PLACEHOLDER
              · rw [if_pos hv] at hfail2
                refine @storeLoop_lift σ ops c c s s rest e
                  ⟨e.keychainName, e.configPath, false, true,
                    some "Already stored in backend"⟩ (fun tail => ?_)
                  (storeLoop_fail_decomp ops rest c s (Option.map_eq_none'.mp hfail2))
                rw [storeLoop_cons, hw]
                show (if v0 = KEYCHAIN_PLACEHOLDER then _ else _) = _
                rw [if_pos hv]
              · rw [if_neg hv] at hfail2
                cases hset0 : ops.set s e.keychainName v0 with
                | none =>
                    have h21 : (storeLoop ops c s (e :: rest)).2.1 = s := by
                      rw [storeLoop_cons, hw]
                      show ((if v0 = KEYCHAIN_PLACEHOLDER then _ else _ :
                        JValue × σ × Option (List StoreResult))).2.1 = s
                      rw [if_neg hv, hset0]
                    refine ⟨[], e, rest, c, [], v0, rfl, ?_, hw, hv,
                      by rw [h21]; exact hset0⟩
                    rw [h21]
                    rfl
                | some s1 =>
                    rw [hset0] at hfail2
                    refine @storeLoop_lift σ ops c
                      (setByPath c e.configPath (JValue.jstr KEYCHAIN_PLACEHOLDER)) s s1 rest e
                      ⟨e.keychainName, e.configPath, true, false, none⟩ (fun tail => ?_)
                      (storeLoop_fail_decomp ops rest
                        (setByPath c e.configPath (JValue.jstr KEYCHAIN_PLACEHOLDER)) s1
                        (Option.map_eq_none'.mp hfail2))
                    rw [storeLoop_cons, hw]
                    show (if v0 = KEYCHAIN_PLACEHOLDER then _ else _) = _
                    rw [if_neg hv, hset0]

/-- C2: when a backend set call fails mid-batch, storeKeys leaves the
on-disk document untouched (the single write at the end never runs),
propagates the failure instead of returning results, and keeps the backend
exactly in the state reached after the successfully processed prefix of the
map: the loop ran some prefix M1 to completion, the failing entry e read a
storable string v, the set call on v threw, and the final backend state is
the state after M1 with no rollback. -/
theorem storeKeys_mid_failure_atomic (ops : BackendOps σ) (disk : JValue)
    (s0 : σ) (secretMap : List SecretEntry)
    (hfail : (storeLoop ops disk s0 secretMap).2.2 = none) :
    (storeKeys ops disk s0 secretMap).1 = disk ∧
    (storeKeys ops disk s0 secretMap).2.2 = none ∧
    (storeKeys ops disk s0 secretMap).2.1 = (storeLoop ops disk s0 secretMap).2.1 ∧
    ∃ M1 e M2 c1 rs1 v,
      secretMap = M1 ++ e :: M2 ∧
      storeLoop ops disk s0 M1 = (c1, (storeLoop ops disk s0 secretMap).2.1, some rs1) ∧
      getByPath c1 e.configPath = some (JValue.jstr v) ∧
      v ≠ KEYCHAIN_PLACEHOLDER ∧
      ops.set (storeLoop ops disk s0 secretMap).2.1 e.keychainName v = none := by
  have hsk : storeKeys ops disk s0 secretMap =
      (disk, (storeLoop ops disk s0 secretMap).2.1, none) := by
    unfold storeKeys
    rcases hR : storeLoop ops disk s0 secretMap with ⟨c1, s1, r1⟩
    rw [hR] at hfail
    have hr1 : r1 = none := hfail
    subst hr1
    rfl
  refine ⟨by rw [hsk], by rw [hsk], by rw [hsk], ?_⟩
  exact storeLoop_fail_decomp ops secretMap disk s0 hfail

/-- C2 witness. -/
theorem storeKeys_mid_failure_atomic_witness :
    (storeKeys failOps (JValue.jobj [("a", JValue.jstr "secret-value")]) ()
      [⟨"a", "k"⟩]).1 = JValue.jobj [("a", JValue.jstr "secret-value")] ∧
    (storeKeys failOps (JValue.jobj [("a", JValue.jstr "secret-value")]) ()
      [⟨"a", "k"⟩]).2.2 = none ∧
    (storeKeys failOps (JValue.jobj [("a", JValue.jstr "secret-value")]) ()
      [⟨"a", "k"⟩]).2.1 =
      (storeLoop failOps (JValue.jobj [("a", JValue.jstr "secret-value")]) ()
        [⟨"a", "k"⟩]).2.1 ∧
    ∃ M1 e M2 c1 rs1 v,
      [(⟨"a", "k"⟩ : SecretEntry)] = M1 ++ e :: M2 ∧
      storeLoop failOps (JValue.jobj [("a", JValue.jstr "secret-value")]) () M1 =
        (c1, (storeLoop failOps (JValue.jobj [("a", JValue.jstr "secret-value")]) ()
          [⟨"a", "k"⟩]).2.1, some rs1) ∧
      getByPath c1 e.configPath = some (JValue.jstr v) ∧
      v ≠ KEYCHAIN_PLACEHOLDER ∧
      failOps.set (storeLoop failOps (JValue.jobj [("a", JValue.jstr "secret-value")]) ()
        [⟨"a", "k"⟩]).2.1 e.keychainName v = none :=
  storeKeys_mid_failure_atomic failOps _ () _ rfl

/-- C10 witness: over a document holding both an excluded telegram token
under channels.dev and a known gateway token elsewhere, the gateway token is
discovered and, being discovered, lies outside the excluded subtree. -/
theorem exclude_entry_suppresses_subtree_witness :
    (⟨"gateway.auth.token", "gateway-auth-token", MatchType.knownPath,
      "0123456789abcdef"⟩ : DiscoveredSecret) ∈ discoverSecrets
      (JValue.jobj [("channels", JValue.jobj [("dev", JValue.jobj [("botToken",
        JValue.jstr "7234891:AAFaaaaaaaaaaaaaaaaaaaaaaaaaaaaaa")])]),
        ("gateway", JValue.jobj [("auth",
          JValue.jobj [("token", JValue.jstr "0123456789abcdef")])])])
      { excludePaths := ["channels.dev"] } ∧
    ("gateway.auth.token" : String) ≠ "channels.dev" ∧
    strStartsWith "gateway.auth.token" ("channels.dev" ++ ".") = false := by
  have hmem : (⟨"gateway.auth.token", "gateway-auth-token", MatchType.knownPath,
      "0123456789abcdef"⟩ : DiscoveredSecret) ∈ discoverSecrets
      (JValue.jobj [("channels", JValue.jobj [("dev", JValue.jobj [("botToken",
        JValue.jstr "7234891:AAFaaaaaaaaaaaaaaaaaaaaaaaaaaaaaa")])]),
        ("gateway", JValue.jobj [("auth",
          JValue.jobj [("token", JValue.jstr "0123456789abcdef")])])])
      { excludePaths := ["channels.dev"] } := by decide
  have h := exclude_entry_suppresses_subtree _ _ "channels.dev" (by decide) (by decide)
    _ hmem
  exact ⟨hmem, h.1, h.2⟩

/-! Lemmas about the in-memory backend state, used by the migration and
round-trip theorems. -/

theorem bGet_bSet_same : ∀ (s : BState) (k v : String), bGet (bSet s k v) k = some v
  | [], k, v => by simp [bSet, bGet]
  | (a, b) :: rest, k, v => by
      by_cases h : a = k
      · simp [bSet, bGet, h]
      · simp only [bSet, if_neg h, bGet, bGet_bSet_same rest k v]

theorem bGet_bSet_ne : ∀ (s : BState) (k v k2 : String), k2 ≠ k →
    bGet (bSet s k v) k2 = bGet s k2
  | [], k, v, k2, hne => by
      have hkk : ¬ k = k2 := fun h2 => hne h2.symm
      simp [bSet, bGet, hkk]
  | (a, b) :: rest, k, v, k2, hne => by
      have hkk : ¬ k = k2 := fun h2 => hne h2.symm
      by_cases h : a = k
      · have hs : bSet ((a, b) :: rest) k v = (a, v) :: rest := by simp [bSet, h]
        subst h
        rw [hs]
        simp [bGet, hkk]
      · have hs : bSet ((a, b) :: rest) k v = (a, b) :: bSet rest k v := by
          simp [bSet, h]
        rw [hs]
        by_cases h2 : a = k2
        · simp [bGet, h2]
        · simp only [bGet, if_neg h2, bGet_bSet_ne rest k v k2 hne]

theorem bGet_bDel_same : ∀ (s : BState) (k : String), bGet (bDel s k) k = none
  | [], k => rfl
  | (a, b) :: rest, k => by
      by_cases h : a = k
      · simpa [bDel, List.filter_cons, h] using bGet_bDel_same rest k
      · have hd : bDel ((a, b) :: rest) k = (a, b) :: bDel rest k := by
          simp [bDel, List.filter_cons, h]
        rw [hd]
        simpa [bGet, h] using bGet_bDel_same rest k

theorem bGet_bDel_ne : ∀ (s : BState) (k k2 : String), k2 ≠ k →
    bGet (bDel s k) k2 = bGet s k2
  | [], k, k2, _ => rfl
  | (a, b) :: rest, k, k2, hne => by
      by_cases h : a = k
      · have ha : ¬ a = k2 := fun h2 => hne (h2.symm.trans h)
        have hd : bDel ((a, b) :: rest) k = bDel rest k := by
          simp [bDel, List.filter_cons, h]
        rw [hd, bGet_bDel_ne rest k k2 hne]
        simp [bGet, ha]
      · have hd : bDel ((a, b) :: rest) k = (a, b) :: bDel rest k := by
          simp [bDel, List.filter_cons, h]
        rw [hd]
        by_cases h2 : a = k2
        · simp [bGet, h2]
        · simp only [bGet, if_neg h2, bGet_bDel_ne rest k k2 hne]

theorem migrateLoop_cons (ops : BackendOps σ) (s : σ) (configPath oldName : String)
    (rest : List (String × String)) :
    migrateLoop ops s ((configPath, oldName) :: rest) =
      (if oldName = pathToKeychainName configPath then
        (migrateLoop ops s rest).map fun r =>
          (r.1, ⟨configPath, oldName, pathToKeychainName configPath, false,
                 some "Names are identical"⟩ :: r.2)
      else
        match ops.get s oldName with
        | none =>
            (migrateLoop ops s rest).map fun r =>
              (r.1, ⟨configPath, oldName, pathToKeychainName configPath, false,
                     some "No value found at old name"⟩ :: r.2)
        | some value =>
            match ops.get s (pathToKeychainName configPath) with
            | some _ =>
                match ops.del s oldName with
                | none => none
                | some s1 =>
                    (migrateLoop ops s1 rest).map fun r =>
                      (r.1, ⟨configPath, oldName, pathToKeychainName configPath, true,
                             some "Deleted old (new already existed)"⟩ :: r.2)
            | none =>
                match ops.set s (pathToKeychainName configPath) value with
                | none => none
                | some s1 =>
                    match ops.del s1 oldName with
                    | none => none
                    | some s2 =>
                        (migrateLoop ops s2 rest).map fun r =>
                          (r.1, ⟨configPath, oldName, pathToKeychainName configPath,
                                 true, none⟩ :: r.2)) := by
  simp only [migrateLoop]

theorem migrateLoop_frame (k : String) (l : List (String × String)) :
    ∀ (s : BState),
      (∀ p ∈ l, k ≠ p.2 ∧ k ≠ pathToKeychainName p.1) →
      ∀ s2 rs, migrateLoop memOps s l = some (s2, rs) → bGet s2 k = bGet s k := by
  induction l with
  | nil =>
      intro s _ s2 rs h
      have h2 : (s, ([] : List MigrateResult)) = (s2, rs) := Option.some.inj h
      have h3 : s = s2 := congrArg Prod.fst h2
      rw [← h3]
  | cons p rest ih =>
      obtain ⟨configPath, oldName⟩ := p
      intro s hk s2 rs h
      have hko : k ≠ oldName := (hk _ (List.mem_cons_self _ _)).1
      have hkn : k ≠ pathToKeychainName configPath := (hk _ (List.mem_cons_self _ _)).2
      have hk2 : ∀ p ∈ rest, k ≠ p.2 ∧ k ≠ pathToKeychainName p.1 :=
        fun p hp => hk p (List.mem_cons_of_mem _ hp)
      rw [migrateLoop_cons] at h
      by_cases hid : oldName = pathToKeychainName configPath
      · rw [if_pos hid] at h
        obtain ⟨r, hr, heq⟩ := Option.map_eq_some'.mp h
        have h1 : r.1 = s2 := congrArg Prod.fst heq
        rw [← h1]
        exact ih s hk2 r.1 r.2 hr
      · rw [if_neg hid] at h
        cases hget : bGet s oldName with
        | none =>
            have hg : memOps.get s oldName = none := hget
            simp only [hg] at h
            obtain ⟨r, hr, heq⟩ := Option.map_eq_some'.mp h
            have h1 : r.1 = s2 := congrArg Prod.fst heq
            rw [← h1]
            exact ih s hk2 r.1 r.2 hr
        | some v =>
            have hg : memOps.get s oldName = some v := hget
            simp only [hg] at h
            cases hnew : bGet s (pathToKeychainName configPath) with
            | some w =>
                have hg2 : memOps.get s (pathToKeychainName configPath) = some w := hnew
                have hdel : memOps.del s oldName = some (bDel s oldName) := rfl
                simp only [hg2, hdel] at h
                obtain ⟨r, hr, heq⟩ := Option.map_eq_some'.mp h
                have h1 : r.1 = s2 := congrArg Prod.fst heq
                rw [← h1, ih (bDel s oldName) hk2 r.1 r.2 hr,
                    bGet_bDel_ne s oldName k hko]
            | none =>
                have hg2 : memOps.get s (pathToKeychainName configPath) = none := hnew
                have hset : memOps.set s (pathToKeychainName configPath) v =
                    some (bSet s (pathToKeychainName configPath) v) := rfl
                have hdel : memOps.del (bSet s (pathToKeychainName configPath) v) oldName =
                    some (bDel (bSet s (pathToKeychainName configPath) v) oldName) := rfl
                simp only [hg2, hset, hdel] at h
                obtain ⟨r, hr, heq⟩ := Option.map_eq_some'.mp h
                have h1 : r.1 = s2 := congrArg Prod.fst heq
                rw [← h1,
                    ih (bDel (bSet s (pathToKeychainName configPath) v) oldName) hk2 r.1 r.2 hr,
                    bGet_bDel_ne _ oldName k hko,
                    bGet_bSet_ne s (pathToKeychainName configPath) v k hkn]

/-- C5: per-entry contract of the migration loop over the honest in-memory
backend.  For an entry (configPath, oldName) whose old name differs from the
derived new name, and whose old and new names are untouched by the remaining
entries: if the backend holds nothing at oldName the entry is reported with
migrated = false; if it holds a value at oldName and nothing at the new name,
after the run the backend holds that value at the new name and nothing at
oldName and the entry is reported migrated = true; if both names hold values,
oldName is deleted, the new name keeps its existing value, and the entry is
reported migrated = true with the deleted-old reason. -/
theorem migrate_entry_contract (s : BState) (configPath oldName : String)
    (rest : List (String × String))
    (hne : oldName ≠ pathToKeychainName configPath)
    (hfresh : ∀ p ∈ rest,
      (oldName ≠ p.2 ∧ oldName ≠ pathToKeychainName p.1) ∧
      (pathToKeychainName configPath ≠ p.2 ∧
       pathToKeychainName configPath ≠ pathToKeychainName p.1)) :
    ∀ s2 rs, migrateLoop memOps s ((configPath, oldName) :: rest) = some (s2, rs) →
      (bGet s oldName = none →
        rs.head? = some ⟨configPath, oldName, pathToKeychainName configPath, false,
          some "No value found at old name"⟩) ∧
      (∀ v, bGet s oldName = some v → bGet s (pathToKeychainName configPath) = none →
        rs.head? = some ⟨configPath, oldName, pathToKeychainName configPath, true, none⟩ ∧
        bGet s2 (pathToKeychainName configPath) = some v ∧
        bGet s2 oldName = none) ∧
      (∀ v w, bGet s oldName = some v →
          bGet s (pathToKeychainName configPath) = some w →
        rs.head? = some ⟨configPath, oldName, pathToKeychainName configPath, true,
          some "Deleted old (new already existed)"⟩ ∧
        bGet s2 oldName = none ∧
        bGet s2 (pathToKeychainName configPath) = some w) := by
  intro s2 rs h
  rw [migrateLoop_cons, if_neg hne] at h
  have hfo : ∀ p ∈ rest, oldName ≠ p.2 ∧ oldName ≠ pathToKeychainName p.1 :=
    fun p hp => (hfresh p hp).1
  have hfn : ∀ p ∈ rest, pathToKeychainName configPath ≠ p.2 ∧
      pathToKeychainName configPath ≠ pathToKeychainName p.1 :=
    fun p hp => (hfresh p hp).2
  refine ⟨?_, ?_, ?_⟩
  · intro hnone
    have hg : memOps.get s oldName = none := hnone
    simp only [hg] at h
    obtain ⟨r, hr, heq⟩ := Option.map_eq_some'.mp h
    have h2 : (⟨configPath, oldName, pathToKeychainName configPath, false,
        some "No value found at old name"⟩ : MigrateResult) :: r.2 = rs :=
      congrArg Prod.snd heq
    rw [← h2]
    rfl
  · intro v hv hnew
    have hg : memOps.get s oldName = some v := hv
    have hg2 : memOps.get s (pathToKeychainName configPath) = none := hnew
    have hset : memOps.set s (pathToKeychainName configPath) v =
        some (bSet s (pathToKeychainName configPath) v) := rfl
    have hdel : memOps.del (bSet s (pathToKeychainName configPath) v) oldName =
        some (bDel (bSet s (pathToKeychainName configPath) v) oldName) := rfl
    simp only [hg, hg2, hset, hdel] at h
    obtain ⟨r, hr, heq⟩ := Option.map_eq_some'.mp h
    have h1 : r.1 = s2 := congrArg Prod.fst heq
    have h2 : (⟨configPath, oldName, pathToKeychainName configPath, true, none⟩ :
        MigrateResult) :: r.2 = rs := congrArg Prod.snd heq
    have hframeN := migrateLoop_frame (pathToKeychainName configPath) rest
      (bDel (bSet s (pathToKeychainName configPath) v) oldName) hfn r.1 r.2 hr
    have hframeO := migrateLoop_frame oldName rest
      (bDel (bSet s (pathToKeychainName configPath) v) oldName) hfo r.1 r.2 hr
    refine ⟨by rw [← h2]; rfl, ?_, ?_⟩
    · rw [← h1, hframeN,
          bGet_bDel_ne _ oldName (pathToKeychainName configPath) (Ne.symm hne),
          bGet_bSet_same]
    · rw [← h1, hframeO, bGet_bDel_same]
  · intro v w hv hnew
    have hg : memOps.get s oldName = some v := hv
    have hg2 : memOps.get s (pathToKeychainName configPath) = some w := hnew
    have hdel : memOps.del s oldName = some (bDel s oldName) := rfl
    simp only [hg, hg2, hdel] at h
    obtain ⟨r, hr, heq⟩ := Option.map_eq_some'.mp h
    have h1 : r.1 = s2 := congrArg Prod.fst heq
    have h2 : (⟨configPath, oldName, pathToKeychainName configPath, true,
        some "Deleted old (new already existed)"⟩ : MigrateResult) :: r.2 = rs :=
      congrArg Prod.snd heq
    have hframeN := migrateLoop_frame (pathToKeychainName configPath) rest
      (bDel s oldName) hfn r.1 r.2 hr
    have hframeO := migrateLoop_frame oldName rest (bDel s oldName) hfo r.1 r.2 hr
    refine ⟨by rw [← h2]; rfl, ?_, ?_⟩
    · rw [← h1, hframeO, bGet_bDel_same]
    · rw [← h1, hframeN,
          bGet_bDel_ne s oldName (pathToKeychainName configPath) (Ne.symm hne), hnew]

/-- C5 witness: scenario 5 of the specification, run over the full legacy
map against a backend pre-populated only at the old whisper name. -/
theorem migrate_entry_contract_witness :
    bGet [("openai-whisper-api-api-key", "sk-abc")]
      (pathToKeychainName "skills.entries.openai-whisper-api.apiKey") = some "sk-abc" ∧
    bGet [("openai-whisper-api-api-key", "sk-abc")] "whisper-api-key" = none := by
  have h := migrate_entry_contract [("whisper-api-key", "sk-abc")]
      "skills.entries.openai-whisper-api.apiKey" "whisper-api-key"
      [("tools.web.search.apiKey", "brave-search-api-key")]
      (by decide) (by decide)
      [("openai-whisper-api-api-key", "sk-abc")]
      [⟨"skills.entries.openai-whisper-api.apiKey", "whisper-api-key",
        "openai-whisper-api-api-key", true, none⟩,
       ⟨"tools.web.search.apiKey", "brave-search-api-key", "search-api-key", false,
        some "No value found at old name"⟩]
      (by decide)
  have h3 := h.2.1 "sk-abc" (by decide) (by decide)
  exact ⟨h3.2.1, h3.2.2⟩


/-! Round-trip machinery: unfolding equations and frame lemmas for the
store and restore loops over the honest in-memory backend. -/

theorem restoreLoop_cons (ops : BackendOps σ) (s : σ) (c : JValue)
    (e : SecretEntry) (M : List SecretEntry) :
    restoreLoop ops s c (e :: M) =
      match ops.get s e.keychainName with
      | some v => restoreLoop ops s (setByPath c e.configPath (JValue.jstr v)) M
      | none => restoreLoop ops s c M := rfl

theorem storeLoop_cons_skip (ops : BackendOps σ) (c : JValue) (s : σ)
    (e : SecretEntry) (M : List SecretEntry)
    (hw : storeSkip (getByPath c e.configPath)) :
    (storeLoop ops c s (e :: M)).1 = (storeLoop ops c s M).1 ∧
    (storeLoop ops c s (e :: M)).2.1 = (storeLoop ops c s M).2.1 := by
  rw [storeLoop_cons]
  cases hg : getByPath c e.configPath with
  | none => exact ⟨rfl, rfl⟩
  | some w =>
      cases w with
      | jstr v =>
          rw [hg] at hw
          have hv : v = KEYCHAIN_PLACEHOLDER := hw
          subst hv
          exact ⟨rfl, rfl⟩
      | jnull => exact ⟨rfl, rfl⟩
      | jbool b => exact ⟨rfl, rfl⟩
      | jnum n => exact ⟨rfl, rfl⟩
      | jobj fs => exact ⟨rfl, rfl⟩
      | jarr es ps => exact ⟨rfl, rfl⟩

theorem storeLoop_cons_store (ops : BackendOps σ) (c : JValue) (s : σ)
    (e : SecretEntry) (M : List SecretEntry) {v : String}
    (hw : getByPath c e.configPath = some (JValue.jstr v))
    (hv : v ≠ KEYCHAIN_PLACEHOLDER) {s1 : σ}
    (hset : ops.set s e.keychainName v = some s1) :
    (storeLoop ops c s (e :: M)).1 =
      (storeLoop ops (setByPath c e.configPath (JValue.jstr KEYCHAIN_PLACEHOLDER)) s1 M).1 ∧
    (storeLoop ops c s (e :: M)).2.1 =
      (storeLoop ops (setByPath c e.configPath (JValue.jstr KEYCHAIN_PLACEHOLDER)) s1 M).2.1 := by
  rw [storeLoop_cons, hw]
  simp only [if_neg hv, hset]
  exact ⟨trivial, trivial⟩

theorem storeLoop_backend_frame (k : String) :
    ∀ (M : List SecretEntry) (D : JValue) (B : BState),
      (∀ e ∈ M, k ≠ e.keychainName) →
      bGet (storeLoop memOps D B M).2.1 k = bGet B k := by
  intro M
  induction M with
  | nil => intro D B _; rfl
  | cons e M2 ih =>
      intro D B hk
      have hk2 : ∀ e2 ∈ M2, k ≠ e2.keychainName :=
        fun e2 h2 => hk e2 (List.mem_cons_of_mem _ h2)
      cases hw : getByPath D e.configPath with
      | none =>
          rw [(storeLoop_cons_skip memOps D B e M2 (by rw [hw]; trivial)).2]
          exact ih D B hk2
      | some w =>
          cases w with
          | jstr v =>
              by_cases hv : v = KEYCHAIN_PLACEHOLDER
              · rw [(storeLoop_cons_skip memOps D B e M2 (by rw [hw]; exact hv)).2]
                exact ih D B hk2
              · rw [(storeLoop_cons_store memOps D B e M2 hw hv rfl).2, ih _ _ hk2]
                exact bGet_bSet_ne B e.keychainName v k (hk e (List.mem_cons_self e M2))
          | jnull =>
              rw [(storeLoop_cons_skip memOps D B e M2 (by rw [hw]; trivial)).2]
              exact ih D B hk2
          | jbool b =>
              rw [(storeLoop_cons_skip memOps D B e M2 (by rw [hw]; trivial)).2]
              exact ih D B hk2
          | jnum n =>
              rw [(storeLoop_cons_skip memOps D B e M2 (by rw [hw]; trivial)).2]
              exact ih D B hk2
          | jobj fs =>
              rw [(storeLoop_cons_skip memOps D B e M2 (by rw [hw]; trivial)).2]
              exact ih D B hk2
          | jarr es ps =>
              rw [(storeLoop_cons_skip memOps D B e M2 (by rw [hw]; trivial)).2]
              exact ih D B hk2

theorem div_of_two_strings {d : JValue} {p q : List String} {v w : String}
    (hp : getSegs d p = some (JValue.jstr v)) (hq : getSegs d q = some (JValue.jstr w))
    (hvw : v ≠ w) : Div p q := by
  rcases path_trichotomy p q with heq | ⟨r, hr, hqe⟩ | ⟨r, hr, hpe⟩ | hdiv
  · subst heq
    rw [hp] at hq
    have h2 : JValue.jstr v = JValue.jstr w := Option.some.inj hq
    have h3 : v = w := by injection h2
    exact absurd h3 hvw
  · subst hqe
    rw [getSegs_append, hp] at hq
    cases r with
    | nil => exact absurd rfl hr
    | cons s t => simp [getSegs_jstr] at hq
  · subst hpe
    rw [getSegs_append, hq] at hp
    cases r with
    | nil => exact absurd rfl hr
    | cons s t => simp [getSegs_jstr] at hp
  · exact hdiv

theorem storeLoop_doc_frame_ph :
    ∀ (M : List SecretEntry) (D : JValue) (B : BState) (p : List String),
      getSegs D p = some (JValue.jstr KEYCHAIN_PLACEHOLDER) →
      getSegs (storeLoop memOps D B M).1 p = some (JValue.jstr KEYCHAIN_PLACEHOLDER) := by
  intro M
  induction M with
  | nil => intro D B p hp; exact hp
  | cons e M2 ih =>
      intro D B p hp
      cases hw : getByPath D e.configPath with
      | none =>
          rw [(storeLoop_cons_skip memOps D B e M2 (by rw [hw]; trivial)).1]
          exact ih D B p hp
      | some w0 =>
          cases w0 with
          | jstr v =>
              by_cases hv : v = KEYCHAIN_PLACEHOLDER
              · rw [(storeLoop_cons_skip memOps D B e M2 (by rw [hw]; exact hv)).1]
                exact ih D B p hp
              · rw [(storeLoop_cons_store memOps D B e M2 hw hv rfl).1]
                have hw2 : getSegs D (pathSegs e.configPath) = some (JValue.jstr v) := hw
                have hdiv : Div p (pathSegs e.configPath) :=
                  div_of_two_strings hp hw2 (Ne.symm hv)
                have h2 : getSegs (setSegs D (pathSegs e.configPath)
                    (JValue.jstr KEYCHAIN_PLACEHOLDER)) p = getSegs D p :=
                  getSegs_setSegs_div' (div_symm hdiv) hw2 _
                have h3 : getSegs (setByPath D e.configPath
                    (JValue.jstr KEYCHAIN_PLACEHOLDER)) p =
                    some (JValue.jstr KEYCHAIN_PLACEHOLDER) := h2.trans hp
                exact ih _ _ p h3
          | jnull =>
              rw [(storeLoop_cons_skip memOps D B e M2 (by rw [hw]; trivial)).1]
              exact ih D B p hp
          | jbool b =>
              rw [(storeLoop_cons_skip memOps D B e M2 (by rw [hw]; trivial)).1]
              exact ih D B p hp
          | jnum n =>
              rw [(storeLoop_cons_skip memOps D B e M2 (by rw [hw]; trivial)).1]
              exact ih D B p hp
          | jobj fs =>
              rw [(storeLoop_cons_skip memOps D B e M2 (by rw [hw]; trivial)).1]
              exact ih D B p hp
          | jarr es ps =>
              rw [(storeLoop_cons_skip memOps D B e M2 (by rw [hw]; trivial)).1]
              exact ih D B p hp

theorem storeLoop_active_div :
    ∀ (M : List SecretEntry) (D : JValue) (B : BState) (p : List String),
      (M.map SecretEntry.keychainName).Nodup →
      (∀ e ∈ M, bGet B e.keychainName = none) →
      getSegs D p = some (JValue.jstr KEYCHAIN_PLACEHOLDER) →
      ∀ e2 ∈ M, ∀ u, bGet (storeLoop memOps D B M).2.1 e2.keychainName = some u →
        Div p (pathSegs e2.configPath) := by
  intro M
  induction M with
  | nil => intro D B p _ _ _ e2 he2; exact absurd he2 (List.not_mem_nil e2)
  | cons e0 M2 ih =>
      intro D B p hnd hfresh hp e2 he2 u hu
      have hnd2 : e0.keychainName ∉ M2.map SecretEntry.keychainName ∧
          (M2.map SecretEntry.keychainName).Nodup := List.nodup_cons.mp hnd
      have hkne : ∀ e3 ∈ M2, e0.keychainName ≠ e3.keychainName :=
        fun e3 h3 heq => hnd2.1 (heq ▸ List.mem_map_of_mem _ h3)
      have hfresh2 : ∀ e3 ∈ M2, bGet B e3.keychainName = none :=
        fun e3 h3 => hfresh e3 (List.mem_cons_of_mem _ h3)
      have hskip : storeSkip (getByPath D e0.configPath) →
          Div p (pathSegs e2.configPath) := by
        intro hsk
        have hs := storeLoop_cons_skip memOps D B e0 M2 hsk
        rw [hs.2] at hu
        rcases List.mem_cons.mp he2 with he0 | hm2
        · subst he0
          rw [storeLoop_backend_frame e2.keychainName M2 D B hkne,
              hfresh e2 (List.mem_cons_self e2 M2)] at hu
          exact absurd hu (by simp)
        · exact ih D B p hnd2.2 hfresh2 hp e2 hm2 u hu
      cases hw : getByPath D e0.configPath with
      | none => exact hskip (by rw [hw]; trivial)
      | some w0 =>
          cases w0 with
          | jstr v =>
              by_cases hv : v = KEYCHAIN_PLACEHOLDER
              · exact hskip (by rw [hw]; exact hv)
              · have hw2 : getSegs D (pathSegs e0.configPath) = some (JValue.jstr v) := hw
                have hdiv0 : Div p (pathSegs e0.configPath) :=
                  div_of_two_strings hp hw2 (Ne.symm hv)
                have hst := storeLoop_cons_store memOps D B e0 M2 hw hv rfl
                rw [hst.2] at hu
                have hfresh3 : ∀ e3 ∈ M2,
                    bGet (bSet B e0.keychainName v) e3.keychainName = none := by
                  intro e3 h3
                  rw [bGet_bSet_ne B e0.keychainName v e3.keychainName
                      (fun heq => hkne e3 h3 heq.symm)]
                  exact hfresh2 e3 h3
                have hp2 : getSegs (setByPath D e0.configPath
                    (JValue.jstr KEYCHAIN_PLACEHOLDER)) p =
                    some (JValue.jstr KEYCHAIN_PLACEHOLDER) :=
                  (getSegs_setSegs_div' (div_symm hdiv0) hw2 _).trans hp
                rcases List.mem_cons.mp he2 with he0 | hm2
                · subst he0
                  exact hdiv0
                · exact ih (setByPath D e0.configPath (JValue.jstr KEYCHAIN_PLACEHOLDER))
                    (bSet B e0.keychainName v) p hnd2.2 hfresh3 hp2 e2 hm2 u hu
          | jnull => exact hskip (by rw [hw]; trivial)
          | jbool b => exact hskip (by rw [hw]; trivial)
          | jnum n => exact hskip (by rw [hw]; trivial)
          | jobj fs => exact hskip (by rw [hw]; trivial)
          | jarr es ps => exact hskip (by rw [hw]; trivial)

theorem storeLoop_stored_ph :
    ∀ (M : List SecretEntry) (D : JValue) (B : BState),
      (M.map SecretEntry.keychainName).Nodup →
      (∀ e ∈ M, bGet B e.keychainName = none) →
      ∀ e ∈ M, ∀ u, bGet (storeLoop memOps D B M).2.1 e.keychainName = some u →
        getSegs (storeLoop memOps D B M).1 (pathSegs e.configPath) =
          some (JValue.jstr KEYCHAIN_PLACEHOLDER) := by
  intro M
  induction M with
  | nil => intro D B _ _ e he; exact absurd he (List.not_mem_nil e)
  | cons e0 M2 ih =>
      intro D B hnd hfresh e he u hu
      have hnd2 : e0.keychainName ∉ M2.map SecretEntry.keychainName ∧
          (M2.map SecretEntry.keychainName).Nodup := List.nodup_cons.mp hnd
      have hkne : ∀ e3 ∈ M2, e0.keychainName ≠ e3.keychainName :=
        fun e3 h3 heq => hnd2.1 (heq ▸ List.mem_map_of_mem _ h3)
      have hfresh2 : ∀ e3 ∈ M2, bGet B e3.keychainName = none :=
        fun e3 h3 => hfresh e3 (List.mem_cons_of_mem _ h3)
      have hskip : storeSkip (getByPath D e0.configPath) →
          getSegs (storeLoop memOps D B (e0 :: M2)).1 (pathSegs e.configPath) =
            some (JValue.jstr KEYCHAIN_PLACEHOLDER) := by
        intro hsk
        have hs := storeLoop_cons_skip memOps D B e0 M2 hsk
        rw [hs.2] at hu
        rw [hs.1]
        rcases List.mem_cons.mp he with he0 | he2
        · subst he0
          rw [storeLoop_backend_frame e.keychainName M2 D B hkne,
              hfresh e (List.mem_cons_self e M2)] at hu
          exact absurd hu (by simp)
        · exact ih D B hnd2.2 hfresh2 e he2 u hu
      cases hw : getByPath D e0.configPath with
      | none => exact hskip (by rw [hw]; trivial)
      | some w0 =>
          cases w0 with
          | jstr v =>
              by_cases hv : v = KEYCHAIN_PLACEHOLDER
              · exact hskip (by rw [hw]; exact hv)
              · have hst := storeLoop_cons_store memOps D B e0 M2 hw hv rfl
                rw [hst.2] at hu
                rw [hst.1]
                have hfresh3 : ∀ e3 ∈ M2,
                    bGet (bSet B e0.keychainName v) e3.keychainName = none := by
                  intro e3 h3
                  rw [bGet_bSet_ne B e0.keychainName v e3.keychainName
                      (fun heq => hkne e3 h3 heq.symm)]
                  exact hfresh2 e3 h3
                rcases List.mem_cons.mp he with he0 | he2
                · subst he0
                  have hw2 : getSegs D (pathSegs e.configPath) = some (JValue.jstr v) := hw
                  have hphp : getSegs (setByPath D e.configPath
                      (JValue.jstr KEYCHAIN_PLACEHOLDER)) (pathSegs e.configPath) =
                      some (JValue.jstr KEYCHAIN_PLACEHOLDER) :=
                    getSegs_setSegs_self_of_present hw2 (pathSegs_ne_nil _) _
                  exact storeLoop_doc_frame_ph M2 _ _ _ hphp
                · exact ih (setByPath D e0.configPath (JValue.jstr KEYCHAIN_PLACEHOLDER))
                    (bSet B e0.keychainName v) hnd2.2 hfresh3 e he2 u hu
          | jnull => exact hskip (by rw [hw]; trivial)
          | jbool b => exact hskip (by rw [hw]; trivial)
          | jnum n => exact hskip (by rw [hw]; trivial)
          | jobj fs => exact hskip (by rw [hw]; trivial)
          | jarr es ps => exact hskip (by rw [hw]; trivial)

theorem storeLoop_active_pairwise :
    ∀ (M : List SecretEntry) (D : JValue) (B : BState),
      (M.map SecretEntry.keychainName).Nodup →
      (∀ e ∈ M, bGet B e.keychainName = none) →
      List.Pairwise (fun e1 e2 =>
        (∃ u, bGet (storeLoop memOps D B M).2.1 e1.keychainName = some u) →
        (∃ u, bGet (storeLoop memOps D B M).2.1 e2.keychainName = some u) →
        Div (pathSegs e1.configPath) (pathSegs e2.configPath)) M := by
  intro M
  induction M with
  | nil => intro D B _ _; exact List.Pairwise.nil
  | cons e0 M2 ih =>
      intro D B hnd hfresh
      have hnd2 : e0.keychainName ∉ M2.map SecretEntry.keychainName ∧
          (M2.map SecretEntry.keychainName).Nodup := List.nodup_cons.mp hnd
      have hkne : ∀ e3 ∈ M2, e0.keychainName ≠ e3.keychainName :=
        fun e3 h3 heq => hnd2.1 (heq ▸ List.mem_map_of_mem _ h3)
      have hfresh2 : ∀ e3 ∈ M2, bGet B e3.keychainName = none :=
        fun e3 h3 => hfresh e3 (List.mem_cons_of_mem _ h3)
      have hskip : storeSkip (getByPath D e0.configPath) →
          List.Pairwise (fun e1 e2 =>
            (∃ u, bGet (storeLoop memOps D B (e0 :: M2)).2.1 e1.keychainName = some u) →
            (∃ u, bGet (storeLoop memOps D B (e0 :: M2)).2.1 e2.keychainName = some u) →
            Div (pathSegs e1.configPath) (pathSegs e2.configPath)) (e0 :: M2) := by
        intro hsk
        have hs := storeLoop_cons_skip memOps D B e0 M2 hsk
        rw [hs.2]
        refine List.Pairwise.cons ?_ (ih D B hnd2.2 hfresh2)
        intro e2 h2 hact0 _
        obtain ⟨u, hu⟩ := hact0
        rw [storeLoop_backend_frame e0.keychainName M2 D B hkne,
            hfresh e0 (List.mem_cons_self e0 M2)] at hu
        exact absurd hu (by simp)
      cases hw : getByPath D e0.configPath with
      | none => exact hskip (by rw [hw]; trivial)
      | some w0 =>
          cases w0 with
          | jstr v =>
              by_cases hv : v = KEYCHAIN_PLACEHOLDER
              · exact hskip (by rw [hw]; exact hv)
              · have hw2 : getSegs D (pathSegs e0.configPath) = some (JValue.jstr v) := hw
                have hst := storeLoop_cons_store memOps D B e0 M2 hw hv rfl
                rw [hst.2]
                have hfresh3 : ∀ e3 ∈ M2,
                    bGet (bSet B e0.keychainName v) e3.keychainName = none := by
                  intro e3 h3
                  rw [bGet_bSet_ne B e0.keychainName v e3.keychainName
                      (fun heq => hkne e3 h3 heq.symm)]
                  exact hfresh2 e3 h3
                have hphp : getSegs (setByPath D e0.configPath
                    (JValue.jstr KEYCHAIN_PLACEHOLDER)) (pathSegs e0.configPath) =
                    some (JValue.jstr KEYCHAIN_PLACEHOLDER) :=
                  getSegs_setSegs_self_of_present hw2 (pathSegs_ne_nil _) _
                refine List.Pairwise.cons ?_ (ih
                  (setByPath D e0.configPath (JValue.jstr KEYCHAIN_PLACEHOLDER))
                  (bSet B e0.keychainName v) hnd2.2 hfresh3)
                intro e2 h2 _ hact2
                obtain ⟨u, hu⟩ := hact2
                exact storeLoop_active_div M2
                  (setByPath D e0.configPath (JValue.jstr KEYCHAIN_PLACEHOLDER))
                  (bSet B e0.keychainName v) (pathSegs e0.configPath)
                  hnd2.2 hfresh3 hphp e2 h2 u hu
          | jnull => exact hskip (by rw [hw]; trivial)
          | jbool b => exact hskip (by rw [hw]; trivial)
          | jnum n => exact hskip (by rw [hw]; trivial)
          | jobj fs => exact hskip (by rw [hw]; trivial)
          | jarr es ps => exact hskip (by rw [hw]; trivial)

theorem restoreLoop_setSegs_comm (s : BState) :
    ∀ (M : List SecretEntry) (X : JValue) (p : List String) (w wx : JValue),
      getSegs X p = some wx →
      (∀ e ∈ M, ∀ v, bGet s e.keychainName = some v →
        Div p (pathSegs e.configPath) ∧
        ∃ we, getSegs X (pathSegs e.configPath) = some we) →
      List.Pairwise (fun e1 e2 =>
        (∃ u, bGet s e1.keychainName = some u) →
        (∃ u, bGet s e2.keychainName = some u) →
        Div (pathSegs e1.configPath) (pathSegs e2.configPath)) M →
      restoreLoop memOps s (setSegs X p w) M = setSegs (restoreLoop memOps s X M) p w := by
  intro M
  induction M with
  | nil => intro X p w wx _ _ _; rfl
  | cons e M2 ih =>
      intro X p w wx hp hact hpw
      have hpw2 := List.pairwise_cons.mp hpw
      have hact2 : ∀ e2 ∈ M2, ∀ v, bGet s e2.keychainName = some v →
          Div p (pathSegs e2.configPath) ∧
          ∃ we, getSegs X (pathSegs e2.configPath) = some we :=
        fun e2 h2 v hv => hact e2 (List.mem_cons_of_mem _ h2) v hv
      cases hg : bGet s e.keychainName with
      | none =>
          have hg2 : memOps.get s e.keychainName = none := hg
          simp only [restoreLoop_cons, hg2]
          exact ih X p w wx hp hact2 hpw2.2
      | some v =>
          have hg2 : memOps.get s e.keychainName = some v := hg
          simp only [restoreLoop_cons, hg2]
          obtain ⟨hdiv, we, hpres⟩ := hact e (List.mem_cons_self e M2) v hg
          obtain ⟨r, a, b, p1, q1, hab, hpe, hqe⟩ := hdiv
          have hswap : setSegs (setSegs X p w) (pathSegs e.configPath) (JValue.jstr v)
              = setSegs (setSegs X (pathSegs e.configPath) (JValue.jstr v)) p w := by
            rw [hpe] at hp ⊢
            rw [hqe] at hpres ⊢
            exact setSegs_comm r p1 q1 hab hp hpres w (JValue.jstr v)
          have hL : restoreLoop memOps s
              (setByPath (setSegs X p w) e.configPath (JValue.jstr v)) M2
              = restoreLoop memOps s
                (setSegs (setSegs X (pathSegs e.configPath) (JValue.jstr v)) p w) M2 := by
            show restoreLoop memOps s
              (setSegs (setSegs X p w) (pathSegs e.configPath) (JValue.jstr v)) M2 = _
            rw [hswap]
          rw [hL]
          have hXp : getSegs (setSegs X (pathSegs e.configPath) (JValue.jstr v)) p
              = some wx := by
            rw [getSegs_setSegs_div' (div_symm ⟨r, a, b, p1, q1, hab, hpe, hqe⟩)
                hpres (JValue.jstr v)]
            exact hp
          have hactX : ∀ e2 ∈ M2, ∀ u, bGet s e2.keychainName = some u →
              Div p (pathSegs e2.configPath) ∧
              ∃ we2, getSegs (setSegs X (pathSegs e.configPath) (JValue.jstr v))
                (pathSegs e2.configPath) = some we2 := by
            intro e2 h2 u hu
            obtain ⟨hdiv2, we2, hpres2⟩ := hact2 e2 h2 u hu
            refine ⟨hdiv2, we2, ?_⟩
            rw [getSegs_setSegs_div' (hpw2.1 e2 h2 ⟨v, hg⟩ ⟨u, hu⟩) hpres (JValue.jstr v)]
            exact hpres2
          exact ih (setSegs X (pathSegs e.configPath) (JValue.jstr v)) p w wx
            hXp hactX hpw2.2

theorem store_restore_loop :
    ∀ (M : List SecretEntry) (D : JValue) (B : BState),
      (M.map SecretEntry.keychainName).Nodup →
      (∀ e ∈ M, bGet B e.keychainName = none) →
      restoreLoop memOps (storeLoop memOps D B M).2.1 (storeLoop memOps D B M).1 M = D := by
  intro M
  induction M with
  | nil => intro D B _ _; rfl
  | cons e M2 ih =>
      intro D B hnd hfresh
      have hnd2 : e.keychainName ∉ M2.map SecretEntry.keychainName ∧
          (M2.map SecretEntry.keychainName).Nodup := List.nodup_cons.mp hnd
      have hkne : ∀ e2 ∈ M2, e.keychainName ≠ e2.keychainName :=
        fun e2 h2 heq => hnd2.1 (heq ▸ List.mem_map_of_mem _ h2)
      have hfresh2 : ∀ e2 ∈ M2, bGet B e2.keychainName = none :=
        fun e2 h2 => hfresh e2 (List.mem_cons_of_mem _ h2)
      have hskip : storeSkip (getByPath D e.configPath) →
          restoreLoop memOps (storeLoop memOps D B (e :: M2)).2.1
            (storeLoop memOps D B (e :: M2)).1 (e :: M2) = D := by
        intro hsk
        have hs := storeLoop_cons_skip memOps D B e M2 hsk
        rw [hs.1, hs.2]
        have hg : memOps.get (storeLoop memOps D B M2).2.1 e.keychainName = none := by
          show bGet (storeLoop memOps D B M2).2.1 e.keychainName = none
          rw [storeLoop_backend_frame e.keychainName M2 D B hkne]
          exact hfresh e (List.mem_cons_self e M2)
        simp only [restoreLoop_cons, hg]
        exact ih D B hnd2.2 hfresh2
      cases hw : getByPath D e.configPath with
      | none => exact hskip (by rw [hw]; trivial)
      | some w0 =>
          cases w0 with
          | jstr v =>
              by_cases hv : v = KEYCHAIN_PLACEHOLDER
              · exact hskip (by rw [hw]; exact hv)
              · have hst := storeLoop_cons_store memOps D B e M2 hw hv rfl
                rw [hst.1, hst.2]
                have hw2 : getSegs D (pathSegs e.configPath) = some (JValue.jstr v) := hw
                have hfresh3 : ∀ e2 ∈ M2,
                    bGet (bSet B e.keychainName v) e2.keychainName = none := by
                  intro e2 h2
                  rw [bGet_bSet_ne B e.keychainName v e2.keychainName
                      (fun heq => hkne e2 h2 heq.symm)]
                  exact hfresh2 e2 h2
                have hgv : memOps.get (storeLoop memOps
                    (setByPath D e.configPath (JValue.jstr KEYCHAIN_PLACEHOLDER))
                    (bSet B e.keychainName v) M2).2.1 e.keychainName = some v := by
                  show bGet (storeLoop memOps
                    (setByPath D e.configPath (JValue.jstr KEYCHAIN_PLACEHOLDER))
                    (bSet B e.keychainName v) M2).2.1 e.keychainName = some v
                  rw [storeLoop_backend_frame e.keychainName M2 _ _ hkne]
                  exact bGet_bSet_same B e.keychainName v
                simp only [restoreLoop_cons, hgv]
                have hphp : getSegs (setByPath D e.configPath
                    (JValue.jstr KEYCHAIN_PLACEHOLDER)) (pathSegs e.configPath) =
                    some (JValue.jstr KEYCHAIN_PLACEHOLDER) :=
                  getSegs_setSegs_self_of_present hw2 (pathSegs_ne_nil _) _
                have hc1p : getSegs (storeLoop memOps
                    (setByPath D e.configPath (JValue.jstr KEYCHAIN_PLACEHOLDER))
                    (bSet B e.keychainName v) M2).1 (pathSegs e.configPath) =
                    some (JValue.jstr KEYCHAIN_PLACEHOLDER) :=
                  storeLoop_doc_frame_ph M2 _ _ _ hphp
                have hact : ∀ e2 ∈ M2, ∀ u, bGet (storeLoop memOps
                    (setByPath D e.configPath (JValue.jstr KEYCHAIN_PLACEHOLDER))
                    (bSet B e.keychainName v) M2).2.1 e2.keychainName = some u →
                    Div (pathSegs e.configPath) (pathSegs e2.configPath) ∧
                    ∃ we2, getSegs (storeLoop memOps
                      (setByPath D e.configPath (JValue.jstr KEYCHAIN_PLACEHOLDER))
                      (bSet B e.keychainName v) M2).1 (pathSegs e2.configPath) =
                      some we2 := by
                  intro e2 h2 u hu
                  refine ⟨storeLoop_active_div M2
                    (setByPath D e.configPath (JValue.jstr KEYCHAIN_PLACEHOLDER))
                    (bSet B e.keychainName v) (pathSegs e.configPath)
                    hnd2.2 hfresh3 hphp e2 h2 u hu,
                    JValue.jstr KEYCHAIN_PLACEHOLDER, ?_⟩
                  exact storeLoop_stored_ph M2
                    (setByPath D e.configPath (JValue.jstr KEYCHAIN_PLACEHOLDER))
                    (bSet B e.keychainName v) hnd2.2 hfresh3 e2 h2 u hu
                have hpwS := storeLoop_active_pairwise M2
                  (setByPath D e.configPath (JValue.jstr KEYCHAIN_PLACEHOLDER))
                  (bSet B e.keychainName v) hnd2.2 hfresh3
                have hcomm : restoreLoop memOps (storeLoop memOps
                    (setByPath D e.configPath (JValue.jstr KEYCHAIN_PLACEHOLDER))
                    (bSet B e.keychainName v) M2).2.1
                    (setByPath (storeLoop memOps
                      (setByPath D e.configPath (JValue.jstr KEYCHAIN_PLACEHOLDER))
                      (bSet B e.keychainName v) M2).1 e.configPath (JValue.jstr v)) M2
                    = setSegs (restoreLoop memOps (storeLoop memOps
                        (setByPath D e.configPath (JValue.jstr KEYCHAIN_PLACEHOLDER))
                        (bSet B e.keychainName v) M2).2.1
                        (storeLoop memOps
                          (setByPath D e.configPath (JValue.jstr KEYCHAIN_PLACEHOLDER))
                          (bSet B e.keychainName v) M2).1 M2)
                        (pathSegs e.configPath) (JValue.jstr v) :=
                  restoreLoop_setSegs_comm _ M2 _ (pathSegs e.configPath)
                    (JValue.jstr v) (JValue.jstr KEYCHAIN_PLACEHOLDER) hc1p hact hpwS
                rw [hcomm,
                    ih (setByPath D e.configPath (JValue.jstr KEYCHAIN_PLACEHOLDER))
                      (bSet B e.keychainName v) hnd2.2 hfresh3]
                show setSegs (setSegs D (pathSegs e.configPath)
                    (JValue.jstr KEYCHAIN_PLACEHOLDER)) (pathSegs e.configPath)
                    (JValue.jstr v) = D
                rw [setSegs_setSegs_same (pathSegs e.configPath) hw2 _ _]
                exact setSegs_id (pathSegs e.configPath) hw2
          | jnull => exact hskip (by rw [hw]; trivial)
          | jbool b => exact hskip (by rw [hw]; trivial)
          | jnum n => exact hskip (by rw [hw]; trivial)
          | jobj fs => exact hskip (by rw [hw]; trivial)
          | jarr es ps => exact hskip (by rw [hw]; trivial)

theorem storeLoop_memOps_some (M : List SecretEntry) (D : JValue) (B : BState) :
    ∃ rs, (storeLoop memOps D B M).2.2 = some rs := by
  cases hr : (storeLoop memOps D B M).2.2 with
  | some rs => exact ⟨rs, rfl⟩
  | none =>
      obtain ⟨M1, e1, M2, c1, rs1, v, _, _, _, _, hset⟩ :=
        storeLoop_fail_decomp memOps M D B hr
      exact absurd hset (by simp [memOps])

theorem storeKeys_memOps_eq (D : JValue) (B : BState) (M : List SecretEntry) :
    storeKeys memOps D B M = storeLoop memOps D B M := by
  obtain ⟨rs, hrs⟩ := storeLoop_memOps_some M D B
  unfold storeKeys
  rcases hR : storeLoop memOps D B M with ⟨c1, s1, r1⟩
  rw [hR] at hrs
  have h1 : r1 = some rs := hrs
  subst h1
  rfl

/-- C1 as amended: for every document D, every secret map M whose keychain
names are pairwise distinct, and every backend with no pre-existing keys at
the names of M, restoring after storing returns exactly the original
document: every path of M that held a non-placeholder string in D is stored
and then restored to its original value, and every other path of M is
untouched.  No condition on the config paths is needed: an entry is stored
only when its path holds a non-placeholder string, two present string paths
holding different values can be neither equal nor prefix-related, and the
loop only ever writes strings over strings, so the paths of the stored
entries are automatically pairwise divergent.  (The original claim, with no
distinctness condition on the keychain names, is refuted by the
accompanying counterexample.) -/
theorem store_restore_roundtrip (D : JValue) (B : BState) (M : List SecretEntry)
    (hnames : (M.map SecretEntry.keychainName).Nodup)
    (hfresh : ∀ e ∈ M, bGet B e.keychainName = none) :
    restoreKeys memOps (storeKeys memOps D B M).1 (storeKeys memOps D B M).2.1 M = D := by
  rw [storeKeys_memOps_eq]
  exact store_restore_loop M D B hnames hfresh

/-- C1 witness: a two-entry map with distinct keychain names and
prefix-related config paths (the path "a" is a proper prefix of "a.b") over
a document holding a container at "a" and a string at "a.b" round-trips to
the original document. -/
theorem store_restore_roundtrip_witness :
    restoreKeys memOps
      (storeKeys memOps
        (JValue.jobj [("a", JValue.jobj [("b", JValue.jstr "secret-x")])]) []
        [⟨"a", "k1"⟩, ⟨"a.b", "k2"⟩]).1
      (storeKeys memOps
        (JValue.jobj [("a", JValue.jobj [("b", JValue.jstr "secret-x")])]) []
        [⟨"a", "k1"⟩, ⟨"a.b", "k2"⟩]).2.1
      [⟨"a", "k1"⟩, ⟨"a.b", "k2"⟩]
    = JValue.jobj [("a", JValue.jobj [("b", JValue.jstr "secret-x")])] :=
  store_restore_roundtrip _ _ _ (by decide) (fun e _ => rfl)

/-- C1 counterexample to the claim as stated: with two entries sharing the
keychain name "k", the path "a", absent from the document, ends up holding
the value stored from path "b" after the round trip, so a path of M whose
value was not present in D is not left untouched. -/
theorem store_restore_counterexample :
    getByPath
      (restoreKeys memOps
        (storeKeys memOps (JValue.jobj [("b", JValue.jstr "secret")]) []
          [⟨"a", "k"⟩, ⟨"b", "k"⟩]).1
        (storeKeys memOps (JValue.jobj [("b", JValue.jstr "secret")]) []
          [⟨"a", "k"⟩, ⟨"b", "k"⟩]).2.1
        [⟨"a", "k"⟩, ⟨"b", "k"⟩]) "a" = some (JValue.jstr "secret") ∧
    getByPath (JValue.jobj [("b", JValue.jstr "secret")]) "a" = none := ⟨rfl, rfl⟩


/-! Heap lemmas for the non-destructive-set theorem. -/

theorem hget_set_ne : ∀ (l : List HNode) (i j : Nat) (x : HNode), i ≠ j →
    (l.set i x).get? j = l.get? j
  | [], _, _, _, _ => rfl
  | _ :: _, 0, 0, _, hij => absurd rfl hij
  | _ :: _, 0, _ + 1, _, _ => rfl
  | _ :: _, _ + 1, 0, _, _ => rfl
  | _ :: t, i + 1, j + 1, x, hij =>
      hget_set_ne t i j x (fun h => hij (by rw [h]))

theorem hget_set_same : ∀ (l : List HNode) (i : Nat) (x : HNode), i < l.length →
    (l.set i x).get? i = some x
  | [], i, _, h => absurd h (by simp)
  | _ :: _, 0, _, _ => rfl
  | _ :: t, i + 1, x, h => hget_set_same t i x (Nat.lt_of_succ_lt_succ h)

theorem hget_lt_of_some : ∀ (l : List HNode) (i : Nat) (y : HNode),
    l.get? i = some y → i < l.length
  | [], i, _, h => absurd h (by simp)
  | _ :: _, 0, _, _ => Nat.succ_pos _
  | _ :: t, i + 1, y, h => Nat.succ_lt_succ (hget_lt_of_some t i y h)

theorem hget_append_lt : ∀ (l ext : List HNode) (a : Nat), a < l.length →
    (l ++ ext).get? a = l.get? a
  | [], _, a, h => absurd h (by simp)
  | _ :: _, _, 0, _ => rfl
  | _ :: t, ext, a + 1, h => hget_append_lt t ext a (Nat.lt_of_succ_lt_succ h)

theorem hget_append_ge : ∀ (l : List HNode) (x : HNode) (a : Nat), l.length ≤ a →
    (l ++ [x]).get? a = if a = l.length then some x else none
  | [], x, 0, _ => by simp
  | [], x, _ + 1, _ => by simp
  | _ :: t, _, 0, h => absurd h (by simp)
  | b :: t, x, a + 1, h => by
      have h2 := hget_append_ge t x a (Nat.le_of_succ_le_succ h)
      rw [show ((b :: t) ++ [x]).get? (a + 1) = (t ++ [x]).get? a from rfl, h2]
      by_cases he : a = t.length
      · simp [he]
      · have h3 : ¬ (a + 1 = (b :: t).length) := by
          simp only [List.length_cons]
          exact fun hc => he (Nat.succ_injective hc)
        simp [he, h3]

theorem hval_get_mem : ∀ (l : List HVal) (i : Nat) (x : HVal),
    l.get? i = some x → x ∈ l
  | [], i, _, h => absurd h (by simp)
  | a :: t, 0, x, h => by
      have h2 : a = x := Option.some.inj h
      subst h2
      exact List.mem_cons_self _ _
  | a :: t, i + 1, x, h => List.mem_cons_of_mem a (hval_get_mem t i x h)

theorem hAssign_get_ne (h : Heap) (cur : Nat) (seg : String) (w : HVal) (a : Nat)
    (ha : a ≠ cur) : (hAssign h cur seg w).get? a = h.get? a := by
  unfold hAssign
  cases hg : h.get? cur with
  | none => rfl
  | some node =>
      cases node with
      | nodeObj fields => exact hget_set_ne h cur a _ (fun he => ha he.symm)
      | nodeArr elems props =>
          cases hci : canonIndex seg with
          | some i => exact hget_set_ne h cur a _ (fun he => ha he.symm)
          | none => exact hget_set_ne h cur a _ (fun he => ha he.symm)

theorem hAssign_length (h : Heap) (cur : Nat) (seg : String) (w : HVal) :
    (hAssign h cur seg w).length = h.length := by
  unfold hAssign
  cases hg : h.get? cur with
  | none => rfl
  | some node =>
      cases node with
      | nodeObj fields => exact List.length_set h cur _
      | nodeArr elems props =>
          cases hci : canonIndex seg with
          | some i => exact List.length_set h cur _
          | none => exact List.length_set h cur _

theorem hSetKey_mem : ∀ (fields : List (String × HVal)) (key : String) (v : HVal)
    (kv : String × HVal), kv ∈ hSetKey fields key v → kv ∈ fields ∨ kv = (key, v)
  | [], key, v, kv, h => by
      simp only [hSetKey] at h
      exact Or.inr (by simpa using h)
  | (k, w) :: rest, key, v, kv, h => by
      by_cases hk : k = key
      · rw [hSetKey, if_pos hk] at h
        rcases List.mem_cons.mp h with h1 | h2
        · subst hk; exact Or.inr h1
        · exact Or.inl (List.mem_cons_of_mem _ h2)
      · rw [hSetKey, if_neg hk] at h
        rcases List.mem_cons.mp h with h1 | h2
        · exact Or.inl (h1 ▸ List.mem_cons_self _ _)
        · rcases hSetKey_mem rest key v kv h2 with h3 | h4
          · exact Or.inl (List.mem_cons_of_mem _ h3)
          · exact Or.inr h4

theorem hval_mem_set : ∀ (l : List HVal) (i : Nat) (v x : HVal),
    x ∈ l.set i v → x ∈ l ∨ x = v
  | [], _, _, _, h => Or.inl h
  | a :: t, 0, v, x, h => by
      rcases List.mem_cons.mp h with h1 | h2
      · exact Or.inr h1
      · exact Or.inl (List.mem_cons_of_mem _ h2)
  | a :: t, i + 1, v, x, h => by
      rcases List.mem_cons.mp h with h1 | h2
      · exact Or.inl (h1 ▸ List.mem_cons_self _ _)
      · rcases hval_mem_set t i v x h2 with h3 | h4
        · exact Or.inl (List.mem_cons_of_mem _ h3)
        · exact Or.inr h4

theorem hSetIdx_mem (elems : List HVal) (i : Nat) (v x : HVal)
    (h : x ∈ hSetIdx elems i v) : x ∈ elems ∨ x = v ∨ x = HVal.hnull := by
  unfold hSetIdx at h
  by_cases hi : i < elems.length
  · rw [if_pos hi] at h
    rcases hval_mem_set elems i v x h with h1 | h2
    · exact Or.inl h1
    · exact Or.inr (Or.inl h2)
  · rw [if_neg hi] at h
    rcases List.mem_append.mp h with h1 | h2
    · rcases List.mem_append.mp h1 with h3 | h4
      · exact Or.inl h3
      · exact Or.inr (Or.inr (List.eq_of_mem_replicate h4))
    · exact Or.inr (Or.inl (by simpa using h2))

theorem propsRef_of_lookup : ∀ (fields : List (String × HVal)) (seg : String) (c : Nat),
    hLookupKey fields seg = some (HVal.href c) →
    c ∈ fields.filterMap (fun kv =>
      match kv.2 with
      | HVal.href a => some a
      | _ => none)
  | [], _, _, h => absurd h (by simp [hLookupKey])
  | (k, w) :: rest, seg, c, h => by
      by_cases hk : k = seg
      · rw [hLookupKey, if_pos hk] at h
        have hw : w = HVal.href c := Option.some.inj h
        subst hw
        exact List.mem_filterMap.mpr ⟨(k, HVal.href c), List.mem_cons_self _ _, rfl⟩
      · rw [hLookupKey, if_neg hk] at h
        have h2 := propsRef_of_lookup rest seg c h
        obtain ⟨kv, hkv, hf⟩ := List.mem_filterMap.mp h2
        exact List.mem_filterMap.mpr ⟨kv, List.mem_cons_of_mem _ hkv, hf⟩

theorem hChildGet_ref (h : Heap) (cur : Nat) (seg : String) (c : Nat)
    (hcg : hChildGet h cur seg = some (HVal.href c)) :
    ∃ node, h.get? cur = some node ∧ c ∈ nodeRefs node := by
  unfold hChildGet at hcg
  cases hg : h.get? cur with
  | none => rw [hg] at hcg; exact absurd hcg (by simp)
  | some node =>
      rw [hg] at hcg
      refine ⟨node, rfl, ?_⟩
      cases node with
      | nodeObj fields => exact propsRef_of_lookup fields seg c hcg
      | nodeArr elems props =>
          cases hci : canonIndex seg with
          | some i =>
              rw [hci] at hcg
              have hmem : HVal.href c ∈ elems := hval_get_mem elems i _ hcg
              exact List.mem_append.mpr (Or.inl
                (List.mem_filterMap.mpr ⟨HVal.href c, hmem, rfl⟩))
          | none =>
              rw [hci] at hcg
              exact List.mem_append.mpr (Or.inr (propsRef_of_lookup props seg c hcg))

theorem highCells_self (h : Heap) : HighCells h.length h := by
  intro a ha node hnode r hr
  have h2 := hget_lt_of_some h a node hnode
  omega

theorem highCells_append_obj (n : Nat) (h : Heap) (hh : HighCells n h)
    (fields : List (String × HVal))
    (hrefs : ∀ kv ∈ fields, ∀ a, kv.2 = HVal.href a → n ≤ a) :
    HighCells n (h ++ [HNode.nodeObj fields]) := by
  intro a ha node hnode r hr
  by_cases hlt : a < h.length
  · rw [hget_append_lt h _ a hlt] at hnode
    exact hh a ha node hnode r hr
  · rw [hget_append_ge h _ a (Nat.le_of_not_lt hlt)] at hnode
    by_cases he : a = h.length
    · rw [if_pos he] at hnode
      have h2 : HNode.nodeObj fields = node := Option.some.inj hnode
      rw [← h2] at hr
      obtain ⟨kv, hkv, hf⟩ := List.mem_filterMap.mp hr
      cases hv2 : kv.2 with
      | href b =>
          have hrb : r = b := by rw [hv2] at hf; exact (by simpa using hf : b = r).symm
          rw [hrb]
          exact hrefs kv hkv b hv2
      | hnull => rw [hv2] at hf; simp at hf
      | hbool bb => rw [hv2] at hf; simp at hf
      | hnum nn => rw [hv2] at hf; simp at hf
      | hstr ss => rw [hv2] at hf; simp at hf
    · rw [if_neg he] at hnode
      exact absurd hnode (by simp)

theorem highCells_append_arr (n : Nat) (h : Heap) (hh : HighCells n h)
    (elems : List HVal) (props : List (String × HVal))
    (helems : ∀ x ∈ elems, ∀ a, x = HVal.href a → n ≤ a)
    (hprops : ∀ kv ∈ props, ∀ a, kv.2 = HVal.href a → n ≤ a) :
    HighCells n (h ++ [HNode.nodeArr elems props]) := by
  intro a ha node hnode r hr
  by_cases hlt : a < h.length
  · rw [hget_append_lt h _ a hlt] at hnode
    exact hh a ha node hnode r hr
  · rw [hget_append_ge h _ a (Nat.le_of_not_lt hlt)] at hnode
    by_cases he : a = h.length
    · rw [if_pos he] at hnode
      have h2 : HNode.nodeArr elems props = node := Option.some.inj hnode
      rw [← h2] at hr
      rcases List.mem_append.mp hr with h3 | h3
      · obtain ⟨x, hx, hf⟩ := List.mem_filterMap.mp h3
        cases hv2 : x with
        | href b =>
            have hrb : r = b := by rw [hv2] at hf; exact (by simpa using hf : b = r).symm
            rw [hrb]
            exact helems x hx b hv2
        | hnull => rw [hv2] at hf; simp at hf
        | hbool bb => rw [hv2] at hf; simp at hf
        | hnum nn => rw [hv2] at hf; simp at hf
        | hstr ss => rw [hv2] at hf; simp at hf
      · obtain ⟨kv, hkv, hf⟩ := List.mem_filterMap.mp h3
        cases hv2 : kv.2 with
        | href b =>
            have hrb : r = b := by rw [hv2] at hf; exact (by simpa using hf : b = r).symm
            rw [hrb]
            exact hprops kv hkv b hv2
        | hnull => rw [hv2] at hf; simp at hf
        | hbool bb => rw [hv2] at hf; simp at hf
        | hnum nn => rw [hv2] at hf; simp at hf
        | hstr ss => rw [hv2] at hf; simp at hf
    · rw [if_neg he] at hnode
      exact absurd hnode (by simp)

theorem highCells_hAssign (n : Nat) (h : Heap) (cur : Nat) (seg : String) (b : Nat)
    (hh : HighCells n h) (hb : n ≤ b) :
    HighCells n (hAssign h cur seg (HVal.href b)) := by
  intro a ha node hnode r hr
  by_cases hac : a = cur
  · subst hac
    unfold hAssign at hnode
    cases hg : h.get? a with
    | none => rw [hg] at hnode; exact hh a ha node hnode r hr
    | some node0 =>
        rw [hg] at hnode
        have halen : a < h.length := hget_lt_of_some h a node0 hg
        cases node0 with
        | nodeObj fields =>
            rw [hget_set_same h a _ halen] at hnode
            have h2 : HNode.nodeObj (hSetKey fields seg (HVal.href b)) = node :=
              Option.some.inj hnode
            rw [← h2] at hr
            obtain ⟨kv, hkv, hf⟩ := List.mem_filterMap.mp hr
            rcases hSetKey_mem fields seg (HVal.href b) kv hkv with hold | hnew
            · exact hh a ha _ hg r (List.mem_filterMap.mpr ⟨kv, hold, hf⟩)
            · rw [hnew] at hf
              have hrb : r = b := (by simpa using hf : b = r).symm
              rw [hrb]; exact hb
        | nodeArr elems props =>
            cases hci : canonIndex seg with
            | some i =>
                rw [hci, hget_set_same h a _ halen] at hnode
                have h2 : HNode.nodeArr (hSetIdx elems i (HVal.href b)) props = node :=
                  Option.some.inj hnode
                rw [← h2] at hr
                rcases List.mem_append.mp hr with h3 | h3
                · obtain ⟨x, hx, hf⟩ := List.mem_filterMap.mp h3
                  rcases hSetIdx_mem elems i (HVal.href b) x hx with hold | hnew | hnil
                  · exact hh a ha _ hg r (List.mem_append.mpr (Or.inl
                      (List.mem_filterMap.mpr ⟨x, hold, hf⟩)))
                  · rw [hnew] at hf
                    have hrb : r = b := (by simpa using hf : b = r).symm
                    rw [hrb]; exact hb
                  · rw [hnil] at hf; simp at hf
                · exact hh a ha _ hg r (List.mem_append.mpr (Or.inr h3))
            | none =>
                rw [hci, hget_set_same h a _ halen] at hnode
                have h2 : HNode.nodeArr elems (hSetKey props seg (HVal.href b)) = node :=
                  Option.some.inj hnode
                rw [← h2] at hr
                rcases List.mem_append.mp hr with h3 | h3
                · exact hh a ha _ hg r (List.mem_append.mpr (Or.inl h3))
                · obtain ⟨kv, hkv, hf⟩ := List.mem_filterMap.mp h3
                  rcases hSetKey_mem props seg (HVal.href b) kv hkv with hold | hnew
                  · exact hh a ha _ hg r (List.mem_append.mpr (Or.inr
                      (List.mem_filterMap.mpr ⟨kv, hold, hf⟩)))
                  · rw [hnew] at hf
                    have hrb : r = b := (by simpa using hf : b = r).symm
                    rw [hrb]; exact hb
  · rw [hAssign_get_ne h cur seg _ a hac] at hnode
    exact hh a ha node hnode r hr


theorem hCloneV_href (fuel : Nat) (h : Heap) (a : Nat) :
    hCloneV (Nat.succ fuel) h (HVal.href a) =
      match h.get? a with
      | some (HNode.nodeObj fields) =>
          ((hCloneFields fuel h fields).1 ++ [HNode.nodeObj (hCloneFields fuel h fields).2],
           HVal.href (hCloneFields fuel h fields).1.length)
      | some (HNode.nodeArr elems props) =>
          ((hCloneFields fuel (hCloneElems fuel h elems).1 props).1 ++
             [HNode.nodeArr (hCloneElems fuel h elems).2
               (hCloneFields fuel (hCloneElems fuel h elems).1 props).2],
           HVal.href (hCloneFields fuel (hCloneElems fuel h elems).1 props).1.length)
      | none => (h, HVal.hnull) := by
  simp only [hCloneV]

theorem hCloneFields_cons (fuel : Nat) (h : Heap) (k : String) (v : HVal)
    (rest : List (String × HVal)) :
    hCloneFields fuel h ((k, v) :: rest) =
      ((hCloneFields fuel (hCloneV fuel h v).1 rest).1,
       (k, (hCloneV fuel h v).2) :: (hCloneFields fuel (hCloneV fuel h v).1 rest).2) := by
  simp only [hCloneFields]

theorem hCloneElems_cons (fuel : Nat) (h : Heap) (v : HVal) (rest : List HVal) :
    hCloneElems fuel h (v :: rest) =
      ((hCloneElems fuel (hCloneV fuel h v).1 rest).1,
       (hCloneV fuel h v).2 :: (hCloneElems fuel (hCloneV fuel h v).1 rest).2) := by
  simp only [hCloneElems]

mutual

theorem hCloneV_ext : ∀ (fuel : Nat) (h : Heap) (v : HVal),
    ∃ ext, (hCloneV fuel h v).1 = h ++ ext
  | 0, h, v => ⟨[], by simp [hCloneV]⟩
  | Nat.succ fuel, h, v => by
      cases v with
      | href a0 =>
          cases hg : h.get? a0 with
          | none => exact ⟨[], by rw [hCloneV_href, hg]; simp⟩
          | some node =>
              cases node with
              | nodeObj fields =>
                  obtain ⟨e1, he1⟩ := hCloneFields_ext fuel h fields
                  refine ⟨e1 ++ [HNode.nodeObj (hCloneFields fuel h fields).2], ?_⟩
                  have heq : (hCloneV (Nat.succ fuel) h (HVal.href a0)).1 =
                      (hCloneFields fuel h fields).1 ++
                        [HNode.nodeObj (hCloneFields fuel h fields).2] := by
                    rw [hCloneV_href, hg]
                  rw [heq, he1]
                  simp [List.append_assoc]
              | nodeArr elems props =>
                  obtain ⟨e1, he1⟩ := hCloneElems_ext fuel h elems
                  obtain ⟨e2, he2⟩ := hCloneFields_ext fuel (hCloneElems fuel h elems).1 props
                  refine ⟨e1 ++ (e2 ++ [HNode.nodeArr (hCloneElems fuel h elems).2
                    (hCloneFields fuel (hCloneElems fuel h elems).1 props).2]), ?_⟩
                  have heq : (hCloneV (Nat.succ fuel) h (HVal.href a0)).1 =
                      (hCloneFields fuel (hCloneElems fuel h elems).1 props).1 ++
                        [HNode.nodeArr (hCloneElems fuel h elems).2
                          (hCloneFields fuel (hCloneElems fuel h elems).1 props).2] := by
                    rw [hCloneV_href, hg]
                  rw [heq, he2, he1]
                  simp [List.append_assoc]
      | hnull => exact ⟨[], by simp [hCloneV]⟩
      | hbool b => exact ⟨[], by simp [hCloneV]⟩
      | hnum m => exact ⟨[], by simp [hCloneV]⟩
      | hstr s2 => exact ⟨[], by simp [hCloneV]⟩

theorem hCloneFields_ext : ∀ (fuel : Nat) (h : Heap) (fs : List (String × HVal)),
    ∃ ext, (hCloneFields fuel h fs).1 = h ++ ext
  | _, h, [] => ⟨[], by simp [hCloneFields]⟩
  | fuel, h, (k, v) :: rest => by
      obtain ⟨e1, he1⟩ := hCloneV_ext fuel h v
      obtain ⟨e2, he2⟩ := hCloneFields_ext fuel (hCloneV fuel h v).1 rest
      refine ⟨e1 ++ e2, ?_⟩
      have heq : (hCloneFields fuel h ((k, v) :: rest)).1 =
          (hCloneFields fuel (hCloneV fuel h v).1 rest).1 := by rw [hCloneFields_cons]
      rw [heq, he2, he1]
      simp [List.append_assoc]

theorem hCloneElems_ext : ∀ (fuel : Nat) (h : Heap) (es : List HVal),
    ∃ ext, (hCloneElems fuel h es).1 = h ++ ext
  | _, h, [] => ⟨[], by simp [hCloneElems]⟩
  | fuel, h, v :: rest => by
      obtain ⟨e1, he1⟩ := hCloneV_ext fuel h v
      obtain ⟨e2, he2⟩ := hCloneElems_ext fuel (hCloneV fuel h v).1 rest
      refine ⟨e1 ++ e2, ?_⟩
      have heq : (hCloneElems fuel h (v :: rest)).1 =
          (hCloneElems fuel (hCloneV fuel h v).1 rest).1 := by rw [hCloneElems_cons]
      rw [heq, he2, he1]
      simp [List.append_assoc]

end

mutual

theorem hCloneV_pres : ∀ (n fuel : Nat) (h : Heap) (v : HVal),
    n ≤ h.length → HighCells n h →
    HighCells n (hCloneV fuel h v).1 ∧
    ∀ a, (hCloneV fuel h v).2 = HVal.href a → n ≤ a
  | n, 0, h, v, hn, hh =>
      ⟨by simpa [hCloneV] using hh, fun a ha => by simp [hCloneV] at ha⟩
  | n, Nat.succ fuel, h, v, hn, hh => by
      cases v with
      | href a0 =>
          cases hg : h.get? a0 with
          | none =>
              constructor
              · have heq : (hCloneV (Nat.succ fuel) h (HVal.href a0)).1 = h := by
                  rw [hCloneV_href, hg]
                rw [heq]; exact hh
              · intro a ha
                have heq : (hCloneV (Nat.succ fuel) h (HVal.href a0)).2 = HVal.hnull := by
                  rw [hCloneV_href, hg]
                rw [heq] at ha
                exact absurd ha (by simp)
          | some node =>
              cases node with
              | nodeObj fields =>
                  obtain ⟨hhc, hrefs⟩ := hCloneFields_pres n fuel h fields hn hh
                  obtain ⟨e1, he1⟩ := hCloneFields_ext fuel h fields
                  have hlen1 : n ≤ (hCloneFields fuel h fields).1.length := by
                    rw [he1, List.length_append]; omega
                  have heq1 : (hCloneV (Nat.succ fuel) h (HVal.href a0)).1 =
                      (hCloneFields fuel h fields).1 ++
                        [HNode.nodeObj (hCloneFields fuel h fields).2] := by
                    rw [hCloneV_href, hg]
                  have heq2 : (hCloneV (Nat.succ fuel) h (HVal.href a0)).2 =
                      HVal.href (hCloneFields fuel h fields).1.length := by
                    rw [hCloneV_href, hg]
                  constructor
                  · rw [heq1]
                    exact highCells_append_obj n _ hhc _ hrefs
                  · intro a ha
                    rw [heq2] at ha
                    have h3 : (hCloneFields fuel h fields).1.length = a := by
                      simpa using ha
                    omega
              | nodeArr elems props =>
                  obtain ⟨hhc1, hrefs1⟩ := hCloneElems_pres n fuel h elems hn hh
                  obtain ⟨e1, he1⟩ := hCloneElems_ext fuel h elems
                  have hlen1 : n ≤ (hCloneElems fuel h elems).1.length := by
                    rw [he1, List.length_append]; omega
                  obtain ⟨hhc2, hrefs2⟩ := hCloneFields_pres n fuel
                    (hCloneElems fuel h elems).1 props hlen1 hhc1
                  obtain ⟨e2, he2⟩ := hCloneFields_ext fuel (hCloneElems fuel h elems).1 props
                  have hlen2 : n ≤
                      (hCloneFields fuel (hCloneElems fuel h elems).1 props).1.length := by
                    rw [he2, List.length_append]; omega
                  have heq1 : (hCloneV (Nat.succ fuel) h (HVal.href a0)).1 =
                      (hCloneFields fuel (hCloneElems fuel h elems).1 props).1 ++
                        [HNode.nodeArr (hCloneElems fuel h elems).2
                          (hCloneFields fuel (hCloneElems fuel h elems).1 props).2] := by
                    rw [hCloneV_href, hg]
                  have heq2 : (hCloneV (Nat.succ fuel) h (HVal.href a0)).2 =
                      HVal.href
                        (hCloneFields fuel (hCloneElems fuel h elems).1 props).1.length := by
                    rw [hCloneV_href, hg]
                  constructor
                  · rw [heq1]
                    exact highCells_append_arr n _ hhc2 _ _ hrefs1 hrefs2
                  · intro a ha
                    rw [heq2] at ha
                    have h3 : (hCloneFields fuel
                        (hCloneElems fuel h elems).1 props).1.length = a := by
                      simpa using ha
                    omega
      | hnull =>
          exact ⟨by simpa [hCloneV] using hh, fun a ha => by simp [hCloneV] at ha⟩
      | hbool b =>
          exact ⟨by simpa [hCloneV] using hh, fun a ha => by simp [hCloneV] at ha⟩
      | hnum m =>
          exact ⟨by simpa [hCloneV] using hh, fun a ha => by simp [hCloneV] at ha⟩
      | hstr s2 =>
          exact ⟨by simpa [hCloneV] using hh, fun a ha => by simp [hCloneV] at ha⟩

theorem hCloneFields_pres : ∀ (n fuel : Nat) (h : Heap) (fs : List (String × HVal)),
    n ≤ h.length → HighCells n h →
    HighCells n (hCloneFields fuel h fs).1 ∧
    ∀ kv ∈ (hCloneFields fuel h fs).2, ∀ a, kv.2 = HVal.href a → n ≤ a
  | n, fuel, h, [], hn, hh =>
      ⟨by simpa [hCloneFields] using hh, by simp [hCloneFields]⟩
  | n, fuel, h, (k, v) :: rest, hn, hh => by
      obtain ⟨hh1, hr1⟩ := hCloneV_pres n fuel h v hn hh
      obtain ⟨e1, he1⟩ := hCloneV_ext fuel h v
      have hlen1 : n ≤ (hCloneV fuel h v).1.length := by
        rw [he1, List.length_append]; omega
      obtain ⟨hh2, hr2⟩ := hCloneFields_pres n fuel (hCloneV fuel h v).1 rest hlen1 hh1
      constructor
      · have heq : (hCloneFields fuel h ((k, v) :: rest)).1 =
            (hCloneFields fuel (hCloneV fuel h v).1 rest).1 := by rw [hCloneFields_cons]
        rw [heq]
        exact hh2
      · intro kv hkv a ha
        have heq : (hCloneFields fuel h ((k, v) :: rest)).2 =
            (k, (hCloneV fuel h v).2) ::
              (hCloneFields fuel (hCloneV fuel h v).1 rest).2 := by
          rw [hCloneFields_cons]
        rw [heq] at hkv
        rcases List.mem_cons.mp hkv with h1 | h2
        · rw [h1] at ha
          exact hr1 a ha
        · exact hr2 kv h2 a ha

theorem hCloneElems_pres : ∀ (n fuel : Nat) (h : Heap) (es : List HVal),
    n ≤ h.length → HighCells n h →
    HighCells n (hCloneElems fuel h es).1 ∧
    ∀ x ∈ (hCloneElems fuel h es).2, ∀ a, x = HVal.href a → n ≤ a
  | n, fuel, h, [], hn, hh =>
      ⟨by simpa [hCloneElems] using hh, by simp [hCloneElems]⟩
  | n, fuel, h, v :: rest, hn, hh => by
      obtain ⟨hh1, hr1⟩ := hCloneV_pres n fuel h v hn hh
      obtain ⟨e1, he1⟩ := hCloneV_ext fuel h v
      have hlen1 : n ≤ (hCloneV fuel h v).1.length := by
        rw [he1, List.length_append]; omega
      obtain ⟨hh2, hr2⟩ := hCloneElems_pres n fuel (hCloneV fuel h v).1 rest hlen1 hh1
      constructor
      · have heq : (hCloneElems fuel h (v :: rest)).1 =
            (hCloneElems fuel (hCloneV fuel h v).1 rest).1 := by rw [hCloneElems_cons]
        rw [heq]
        exact hh2
      · intro x hx a ha
        have heq : (hCloneElems fuel h (v :: rest)).2 =
            (hCloneV fuel h v).2 ::
              (hCloneElems fuel (hCloneV fuel h v).1 rest).2 := by
          rw [hCloneElems_cons]
        rw [heq] at hx
        rcases List.mem_cons.mp hx with h1 | h2
        · rw [h1] at ha
          exact hr1 a ha
        · exact hr2 x h2 a ha

end


theorem hSetLoop_frame : ∀ (segs : List String) (h : Heap) (cur : Nat) (v : HVal)
    (n : Nat), n ≤ cur → n ≤ h.length → HighCells n h →
    ∀ a, a < n → (hSetLoop h cur segs v).get? a = h.get? a
  | [], h, cur, v, n, _, _, _, a, _ => rfl
  | [last], h, cur, v, n, hcur, _, _, a, ha =>
      hAssign_get_ne h cur last v a (by omega)
  | seg :: s2 :: rest, h, cur, v, n, hcur, hlen, hh, a, ha => by
      have halloc : hSetLoop h cur (seg :: s2 :: rest) v =
          hSetLoop (hAssign (h ++ [HNode.nodeObj []]) cur seg (HVal.href h.length))
            h.length (s2 :: rest) v →
          (hSetLoop h cur (seg :: s2 :: rest) v).get? a = h.get? a := by
        intro heq
        rw [heq]
        have hh1 : HighCells n (h ++ [HNode.nodeObj []]) :=
          highCells_append_obj n h hh [] (by simp)
        have hh2 : HighCells n
            (hAssign (h ++ [HNode.nodeObj []]) cur seg (HVal.href h.length)) :=
          highCells_hAssign n _ cur seg h.length hh1 hlen
        have hlen2 : n ≤
            (hAssign (h ++ [HNode.nodeObj []]) cur seg (HVal.href h.length)).length := by
          rw [hAssign_length]
          simp only [List.length_append, List.length_cons, List.length_nil]
          omega
        rw [hSetLoop_frame (s2 :: rest)
          (hAssign (h ++ [HNode.nodeObj []]) cur seg (HVal.href h.length))
          h.length v n hlen hlen2 hh2 a ha]
        rw [hAssign_get_ne _ cur seg _ a (by omega)]
        exact hget_append_lt h _ a (by omega)
      cases hcg : hChildGet h cur seg with
      | some w =>
          cases w with
          | href c =>
              have heq : hSetLoop h cur (seg :: s2 :: rest) v =
                  hSetLoop h c (s2 :: rest) v := by
                simp only [hSetLoop, hcg]
              obtain ⟨node, hn, hcr⟩ := hChildGet_ref h cur seg c hcg
              have hnc : n ≤ c := hh cur hcur node hn c hcr
              rw [heq]
              exact hSetLoop_frame (s2 :: rest) h c v n hnc hlen hh a ha
          | hnull => exact halloc (by simp only [hSetLoop, hcg])
          | hbool b => exact halloc (by simp only [hSetLoop, hcg])
          | hnum m => exact halloc (by simp only [hSetLoop, hcg])
          | hstr s3 => exact halloc (by simp only [hSetLoop, hcg])
      | none => exact halloc (by simp only [hSetLoop, hcg])

theorem setByPathHeap_eq (h : Heap) (root : HVal) (path : String) (v : HVal) :
    setByPathHeap h root path v =
      match (hCloneV (h.length + 1) h root).2 with
      | HVal.href a =>
          (hSetLoop (hCloneV (h.length + 1) h root).1 a (pathSegs path) v,
           HVal.href a)
      | r => ((hCloneV (h.length + 1) h root).1, r) := by
  simp only [setByPathHeap]
  cases (hCloneV (h.length + 1) h root).2 <;> rfl

/-- C8: setByPath is non-destructive.  First clause (pure model): for every
container document, path, and value, the returned document holds the value
at the path, with missing, null, or non-container intermediates repaired by
fresh empty containers along the way.  Second clause (heap model): the
returned heap agrees with the input heap on every pre-existing cell; the
clone-then-mutate implementation never writes into the object graph of the
original document, so callers may retain references to it. -/
theorem setByPath_nondestructive (d : JValue) (path : String) (v : JValue)
    (hd : isContainer d = true) (h : Heap) (root hv : HVal) :
    getByPath (setByPath d path v) path = some v ∧
    ∀ a, a < h.length → ((setByPathHeap h root path hv).1).get? a = h.get? a := by
  constructor
  · exact getSegs_setSegs_self (pathSegs path) hd v (pathSegs_ne_nil path)
  · intro a ha
    obtain ⟨ext, hext⟩ := hCloneV_ext (h.length + 1) h root
    obtain ⟨hhc, hrefs⟩ := hCloneV_pres h.length (h.length + 1) h root
      (Nat.le_refl _) (highCells_self h)
    have hlow : (hCloneV (h.length + 1) h root).1.get? a = h.get? a := by
      rw [hext]
      exact hget_append_lt h ext a ha
    cases hr : (hCloneV (h.length + 1) h root).2 with
    | href a0 =>
        rw [setByPathHeap_eq, hr]
        show (hSetLoop (hCloneV (h.length + 1) h root).1 a0 (pathSegs path) hv).get? a
          = h.get? a
        have hn0 : h.length ≤ a0 := hrefs a0 hr
        have hlen1 : h.length ≤ (hCloneV (h.length + 1) h root).1.length := by
          rw [hext, List.length_append]
          omega
        rw [hSetLoop_frame (pathSegs path) _ a0 hv h.length hn0 hlen1 hhc a ha]
        exact hlow
    | hnull =>
        rw [setByPathHeap_eq, hr]
        exact hlow
    | hbool b =>
        rw [setByPathHeap_eq, hr]
        exact hlow
    | hnum m =>
        rw [setByPathHeap_eq, hr]
        exact hlow
    | hstr s2 =>
        rw [setByPathHeap_eq, hr]
        exact hlow

/-- C8 witness: setting "a.b" over the document with string field "a"
repairs the intermediate, stores the value, and leaves cell 0 of the
original heap untouched. -/
theorem setByPath_nondestructive_witness :
    isContainer (JValue.jobj [("a", JValue.jstr "x")]) = true ∧
    getByPath (setByPath (JValue.jobj [("a", JValue.jstr "x")]) "a.b"
      (JValue.jstr "y")) "a.b" = some (JValue.jstr "y") ∧
    ((setByPathHeap [HNode.nodeObj [("a", HVal.hstr "x")]] (HVal.href 0) "a.b"
        (HVal.hstr "y")).1).get? 0 = some (HNode.nodeObj [("a", HVal.hstr "x")]) := by
  have h := setByPath_nondestructive (JValue.jobj [("a", JValue.jstr "x")]) "a.b"
    (JValue.jstr "y") (by decide) [HNode.nodeObj [("a", HVal.hstr "x")]]
    (HVal.href 0) (HVal.hstr "y")
  refine ⟨by decide, h.1, ?_⟩
  have h2 := h.2 0 (by decide)
  rw [h2]
  rfl


end OpenclawSecure
